import Mathlib

/-!
Shallow embedding of `src/sww.py` (class `Server` and its helper functions).

A Python `dict[int, set[int]]` is modelled as an association list
`List (Nat × List Nat)`; iteration order of a Python `dict`/`set` is the list
order, `dict.get` is `find?`, pushing onto a Python list used as a stack is
`cons` onto the front of a Lean list (Python `list.pop()` pops the last
appended element, which is the head under this convention), and a FIFO
`queue.Queue` keeps its front at the head of the list (`put` appends at the
tail).

Python code that raises an uncaught exception (for example
`None.destinationIds`, `None <= set()`, `max({})`) is modelled by `Option`:
`none` is a raised exception, `some v` a normal return.  Recursive functions
and `while` loops take an explicit fuel argument; top-level wrappers supply a
fuel that is large enough for every terminating run (bounds are noted at each
definition).
-/

namespace Sww

abbrev PageId := Nat

/-- `Server.record`: page id to `destinationIds`, in insertion order. -/
abbrev Record := List (PageId × List PageId)

/-- A constructed hypertext / snapshot, same shape as the record. -/
abbrev Snapshot := List (PageId × List PageId)

/-- `getMember(s)`: first member of the iteration, `None` when empty. -/
def getMember (l : List PageId) : Option PageId :=
  l.head?

/-- `Server.getPage(id)`: `self.record.get(id)`. -/
def getPage (r : Record) (id : PageId) : Option (List PageId) :=
  (r.find? (fun p => p.1 = id)).map Prod.snd

/-- `Server.getPageIds()`: `self.record.keys()`. -/
def pageIds (r : Record) : List PageId :=
  r.map Prod.fst

/-- Keys of a snapshot under construction (`in constructed` / `in hypertext`). -/
def snapKeys (s : Snapshot) : List PageId :=
  s.map Prod.fst

/-- Total number of links in the record; used for fuel bounds. -/
def edgeCount (r : Record) : Nat :=
  (r.map (fun p => p.2.length)).sum

/-- `constructHypertextUniteratively(originId, constructed)` inside
`Server.getInducedSubgraph`, with its recursion flattened into an explicit
worklist (the processing order and the threading of `constructed` are
exactly those of the Python recursion: a page's entry is recorded first and
its destinations are then handled in order, each with its full subtree,
before the remaining work).  A dangling id makes `self.getPage` return
`None` and the attribute access `.destinationIds` raise `AttributeError`,
hence `none`.  Each worklist entry is consumed once and at most one
destination list is ever appended per recorded page, so fuel
`pages + links + 2` covers every run. -/
def constructLoop (r : Record) : Nat → List PageId → Snapshot → Option Snapshot
  | _, [], constructed => some constructed
  | 0, _ :: _, _ => none
  | fuel + 1, originId :: rest, constructed =>
    if originId ∈ snapKeys constructed then
      constructLoop r fuel rest constructed
    else
      match getPage r originId with
      | none => none
      | some dests => constructLoop r fuel (dests ++ rest) (constructed ++ [(originId, dests)])

/-- One call `constructHypertextUniteratively(originId, constructed)`. -/
def constructHU (r : Record) (originId : PageId) (constructed : Snapshot) : Option Snapshot :=
  constructLoop r (r.length + edgeCount r + 2) [originId] constructed

/-- The `while leftPages:` loop of `Server.getInducedSubgraph` with no origin. -/
def wholeStoreLoop (r : Record) : Nat → List PageId → Snapshot → Option Snapshot
  | 0, _, _ => none
  | fuel + 1, leftPages, constructed =>
    match getMember leftPages with
    | none => some constructed
    | some m =>
      match constructHU r m constructed with
      | none => none
      | some c2 => wholeStoreLoop r fuel (leftPages.filter (fun p => p ∉ snapKeys c2)) c2

/-- `Server.getInducedSubgraph(originId)`.  The recursion depth of
`constructHypertextUniteratively` is bounded by the number of registered
pages plus two (each nested level first records a fresh key), so fuel
`r.length + 2` never runs out; similarly the outer loop shrinks
`leftPages` on every iteration. -/
def getInducedSubgraph (r : Record) (originId : Option PageId) : Option Snapshot :=
  match originId with
  | none => wholeStoreLoop r (r.length + 1) (pageIds r) []
  | some o => constructHU r o []

/-- The `while stack:` loop of `Server.getInducedSubgraph_nonrec`.
`origin? = none` enables the `leftPageIds` refill branch. -/
def nonrecBuildLoop (r : Record) (origin? : Option PageId) :
    Nat → List PageId → List PageId → Snapshot → Option Snapshot
  | 0, _, _, _ => none
  | fuel + 1, stack, left, ht =>
    match stack with
    | [] => some ht
    | locationId :: stackRest =>
      let next? : Option (List PageId × Snapshot) :=
        if locationId ∈ snapKeys ht then
          some (stackRest, ht)
        else
          match getPage r locationId with
          | none => none
          | some dests =>
            let ht2 := ht ++ [(locationId, dests)]
            some (dests.foldl (fun s d => if d ∈ snapKeys ht2 then s else d :: s) stackRest, ht2)
      match next? with
      | none => none
      | some (stack2, ht2) =>
        match origin? with
        | some _ => nonrecBuildLoop r origin? fuel stack2 left ht2
        | none =>
          let left2 := left.filter (fun p => p ∉ snapKeys ht2)
          if left2 ≠ [] ∧ stack2 = [] then
            nonrecBuildLoop r origin? fuel [left2.headI] left2 ht2
          else
            nonrecBuildLoop r origin? fuel stack2 left2 ht2

/-- `Server.getInducedSubgraph_nonrec(originId)`.  With no origin and an
empty record, `getMember` yields Python `None`, the loop pops `None` and
`self.getPage(None).destinationIds` raises `AttributeError`: `none`.
Fuel: every iteration pops one entry; total pushes are bounded by the
number of links, restarts by the number of pages. -/
def getInducedSubgraph_nonrec (r : Record) (originId : Option PageId) : Option Snapshot :=
  let fuel := 2 * (r.length + edgeCount r) + 4
  match originId with
  | none =>
    match getMember (pageIds r) with
    | none => none
    | some m => nonrecBuildLoop r none fuel [m] (pageIds r) []
  | some o => nonrecBuildLoop r (some o) fuel [o] [] []

/-- `Server.getHypertext()`: `{pageId: page.destinationIds for ...}` is the
record itself under this encoding. -/
def getHypertext (r : Record) : Snapshot :=
  r

/-- `Server.getHyperlinks()`: every `(startId, endId)` pair. -/
def getHyperlinks (r : Record) : List (PageId × PageId) :=
  r.flatMap (fun p => p.2.map (fun d => (p.1, d)))

/-- Insertion step of `Server.getTransposeHypertext`: record the reversed
link `a → b` in the transpose dictionary being built. -/
def addTransposeEdge (ht : Snapshot) (a b : PageId) : Snapshot :=
  if a ∈ snapKeys ht then
    ht.map (fun p => if p.1 = a then (p.1, if b ∈ p.2 then p.2 else p.2 ++ [b]) else p)
  else
    ht ++ [(a, [b])]

/-- `Server.getTransposeHypertext()`: reverse every hyperlink, then add the
pages that have outgoing but no incoming links as keys with an empty set
(those key sets are disjoint from the reversed-link keys, so the Python
`|=` merge is a plain append). -/
def getTransposeHypertext (r : Record) : Snapshot :=
  let links := getHyperlinks r
  let t := links.foldl (fun m e => addTransposeEdge m e.2 e.1) []
  let noIn := ((links.map Prod.fst).filter (fun s => s ∉ links.map Prod.snd)).dedup
  t ++ noIn.map (fun p => (p, []))

/-- `label_oneway(locationId, n)` inside `Server.getSCCs`: one-way postorder
labelling, with the recursion flattened into an explicit frame list.  A
frame `inl locationId` is a pending call `label_oneway(locationId, n)`, a
frame `inr locationId` performs the label assignment that Python runs after
the destination loop returns; the state `(n, visitedPageIds,
pageIdToLabel)` is threaded exactly as in the recursion.
`hypertext.get(locationId)` being `None` (a dangling id) or an empty set
are both falsy, so a dangling id is labelled as a dead end, never a
crash. -/
def labelWalk (r : Record) : Nat → List (Sum PageId PageId) → Nat → List PageId →
    List (PageId × Nat) → Option (Nat × List PageId × List (PageId × Nat))
  | _, [], n, visited, labels => some (n, visited, labels)
  | 0, _ :: _, _, _, _ => none
  | fuel + 1, Sum.inl locationId :: rest, n, visited, labels =>
    if locationId ∈ visited then
      labelWalk r fuel rest n visited labels
    else
      match getPage r locationId with
      | none => labelWalk r fuel rest (n + 1) (visited ++ [locationId]) (labels ++ [(locationId, n)])
      | some [] => labelWalk r fuel rest (n + 1) (visited ++ [locationId]) (labels ++ [(locationId, n)])
      | some dests =>
        labelWalk r fuel (dests.map Sum.inl ++ [Sum.inr locationId] ++ rest) n
          (visited ++ [locationId]) labels
  | fuel + 1, Sum.inr locationId :: rest, n, visited, labels =>
    labelWalk r fuel rest (n + 1) visited (labels ++ [(locationId, n)])

/-- The recursive driver `label(n, pageIdToLabel, visitedPageIds)` of
`Server.getSCCs`: while some page of the hypertext is unvisited, run
`label_oneway` from an arbitrary remaining page. -/
def labelDriver (r : Record) : Nat → Nat → List PageId → List (PageId × Nat) →
    Option (List (PageId × Nat))
  | 0, _, _, _ => none
  | fuel + 1, n, visited, labels =>
    match getMember ((pageIds r).filter (fun k => k ∉ visited)) with
    | none => some labels
    | some startPageId =>
      match labelWalk r (2 * (r.length + edgeCount r) + 4) [Sum.inl startPageId] n visited labels with
      | none => none
      | some (n2, v2, l2) => labelDriver r fuel n2 v2 l2

/-- `labelToPageId[max(labelToPageId.keys())]`: the page carrying the largest
label.  Python's `max` on an empty dict raises `ValueError`, hence `none`. -/
def maxLabelPage (labels : List (PageId × Nat)) : Option PageId :=
  match (labels.map Prod.snd).max? with
  | none => none
  | some m => (labels.find? (fun x => x.2 = m)).map Prod.fst

/-- `getOneComponent(locationId)` inside `Server.getSCCs`: collect every page
reachable over the transpose graph that is not yet visited, the recursion
flattened into an explicit worklist (a page is collected when first
reached, its transpose links are then handled in order, each with its full
subtree — the visit order of the Python recursion).  A missing transpose
entry (`transposeHypertext.get` returning `None`) is falsy and treated
like an empty link set, never a crash. -/
def componentWalk (t : Snapshot) : Nat → List PageId → List PageId → List PageId →
    Option (List PageId × List PageId)
  | _, [], rv, visited => some (rv, visited)
  | 0, _ :: _, _, _ => none
  | fuel + 1, locationId :: rest, rv, visited =>
    if locationId ∈ visited then
      componentWalk t fuel rest rv visited
    else
      match getPage t locationId with
      | none => componentWalk t fuel rest (rv ++ [locationId]) (visited ++ [locationId])
      | some [] => componentWalk t fuel rest (rv ++ [locationId]) (visited ++ [locationId])
      | some dests =>
        componentWalk t fuel (dests ++ rest) (rv ++ [locationId]) (visited ++ [locationId])

/-- The recursive driver `getComponents(foundComponents, visitedPageIds)` of
`Server.getSCCs`: while some key of the transpose graph is unvisited,
extract one component starting from the page with the maximal label and
drop the labels of its members. -/
def getComponentsDriver (t : Snapshot) : Nat → List (PageId × Nat) → List PageId →
    List (List PageId) → Option (List (List PageId))
  | 0, _, _, _ => none
  | fuel + 1, labels, visited, found =>
    if (snapKeys t).filter (fun k => k ∉ visited) = [] then
      some found
    else
      match maxLabelPage labels with
      | none => none
      | some startId =>
        match componentWalk t (2 * (t.length + edgeCount t) + 4) [startId] [] visited with
        | none => none
        | some (component, v2) =>
          getComponentsDriver t fuel (labels.filter (fun x => x.1 ∉ component)) v2
            (found ++ [component])

/-- `Server.getSCCs()`: label, transpose, then extract the components.  The
result is the list of components in extraction order. -/
def getSCCs (r : Record) : Option (List (List PageId)) :=
  match labelDriver r (r.length + 1) 0 [] [] with
  | none => none
  | some labels =>
    let t := getTransposeHypertext r
    getComponentsDriver t (labels.length + t.length + 2) labels [] []

/-- Inner `while stack:` labelling loop of `Server.getSccs_nonrec`.  A popped
page that is already labelled is skipped; otherwise it is marked visited and
either labelled (no links, or all links visited or self) or pushed back
under all of its links. -/
def nonrecLabelLoop (r : Record) : Nat → List PageId → List PageId → List (PageId × Nat) →
    Nat → Option (List PageId × List (PageId × Nat) × Nat)
  | 0, _, _, _, _ => none
  | fuel + 1, stack, visited, labels, n =>
    match stack with
    | [] => some (visited, labels, n)
    | locationId :: stackRest =>
      if locationId ∈ labels.map Prod.fst then
        nonrecLabelLoop r fuel stackRest visited labels n
      else
        let visited2 := if locationId ∈ visited then visited else visited ++ [locationId]
        let needLabelling :=
          match getPage r locationId with
          | none => true
          | some [] => true
          | some dests => dests.all (fun d => d ∈ visited2 ∨ d = locationId)
        if needLabelling then
          nonrecLabelLoop r fuel stackRest visited2 (labels ++ [(locationId, n)]) (n + 1)
        else
          match getPage r locationId with
          | none => nonrecLabelLoop r fuel stackRest visited2 labels n
          | some dests =>
            nonrecLabelLoop r fuel (dests.foldl (fun s d => d :: s) (locationId :: stackRest))
              visited2 labels n

/-- Outer labelling loop of `Server.getSccs_nonrec`: while some page is
unvisited, run the stack loop from an arbitrary remaining page. -/
def nonrecLabelDriver (r : Record) : Nat → List PageId → List (PageId × Nat) → Nat →
    Option (List PageId × List (PageId × Nat) × Nat)
  | 0, _, _, _ => none
  | fuel + 1, visited, labels, n =>
    match getMember ((pageIds r).filter (fun k => k ∉ visited)) with
    | none => some (visited, labels, n)
    | some start =>
      match nonrecLabelLoop r ((r.length + edgeCount r + 2) * (r.length + edgeCount r + 2))
          [start] visited labels n with
      | none => none
      | some (v2, l2, n2) => nonrecLabelDriver r fuel v2 l2 n2

/-- Inner extraction loop of `Server.getSccs_nonrec`.  `allLabeled` is
`pageIdToLabel.keys()`, `remaining` the pages still in `labelToPageId`.
`transposeHypertext.get(locationId)` being `None` makes the Python
comparison `None <= set(...)` raise `TypeError`, hence `none`. -/
def nonrecExtractLoop (t : Snapshot) (allLabeled remaining : List PageId) :
    Nat → List PageId → List PageId → Option (List PageId)
  | 0, _, _ => none
  | fuel + 1, stack, component =>
    match stack with
    | [] => some component
    | locationId :: stackRest =>
      match getPage t locationId with
      | none => none
      | some destinationIds =>
        let extracted := allLabeled.filter (fun x => x ∉ remaining)
        let component2 := component ++ [locationId]
        if destinationIds.all (fun d => d ∈ component ∨ d ∈ extracted ∨ d ∈ stackRest) then
          nonrecExtractLoop t allLabeled remaining fuel stackRest component2
        else
          nonrecExtractLoop t allLabeled remaining fuel
            (destinationIds.foldl
              (fun s d =>
                if d ∈ remaining ∧ d ∉ component2 ∧ d ∉ s then d :: s else s)
              stackRest)
            component2

/-- Outer extraction loop of `Server.getSccs_nonrec`: while `labelToPageId`
is non-empty, extract one component from the page with the maximal label. -/
def nonrecExtractDriver (t : Snapshot) (allLabeled : List PageId) :
    Nat → List (PageId × Nat) → List (List PageId) → Option (List (List PageId))
  | 0, _, _ => none
  | fuel + 1, remainingLabels, components =>
    match remainingLabels with
    | [] => some components
    | _ =>
      match maxLabelPage remainingLabels with
      | none => none
      | some start =>
        match nonrecExtractLoop t allLabeled (remainingLabels.map Prod.fst)
            ((t.length + allLabeled.length + 2) * (t.length + allLabeled.length + 2))
            [start] [] with
        | none => none
        | some component =>
          nonrecExtractDriver t allLabeled fuel
            (remainingLabels.filter (fun x => x.1 ∉ component))
            (components ++ [component])

/-- `Server.getSccs_nonrec()`: iterative labelling followed by iterative
extraction over the transpose graph. -/
def getSccs_nonrec (r : Record) : Option (List (List PageId)) :=
  match nonrecLabelDriver r (r.length + 1) [] [] 0 with
  | none => none
  | some (_, labels, _) =>
    let t := getTransposeHypertext r
    nonrecExtractDriver t (labels.map Prod.fst) (labels.length + 1) labels []

/-- `Server.SCCcontracted()`: pick `min(scc)` as the representative of each
component, then add an edge between representatives for every original link
that crosses components.  `self.getPage(pageId)` is `None` for a component
member that is not a registered page (a dangling id collected by
`getSCCs`), so the attribute access raises: `none`.  A destination whose id
is in no component raises `KeyError` on `idToR[destinationId]`. -/
def SCCcontracted (r : Record) : Option Snapshot :=
  match getSCCs r with
  | none => none
  | some sccs =>
    match sccs.mapM (fun scc => (scc.min?).map (fun m => (m, scc))) with
    | none => none
    | some rToIds =>
      let idToR : PageId → Option PageId := fun id =>
        (rToIds.find? (fun x => id ∈ x.2)).map Prod.fst
      let contraction0 : Snapshot := rToIds.map (fun x => (x.1, []))
      rToIds.foldlM
        (fun contraction x =>
          x.2.foldlM
            (fun contraction pageId =>
              match getPage r pageId with
              | none => none
              | some dests =>
                dests.foldlM
                  (fun (contraction : Snapshot) destinationId =>
                    if destinationId ∈ x.2 then
                      some contraction
                    else
                      match idToR destinationId with
                      | none => none
                      | some rep =>
                        some (contraction.map (fun q =>
                          if q.1 = x.1 ∧ rep ∉ q.2 then (q.1, q.2 ++ [rep]) else q)))
                  contraction)
            contraction)
        contraction0

/-- `page.deleteLink(*destinationIds)` for a single id: `set.discard`. -/
def deleteLink (dests : List PageId) (id : PageId) : List PageId :=
  dests.filter (fun d => d ≠ id)

/-- `Server.deletePage(*ids)`: first pop every id from the record, then for
each id delete the links to it held by every remaining page. -/
def deletePage (r : Record) (ids : List PageId) : Record :=
  let r1 := ids.foldl (fun acc id => acc.filter (fun p => p.1 ≠ id)) r
  ids.foldl (fun acc id => acc.map (fun p => (p.1, deleteLink p.2 id))) r1

/-- The `for destinationId in ...` scan inside the search of
`Server.transitiveReduction`: hitting `endId` escapes both loops (result
`none` here encodes the escape, not an exception — the scan itself cannot
raise), other unvisited destinations are pushed onto the stack, which is
returned when the scan runs through. -/
def trScanDests (endId : PageId) : List PageId → List PageId → List PageId →
    Option (List PageId)
  | [], stack, _ => some stack
  | d :: rest, stack, visited =>
    if d = endId then
      none
    else if d ∉ visited then
      trScanDests endId rest (d :: stack) visited
    else
      trScanDests endId rest stack visited

/-- One inner `while stack:` search of `Server.transitiveReduction` for a
fixed `startId`/`endId` pair: search the current working copy from the
other children of `startId`, stopping as soon as `endId` shows up among a
popped page's destinations.  Returns whether the edge is redundant; a
popped unregistered page makes `tmpServer.getPage(locationId)` return
`None` and `.destinationIds` raise, hence `none`. -/
def trSearch (work : Record) (endId : PageId) : Nat → List PageId → List PageId →
    Option Bool
  | 0, _, _ => none
  | fuel + 1, stack, visited =>
    match stack with
    | [] => some false
    | locationId :: stackRest =>
      if locationId ∈ visited then
        trSearch work endId fuel stackRest visited
      else
        match getPage work locationId with
        | none => none
        | some dests =>
          match trScanDests endId dests stackRest (visited ++ [locationId]) with
          | none => some true
          | some stack2 => trSearch work endId fuel stack2 (visited ++ [locationId])

/-- The `for endId in children` loop of `Server.transitiveReduction`:
`children` is the copy taken before the loop, so it is searched from even
after the corresponding direct edge has been deleted. -/
def trEnds (startId : PageId) : List PageId → List PageId → Record →
    List (PageId × PageId) → Option (Record × List (PageId × PageId))
  | _, [], work, deletion => some (work, deletion)
  | children, endId :: rest, work, deletion =>
    let stack := (children.filter (fun c => c ≠ endId)).reverse
    match trSearch work endId (work.length + edgeCount work + 2) stack [startId] with
    | none => none
    | some true =>
      let work2 := work.map (fun p => if p.1 = startId then (p.1, deleteLink p.2 endId) else p)
      trEnds startId children rest work2 (deletion ++ [(startId, endId)])
    | some false => trEnds startId children rest work deletion

/-- The `for startId in tmpServer.getPageIds()` loop. -/
def trStarts : List PageId → Record → List (PageId × PageId) →
    Option (Record × List (PageId × PageId))
  | [], work, deletion => some (work, deletion)
  | startId :: rest, work, deletion =>
    match getPage work startId with
    | none => trStarts rest work deletion
    | some children =>
      if children.length < 2 then
        trStarts rest work deletion
      else
        match trEnds startId children children work deletion with
        | none => none
        | some (work2, deletion2) => trStarts rest work2 deletion2

/-- `Server.transitiveReduction()` together with the final state of its
private working copy `tmpServer` (the Python method returns only the
`deletion` set; the working copy is exposed here so that reachability in
the reduced graph can be stated). -/
def transitiveReductionFull (r : Record) : Option (Record × List (PageId × PageId)) :=
  trStarts (pageIds r) r []

/-- `Server.transitiveReduction()`: the set of removed edges. -/
def transitiveReduction (r : Record) : Option (List (PageId × PageId)) :=
  (transitiveReductionFull r).map Prod.snd

/-- The `while stack:` loop of `Server.getdescendantPageIds`: the first
popped page (the origin) is skipped by the `isFirst` flag, later new pages
are collected; `self.getPage(locationId)` is evaluated unconditionally, so
an unregistered popped page raises `AttributeError`: `none`. -/
def descendantsLoop (r : Record) : Nat → List PageId → List PageId → Bool →
    Option (List PageId)
  | 0, _, _, _ => none
  | fuel + 1, stack, descendants, isFirst =>
    match stack with
    | [] => some descendants
    | locationId :: stackRest =>
      if locationId ∈ descendants then
        descendantsLoop r fuel stackRest descendants isFirst
      else
        let descendants2 := if isFirst then descendants else descendants ++ [locationId]
        match getPage r locationId with
        | none => none
        | some dests =>
          descendantsLoop r fuel
            (dests.foldl (fun s d => if d ∈ descendants2 then s else d :: s) stackRest)
            descendants2 false

/-- `Server.getdescendantPageIds(originId)`. -/
def getdescendantPageIds (r : Record) (originId : PageId) : Option (List PageId) :=
  descendantsLoop r (2 * (r.length + edgeCount r) + 4) [originId] [] true

/-- The `for destinationId in self.getHypertext().get(locationId)` scan of
`Server.getDistance`: return on `endPageId`, otherwise enqueue unseen
destinations and count them for the next level. -/
def bfsScan (endPageId : PageId) : List PageId → List PageId → List PageId → Nat →
    Bool × List PageId × List PageId × Nat
  | [], visited, q, next => (false, visited, q, next)
  | d :: rest, visited, q, next =>
    if d = endPageId then
      (true, visited, q, next)
    else if d ∉ visited then
      bfsScan endPageId rest (visited ++ [d]) (q ++ [d]) (next + 1)
    else
      bfsScan endPageId rest visited q next

/-- The `while q.queue:` loop of `Server.getDistance`: the level bookkeeping
(`same`, `next`, `depth`) runs before each dequeue; a dequeued page whose
id has no hypertext entry makes the `for` loop iterate over `None` and
raise `TypeError`, hence `none`. -/
def bfsLoop (r : Record) (endPageId : PageId) : Nat → List PageId → List PageId →
    Nat → Nat → Nat → Option (Option Nat)
  | 0, _, _, _, _, _ => none
  | fuel + 1, q, visited, depth, same, next =>
    match q with
    | [] => some none
    | locationId :: qRest =>
      let (depth2, same2, next2) :=
        if same = 0 then (depth + 1, next, 0) else (depth, same, next)
      match getPage r locationId with
      | none => none
      | some dests =>
        match bfsScan endPageId dests visited qRest next2 with
        | (true, _, _, _) => some (some (depth2 + 1))
        | (false, v2, q2, nx2) => bfsLoop r endPageId fuel q2 v2 depth2 (same2 - 1) nx2

/-- `Server.getDistance(startPageId, endPageId)`: reject when either id is
not a key of the record, return `0` for equal ids, otherwise run the
breadth-first search.  Each loop iteration dequeues one page and every
enqueue adds a page never seen before, so fuel `2*(pages + links) + 2`
covers every run. -/
def getDistance (r : Record) (startPageId endPageId : PageId) : Option (Option Nat) :=
  if startPageId ∈ pageIds r ∧ endPageId ∈ pageIds r then
    if startPageId = endPageId then
      some (some 0)
    else
      bfsLoop r endPageId (2 * (r.length + edgeCount r) + 2) [startPageId] [startPageId] 0 1 0
  else
    some none

/-- `find(l, i)` from the source: index of `i` in `l`, `-1` when absent.
Only the found case is needed below, so the index is returned as an
`Option`. -/
def findIndex (l : List PageId) (i : PageId) : Option Nat :=
  if i ∈ l then some (l.indexOf i) else none

/-- `f(locationId, path, deadEnds)` inside `Server.findCycle`: path-based
depth-first search, the recursion flattened into an explicit frame list.
A frame `inl (locationId, path)` is a pending call `f(locationId, path)`
(the caller's `destinationId not in deadEnds` guard is evaluated when the
frame is processed, which is when Python evaluates it); a frame
`inr locationId` marks that every destination of `locationId` was explored
without finding a cycle, so Python adds it to `deadEnds` and backtracks.
A found cycle `path[index:] + [locationId]` returns through every level at
once.  `self.getPage(locationId)` is `None` for a dangling id and
`.destinationIds` raises, hence the outer `none`. -/
def cycleWalk (r : Record) : Nat → List (Sum (PageId × List PageId) PageId) → List PageId →
    Option (Option (List PageId) × List PageId)
  | _, [], deadEnds => some (none, deadEnds)
  | 0, _ :: _, _ => none
  | fuel + 1, Sum.inl (locationId, path) :: rest, deadEnds =>
    if locationId ∈ deadEnds then
      cycleWalk r fuel rest deadEnds
    else
      match findIndex path locationId with
      | some index => some (some (path.drop index ++ [locationId]), deadEnds)
      | none =>
        match getPage r locationId with
        | none => none
        | some [] => cycleWalk r fuel rest (deadEnds ++ [locationId])
        | some dests =>
          cycleWalk r fuel
            (dests.map (fun d => Sum.inl (d, path ++ [locationId])) ++ [Sum.inr locationId] ++ rest)
            deadEnds
  | fuel + 1, Sum.inr locationId :: rest, deadEnds =>
    cycleWalk r fuel rest (deadEnds ++ [locationId])

/-- The restart recursion of `Server.findCycle(pageIds)`: search from an
arbitrary candidate; on failure, retry on the candidates that were not
proven dead.  An empty candidate set makes `getMember` yield Python `None`
and `f(None)` crash on `self.getPage(None).destinationIds`: `none`. -/
def findCycleDriver (r : Record) : Nat → List PageId → Option (Option (List PageId))
  | 0, _ => none
  | fuel + 1, candidates =>
    match getMember candidates with
    | none => none
    | some start =>
      match cycleWalk r (2 * (r.length + edgeCount r) + 4) [Sum.inl (start, [])] [] with
      | none => none
      | some (some cyc, _) => some (some cyc)
      | some (none, deadEnds) =>
        match candidates.filter (fun p => p ∉ deadEnds) with
        | [] => some none
        | left => findCycleDriver r fuel left

/-- `Server.findCycle()` with the default candidate set. -/
def findCycle (r : Record) : Option (Option (List PageId)) :=
  findCycleDriver r (r.length + 1) (pageIds r)

/-- `Server.isDAG()`: `self.findCycle() is None`. -/
def isDAG (r : Record) : Option Bool :=
  (findCycle r).map (fun c => c = none)

/-! ## Semantic notions used to state the claims -/

/-- The successor set of a page, empty when the page is unregistered. -/
def destsOf (r : Record) (a : PageId) : List PageId :=
  (getPage r a).getD []

/-- Reachability along hyperlinks of the record. -/
def Reaches (r : Record) : PageId → PageId → Prop :=
  Relation.ReflTransGen (fun a b => b ∈ destsOf r a)

/-- No page links to an unregistered id. -/
def NoDangling (r : Record) : Prop :=
  ∀ p ∈ r, ∀ d ∈ p.2, d ∈ pageIds r

/-- No page links to itself. -/
def NoSelfLoops (r : Record) : Prop :=
  ∀ x, x ∉ destsOf r x

/-- Mutual reachability — the strongly-connected relation. -/
def Mutual (r : Record) (a b : PageId) : Prop :=
  Reaches r a b ∧ Reaches r b a

/-- The record has no non-trivial closed walk. -/
def Acyclic (r : Record) : Prop :=
  ∀ x, ¬ Relation.TransGen (fun a b => b ∈ destsOf r a) x x

/-- A concrete id sequence is a closed walk of the record (the shape
`findCycle` promises). -/
def IsCycleList (r : Record) (l : List PageId) : Prop :=
  2 ≤ l.length ∧ l.head? = l.getLast? ∧ List.Chain' (fun a b => b ∈ destsOf r a) l

/-- A list is the set of components of the strongly-connected relation. -/
def IsSCC (r : Record) (c : List PageId) : Prop :=
  ∃ x0, x0 ∈ c ∧ ∀ y, (y ∈ c ↔ Mutual r x0 y)

/-- Every link of a dead page goes to an earlier dead page: the order in
which `findCycle` declared pages dead is a reverse topological order. -/
def DeadOrder (r : Record) (dead : List PageId) : Prop :=
  ∀ x ∈ dead, ∀ d ∈ destsOf r x, d ∈ dead ∧ List.indexOf d dead < List.indexOf x dead

/-- Shape of the pending frame list of the flattened `f` of
`Server.findCycle`: the frames split into regions under the open
(in-progress) pages of `chain` (innermost first), each region holding the
unprocessed destinations of its owner with the owner's full ancestor path;
`inner` accumulates the chain part already peeled off, and every processed
destination of an owner is either dead or a deeper open page. -/
def CycleRegions (r : Record) (dead : List PageId) :
    List (Sum (PageId × List PageId) PageId) → List PageId → List PageId → Prop
  | W, [], _ => ∃ ys : List PageId,
      W = ys.map (fun y => Sum.inl (y, ([] : List PageId))) ∧ ∀ y ∈ ys, y ∈ pageIds r
  | W, z :: zs, inner => ∃ (C : List PageId) (rest : List (Sum (PageId × List PageId) PageId)),
      W = C.map (fun y => Sum.inl (y, (z :: zs).reverse)) ++ Sum.inr z :: rest ∧
      (∀ y ∈ C, y ∈ destsOf r z) ∧
      (∀ d ∈ destsOf r z, d ∈ C ∨ d ∈ dead ∨ d ∈ inner) ∧
      (match zs with | [] => True | z2 :: _ => z ∈ destsOf r z2) ∧
      CycleRegions r dead rest zs (inner ++ [z])

/-- The node a cycle-search frame is about. -/
def frameNode : Sum (PageId × List PageId) PageId → PageId :=
  Sum.elim (fun a => a.1) id

/-- Termination measure of the flattened cycle search. -/
def cwMeasure (r : Record) (W : List (Sum (PageId × List PageId) PageId))
    (dead chain : List PageId) : Nat :=
  W.length +
    (((pageIds r).dedup.filter (fun x => x ∉ dead ∧ x ∉ chain)).map
      (fun x => (destsOf r x).length + 2)).sum

/-- The node of a labelling-walk frame. -/
def frameNodeL : Sum PageId PageId → PageId :=
  Sum.elim id id

/-- Shape of the pending frame list of the flattened `label_oneway` of
`Server.getSCCs`: regions under the open (in-progress) pages of `chain`
(innermost first), each region holding the unprocessed destinations of its
owner; every processed destination of an owner is already discovered; at
the bottom the leftover root frames. -/
def LabelRegions (r : Record) (vis : List PageId) :
    List (Sum PageId PageId) → List PageId → Prop
  | F, [] => ∃ ys : List PageId, F = ys.map Sum.inl ∧ ∀ y ∈ ys, y ∈ pageIds r
  | F, z :: zs => ∃ (C : List PageId) (rest : List (Sum PageId PageId)),
      F = C.map Sum.inl ++ Sum.inr z :: rest ∧
      (∀ y ∈ C, y ∈ destsOf r z) ∧
      (∀ d ∈ destsOf r z, d ∈ C ∨ d ∈ vis) ∧
      LabelRegions r vis rest zs

/-- Termination measure of the flattened labelling walk. -/
def lwMeasure (r : Record) (F : List (Sum PageId PageId)) (vis : List PageId) : Nat :=
  F.length +
    (((pageIds r).dedup.filter (fun x => x ∉ vis)).map
      (fun x => (destsOf r x).length + 2)).sum

/-- Stable facts accumulated by the labelling walk: `vis` is the discovery
list, `labels` the finish list with consecutive labels, and the ghost list
`E` records, for each finish, how many pages were discovered at that
moment.  The window facts say that every page discovered while a page was
active finishes no later than it and is reachable from it, and that a page
is discovered before it finishes, with all its links discovered too. -/
structure LabelFacts (r : Record) (vis : List PageId)
    (labels : List (PageId × Nat)) (E : List Nat) : Prop where
  hElen : E.length = labels.length
  hnum : labels.map Prod.snd = List.range labels.length
  hlnd : (labels.map Prod.fst).Nodup
  hEb : ∀ e ∈ E, e ≤ vis.length
  hEmono : List.Pairwise (· ≤ ·) E
  hfinv : ∀ q ∈ labels.zip E, q.1.1 ∈ vis.take q.2
  hGE : ∀ q ∈ labels.zip E, ∀ d ∈ destsOf r q.1.1, d ∈ vis.take q.2
  hGW : ∀ q ∈ labels.zip E, ∀ w ∈ vis.take q.2,
    List.indexOf q.1.1 vis ≤ List.indexOf w vis →
    ∃ lw, (w, lw) ∈ labels ∧ lw ≤ q.1.2
  hGT : ∀ q ∈ labels.zip E, ∀ w ∈ vis.take q.2,
    List.indexOf q.1.1 vis ≤ List.indexOf w vis → Reaches r q.1.1 w

/-- Full invariant of the in-flight labelling walk: the stable facts, the
region-structured frame list, and the open chain (the grey pages) with its
discovery order, links and reachability bookkeeping. -/
structure LabelInv (r : Record) (F : List (Sum PageId PageId)) (n : Nat)
    (vis : List PageId) (labels : List (PageId × Nat)) (E : List Nat)
    (chain : List PageId) : Prop where
  facts : LabelFacts r vis labels E
  hn : n = labels.length
  hreg : LabelRegions r vis F chain
  hvnd : vis.Nodup
  hvk : ∀ x ∈ vis, x ∈ pageIds r
  hgray : ∀ x ∈ vis, x ∈ labels.map Prod.fst ∨ x ∈ chain
  hchv : ∀ z ∈ chain, z ∈ vis
  hchnf : ∀ z ∈ chain, z ∉ labels.map Prod.fst
  hchnd : chain.Nodup
  hchord : List.Pairwise (fun a b => List.indexOf b vis < List.indexOf a vis) chain
  hchlink : List.Chain' (fun a b => a ∈ destsOf r b) chain
  hTacc : ∀ z ∈ chain, ∀ w ∈ labels.map Prod.fst,
    List.indexOf z vis ≤ List.indexOf w vis → Reaches r z w

/-- Facts available about a completed labelling run: every registered page
is discovered and finished, and the window facts hold. -/
structure KosarajuFacts (r : Record) (vis : List PageId)
    (labels : List (PageId × Nat)) (E : List Nat) : Prop where
  facts : LabelFacts r vis labels E
  hvnd : vis.Nodup
  hvk : ∀ x ∈ vis, x ∈ pageIds r
  hkv : ∀ x ∈ pageIds r, x ∈ vis
  hlabv : ∀ x, x ∈ labels.map Prod.fst ↔ x ∈ vis

/-- `l` is the largest finish label in the strongly-connected class of
`x`. -/
def MaxClassLabel (r : Record) (labels : List (PageId × Nat)) (x : PageId)
    (l : Nat) : Prop :=
  ∃ y, Mutual r x y ∧ (y, l) ∈ labels ∧
    ∀ w lw, Mutual r x w → (w, lw) ∈ labels → lw ≤ l

/-- One step along the transpose graph avoiding the visited set. -/
def FreshStep (t : Snapshot) (V : List PageId) (a b : PageId) : Prop :=
  b ∈ destsOf t a ∧ b ∉ V

/-- Termination measure of the flattened component collection. -/
def cpMeasure (t : Snapshot) (W visited : List PageId) : Nat :=
  W.length +
    (((pageIds t).dedup.filter (fun x => x ∉ visited)).map
      (fun x => (destsOf t x).length + 2)).sum

/-- A set of pages containing the start and closed under links contains
everything reachable from the start. -/
theorem reaches_mem_of_closed (r : Record) (V : List PageId) (s y : PageId)
    (hs : s ∈ V) (hcl : ∀ x ∈ V, ∀ d ∈ destsOf r x, d ∈ V)
    (h : Reaches r s y) : y ∈ V := by
  induction h with
  | refl => exact hs
  | tail _ hbc ih => exact hcl _ ih _ hbc

/-! ## Theorems about the claims -/

/-- C1: the SCC decomposition does not partition the key set.  On the store
holding the single isolated page `1` (no incoming and no outgoing edges),
the recursive `getSCCs` returns the empty component set — the union of the
components misses the registered page, and the isolated page gets no
singleton component — while the iterative `getSccs_nonrec` raises a
`TypeError` (`transposeHypertext.get(1)` is `None`, and `None <= set(...)`
is unsupported). -/
theorem getSCCs_isolated_page_dropped :
    getSCCs [(1, [])] = some [] ∧ getSccs_nonrec [(1, [])] = none ∧
      pageIds [(1, [])] = [1] :=
  ⟨rfl, rfl, rfl⟩

/-- C3: the recursive and the iterative snapshot builders are not
extensionally equal.  On the empty store with no origin the recursive
builder returns the empty snapshot while the iterative one raises an
`AttributeError` (`getMember` of an empty key set is `None`, and the loop
then evaluates `self.getPage(None).destinationIds`). -/
theorem getInducedSubgraph_variants_disagree :
    getInducedSubgraph ([] : Record) none ≠ getInducedSubgraph_nonrec ([] : Record) none := by
  decide

/-- C4: traversal does fail on dangling links.  On the store where page `1`
links to the unregistered id `2`, both snapshot builders raise an
`AttributeError` (`self.getPage(2)` is `None`) instead of treating `2` as a
leaf. -/
theorem getInducedSubgraph_dangling_crash :
    getInducedSubgraph [(1, [2])] (some 1) = none ∧
      getInducedSubgraph_nonrec [(1, [2])] (some 1) = none :=
  ⟨rfl, rfl⟩

/-- C5: the contraction does not always yield a cycle-free graph, because it
does not always yield a graph at all.  On the store where page `1` links to
the unregistered id `2`, `getSCCs` puts the dangling id `2` into a
component of its own and `SCCcontracted` then raises an `AttributeError`
on `self.getPage(2).destinationIds`. -/
theorem SCCcontracted_dangling_crash :
    SCCcontracted [(1, [2])] = none ∧ getSCCs [(1, [2])] = some [[1], [2]] :=
  ⟨rfl, rfl⟩

/-- C6: `transitiveReduction` removes edges whose removal disconnects the
endpoints.  On the store `{1: {2, 3}, 2: {3}, 3: {2}}` it first removes
`(1, 2)` (redundant via `1 → 3 → 2`), and then — because the search for
`(1, 3)` is seeded from the stale pre-loop copy of the children, which
still contains the already deleted `2` — also removes `(1, 3)`.  Page `1`
ends with no outgoing edges, and the distance from `1` to `2` in the
reduced graph is the no-result value, not a finite number `≥ 2`. -/
theorem transitiveReduction_disconnects :
    transitiveReductionFull [(1, [2, 3]), (2, [3]), (3, [2])] =
        some ([(1, []), (2, [3]), (3, [2])], [(1, 2), (1, 3)]) ∧
      getDistance [(1, []), (2, [3]), (3, [2])] 1 2 = some none :=
  ⟨rfl, rfl⟩

/-- C9: the reachability query raises on an absent entity.  On a store
holding only page `1`, `getdescendantPageIds(2)` pops the unknown origin
`2` and evaluates `self.getPage(2).destinationIds`, raising an
`AttributeError` instead of returning an empty set; `getDistance` with the
same unknown endpoint does return the explicit no-result value. -/
theorem getdescendantPageIds_unknown_origin_crash :
    getdescendantPageIds [(1, [])] 2 = none ∧ getDistance [(1, [])] 2 1 = some none :=
  ⟨rfl, rfl⟩

/-- C10: building a whole-store snapshot of the empty store does not succeed
in the iterative builder: it raises an `AttributeError` (Python `None` is
pushed as the start of the traversal), while the recursive builder returns
the empty snapshot. -/
theorem getInducedSubgraph_nonrec_empty_crash :
    getInducedSubgraph_nonrec ([] : Record) none = none ∧
      getInducedSubgraph ([] : Record) none = some [] :=
  ⟨rfl, rfl⟩

/-- C8, counterexample: deleting page `2` does not leave the remaining
page's successor set unchanged — the link `1 → 2` is scrubbed. -/
theorem deletePage_changes_successors :
    deletePage [(1, [2]), (2, [])] [2] = [(1, [])] ∧
      getPage (deletePage [(1, [2]), (2, [])] [2]) 1 ≠ getPage [(1, [2]), (2, [])] 1 := by
  exact ⟨rfl, by decide⟩

/-- Iterating `record.pop(id)` over the ids drops exactly the pages whose id
is listed. -/
theorem foldl_filter_keys (ids : List PageId) (r : Record) :
    ids.foldl (fun acc id => acc.filter (fun p => p.1 ≠ id)) r
      = r.filter (fun p => p.1 ∉ ids) := by
  induction ids generalizing r with
  | nil => simp
  | cons i ids ih =>
    rw [List.foldl_cons, ih, List.filter_filter]
    apply List.filter_congr
    intro p _
    by_cases h1 : p.1 = i <;> by_cases h2 : p.1 ∈ ids <;> simp [h1, h2]

/-- Iterating `page.deleteLink(id)` over every page and every id scrubs
exactly the listed ids from every successor set. -/
theorem foldl_map_scrub (ids : List PageId) (s : Record) :
    ids.foldl (fun acc id => acc.map (fun p => (p.1, deleteLink p.2 id))) s
      = s.map (fun p => (p.1, p.2.filter (fun d => d ∉ ids))) := by
  induction ids generalizing s with
  | nil => simp
  | cons i ids ih =>
    rw [List.foldl_cons, ih, List.map_map]
    apply List.map_congr_left
    intro p _
    simp only [Function.comp, deleteLink, List.filter_filter]
    congr 1
    apply List.filter_congr
    intro d _
    by_cases h1 : d = i <;> by_cases h2 : d ∈ ids <;> simp [h1, h2]

/-- C8 (amended): deleting nodes removes the given ids from the registry and
also scrubs every remaining node's successor set of all links pointing at
the deleted ids — `deletePage` performs both steps in its single mode, so
remaining successor sets do change and no dangling links toward the
deleted ids are left behind. -/
theorem deletePage_removes_and_scrubs (r : Record) (ids : List PageId) :
    deletePage r ids
      = (r.filter (fun p => p.1 ∉ ids)).map (fun p => (p.1, p.2.filter (fun d => d ∉ ids))) := by
  unfold deletePage
  rw [foldl_filter_keys, foldl_map_scrub]

/-- A scan that returns `true` saw `endPageId` among the destinations. -/
theorem bfsScan_true_mem {e : PageId} :
    ∀ {dests visited q : List PageId} {next : Nat} {v2 q2 : List PageId} {n2 : Nat},
      bfsScan e dests visited q next = (true, v2, q2, n2) → e ∈ dests := by
  intro dests
  induction dests with
  | nil => intro _ _ _ _ _ _ h; simp [bfsScan] at h
  | cons d rest ih =>
    intro visited q next v2 q2 n2 h
    by_cases hd : d = e
    · simp [hd]
    · rw [bfsScan, if_neg hd] at h
      by_cases hv : d ∈ visited
      · rw [if_neg (by simpa using hv)] at h
        exact List.mem_cons_of_mem _ (ih h)
      · rw [if_pos (by simpa using hv)] at h
        exact List.mem_cons_of_mem _ (ih h)

/-- A scan that runs through without finding `endPageId` appends the same
block of fresh pages to both the visited set and the queue; the block
consists of destinations, contains neither `endPageId` nor a duplicate,
and afterwards every destination is visited and differs from
`endPageId`. -/
theorem bfsScan_false_spec {e : PageId} :
    ∀ {dests visited q : List PageId} {next : Nat} {v2 q2 : List PageId} {n2 : Nat},
      bfsScan e dests visited q next = (false, v2, q2, n2) →
      ∃ delta : List PageId,
        v2 = visited ++ delta ∧ q2 = q ++ delta ∧ delta.Nodup ∧
        (∀ d ∈ delta, d ∈ dests ∧ d ≠ e ∧ d ∉ visited) ∧
        (∀ d ∈ dests, d ≠ e ∧ d ∈ v2) := by
  intro dests
  induction dests with
  | nil =>
    intro visited q next v2 q2 n2 h
    simp [bfsScan] at h
    exact ⟨[], by simp [h.1, h.2.1]⟩
  | cons d rest ih =>
    intro visited q next v2 q2 n2 h
    by_cases hd : d = e
    · simp [bfsScan, hd] at h
    · rw [bfsScan, if_neg hd] at h
      by_cases hv : d ∈ visited
      · rw [if_neg (by simpa using hv)] at h
        obtain ⟨delta, hv2, hq2, hnd, hmem, hall⟩ := ih h
        refine ⟨delta, hv2, hq2, hnd, ?_, ?_⟩
        · intro x hx
          obtain ⟨h1, h2, h3⟩ := hmem x hx
          exact ⟨List.mem_cons_of_mem _ h1, h2, h3⟩
        · intro x hx
          rcases List.mem_cons.mp hx with rfl | hx
          · exact ⟨hd, by simp [hv2]; exact Or.inl hv⟩
          · exact hall x hx
      · rw [if_pos (by simpa using hv)] at h
        obtain ⟨delta, hv2, hq2, hnd, hmem, hall⟩ := ih h
        refine ⟨d :: delta, by simpa using hv2, by simpa using hq2, ?_, ?_, ?_⟩
        · refine List.nodup_cons.mpr ⟨?_, hnd⟩
          intro hdin
          exact (hmem d hdin).2.2 (by simp)
        · intro x hx
          rcases List.mem_cons.mp hx with rfl | hx
          · exact ⟨by simp, hd, hv⟩
          · obtain ⟨h1, h2, h3⟩ := hmem x hx
            refine ⟨List.mem_cons_of_mem _ h1, h2, fun hxv => h3 ?_⟩
            simp [hxv]
        · intro x hx
          rcases List.mem_cons.mp hx with rfl | hx
          · exact ⟨hd, by simp [hv2]⟩
          · exact hall x hx

/-- A successful `self.record.get` exposes an entry of the record. -/
theorem getPage_mem {r : Record} {x : PageId} {ds : List PageId}
    (h : getPage r x = some ds) : (x, ds) ∈ r := by
  unfold getPage at h
  rcases hf : r.find? (fun p => p.1 = x) with _ | p
  · rw [hf] at h; simp at h
  · rw [hf] at h
    have hmem := List.mem_of_find?_eq_some hf
    have hkey := List.find?_some hf
    simp only [decide_eq_true_eq] at hkey
    simp only [Option.map, Option.some.injEq] at h
    cases p with
    | mk a b => subst hkey; subst h; exact hmem

/-- A page with a successful lookup is registered. -/
theorem getPage_some_key {r : Record} {x : PageId} {ds : List PageId}
    (h : getPage r x = some ds) : x ∈ pageIds r := by
  have := getPage_mem h
  exact List.mem_map.mpr ⟨(x, ds), this, rfl⟩

/-- A registered page has a successful lookup. -/
theorem getPage_isSome_of_key {r : Record} {x : PageId} (h : x ∈ pageIds r) :
    ∃ ds, getPage r x = some ds := by
  unfold pageIds at h
  obtain ⟨p, hp, hpx⟩ := List.mem_map.mp h
  have : (r.find? (fun q => q.1 = x)).isSome := by
    rw [List.find?_isSome]
    exact ⟨p, hp, by simp [hpx]⟩
  rcases hf : r.find? (fun q => q.1 = x) with _ | q
  · rw [hf] at this; simp at this
  · exact ⟨q.2, by unfold getPage; rw [hf]; rfl⟩

/-- After one expansion step of the search that did not find the target, all
the queue/visited invariants are restored and the termination measure
decreases. -/
theorem bfs_step_invariants (r : Record) (s e loc : PageId)
    (qRest visited dests v2 q2 : List PageId) (nx0 nx2 : Nat)
    (hND : NoDangling r)
    (hpage : getPage r loc = some dests)
    (hscan : bfsScan e dests visited qRest nx0 = (false, v2, q2, nx2))
    (hqv : ∀ x ∈ loc :: qRest, x ∈ visited)
    (hvk : ∀ x ∈ visited, x ∈ pageIds r)
    (hreach : ∀ x ∈ visited, Reaches r s x)
    (he : e ∉ visited)
    (hs : s ∈ visited)
    (hclosed : ∀ x ∈ visited, x ∉ loc :: qRest →
      e ∉ destsOf r x ∧ ∀ d ∈ destsOf r x, d ∈ visited) :
    (∀ x ∈ q2, x ∈ v2) ∧ (∀ x ∈ v2, x ∈ pageIds r) ∧ (∀ x ∈ v2, Reaches r s x) ∧
      e ∉ v2 ∧ s ∈ v2 ∧
      (∀ x ∈ v2, x ∉ q2 → e ∉ destsOf r x ∧ ∀ d ∈ destsOf r x, d ∈ v2) ∧
      2 * ((pageIds r).toFinset \ v2.toFinset).card + q2.length <
        2 * ((pageIds r).toFinset \ visited.toFinset).card + (loc :: qRest).length := by
  obtain ⟨delta, hv2, hq2, hnd, hmem, hall⟩ := bfsScan_false_spec hscan
  subst hv2; subst hq2
  have hdof : destsOf r loc = dests := by simp [destsOf, hpage]
  have hdk : ∀ d ∈ dests, d ∈ pageIds r :=
    fun d hd => hND (loc, dests) (getPage_mem hpage) d hd
  have hlocv : loc ∈ visited := hqv loc (by simp)
  refine ⟨?_, ?_, ?_, ?_, ?_, ?_, ?_⟩
  · intro x hx
    rcases List.mem_append.mp hx with hx | hx
    · exact List.mem_append_left _ (hqv x (List.mem_cons_of_mem _ hx))
    · exact List.mem_append_right _ hx
  · intro x hx
    rcases List.mem_append.mp hx with hx | hx
    · exact hvk x hx
    · exact hdk x (hmem x hx).1
  · intro x hx
    rcases List.mem_append.mp hx with hx | hx
    · exact hreach x hx
    · exact Relation.ReflTransGen.tail (hreach loc hlocv) (by rw [hdof]; exact (hmem x hx).1)
  · intro hx
    rcases List.mem_append.mp hx with hx | hx
    · exact he hx
    · exact (hmem e hx).2.1 rfl
  · exact List.mem_append_left _ hs
  · intro x hx hxq
    rcases List.mem_append.mp hx with hx | hx
    · by_cases hxloc : x = loc
      · subst hxloc
        rw [hdof]
        refine ⟨fun he' => (hall e he').1 rfl, fun d hd => (hall d hd).2⟩
      · have hxr : x ∉ qRest := fun hc => hxq (List.mem_append_left _ hc)
        have := hclosed x hx (by
          intro hc
          rcases List.mem_cons.mp hc with hc | hc
          · exact hxloc hc
          · exact hxr hc)
        exact ⟨this.1, fun d hd => List.mem_append_left _ (this.2 d hd)⟩
    · exact absurd (List.mem_append_right qRest hx) hxq
  · have hdsub : delta.toFinset ⊆ (pageIds r).toFinset \ visited.toFinset := by
      intro d hd
      rw [List.mem_toFinset] at hd
      obtain ⟨h1, _, h3⟩ := hmem d hd
      rw [Finset.mem_sdiff, List.mem_toFinset, List.mem_toFinset]
      exact ⟨hdk d h1, h3⟩
    have hdcard : delta.toFinset.card = delta.length := List.toFinset_card_of_nodup hnd
    have hle : delta.length ≤ ((pageIds r).toFinset \ visited.toFinset).card := by
      rw [← hdcard]; exact Finset.card_le_card hdsub
    have hcard : ((pageIds r).toFinset \ (visited ++ delta).toFinset).card
        = ((pageIds r).toFinset \ visited.toFinset).card - delta.length := by
      rw [List.toFinset_append, ← Finset.sup_eq_union, ← sdiff_sdiff,
        Finset.card_sdiff hdsub, hdcard]
    rw [hcard]
    simp only [List.length_append, List.length_cons]
    omega

/-- Every hop count the search can return is positive. -/
theorem bfsLoop_pos {r : Record} {e : PageId} :
    ∀ {fuel : Nat} {q visited : List PageId} {depth same next k : Nat},
      bfsLoop r e fuel q visited depth same next = some (some k) → 1 ≤ k := by
  intro fuel
  induction fuel with
  | zero => intro _ _ _ _ _ _ h; simp [bfsLoop] at h
  | succ fuel ih =>
    intro q visited depth same next k h
    match q with
    | [] => simp [bfsLoop] at h
    | loc :: qRest =>
      rw [bfsLoop] at h
      rcases hpage : getPage r loc with _ | dests
      · by_cases hsame : same = 0 <;> simp [hsame, hpage] at h
      · by_cases hsame : same = 0 <;>
          rcases hscan : bfsScan e dests visited qRest (if same = 0 then 0 else next)
            with ⟨_ | _, v2, q2, nx2⟩ <;>
          simp [hsame, hpage] at h hscan <;>
          first
          | (rw [hscan] at h; exact ih h)
          | (rw [hscan] at h; simp at h; omega)

/-- One unfolding step of the search loop on a non-empty queue whose front
has a successful lookup. -/
theorem bfsLoop_step_eq (r : Record) (e : PageId) (fuel : Nat) (loc : PageId)
    (qRest visited : List PageId) (depth same next : Nat) (dests : List PageId)
    (hpage : getPage r loc = some dests) :
    bfsLoop r e (fuel + 1) (loc :: qRest) visited depth same next =
      match bfsScan e dests visited qRest (if same = 0 then 0 else next) with
      | (true, _, _, _) => some (some ((if same = 0 then depth + 1 else depth) + 1))
      | (false, v2, q2, nx2) =>
          bfsLoop r e fuel q2 v2 (if same = 0 then depth + 1 else depth)
            ((if same = 0 then next else same) - 1) nx2 := by
  rw [bfsLoop]
  by_cases hsame : same = 0 <;> simp [hsame, hpage]

/-- Invariant lemma for the breadth-first search of `getDistance`: on a
dangling-free record, from a state where the queue is contained in the
visited set, visited pages are registered and reachable from `s`, the
target `e` is unvisited, `s` is visited, and every visited page no longer
queued has been fully expanded, the search never raises; a `none` result
means no page reachable from `s` links to `e`, and a returned hop count
witnesses a reachable page linking to `e`. -/
theorem bfsLoop_spec (r : Record) (s e : PageId) (hND : NoDangling r) :
    ∀ (fuel : Nat) (q visited : List PageId) (depth same next : Nat),
      2 * ((pageIds r).toFinset \ visited.toFinset).card + q.length < fuel →
      (∀ x ∈ q, x ∈ visited) →
      (∀ x ∈ visited, x ∈ pageIds r) →
      (∀ x ∈ visited, Reaches r s x) →
      e ∉ visited →
      s ∈ visited →
      (∀ x ∈ visited, x ∉ q → e ∉ destsOf r x ∧ ∀ d ∈ destsOf r x, d ∈ visited) →
      ∃ res, bfsLoop r e fuel q visited depth same next = some res ∧
        (res = none → ∀ y, Reaches r s y → e ∉ destsOf r y) ∧
        ((∃ k, res = some k) → ∃ x, Reaches r s x ∧ e ∈ destsOf r x) := by
  intro fuel
  induction fuel with
  | zero =>
    intro q visited depth same next hfuel
    omega
  | succ fuel ih =>
    intro q visited depth same next hfuel hqv hvk hreach he hs hclosed
    match q with
    | [] =>
      refine ⟨none, by rw [bfsLoop], ?_, ?_⟩
      · intro _ y hy
        have hycl : y ∈ visited := reaches_mem_of_closed r visited s y hs
          (fun x hx d hd => (hclosed x hx (by simp)).2 d hd) hy
        exact (hclosed y hycl (by simp)).1
      · rintro ⟨k, hk⟩; simp at hk
    | loc :: qRest =>
      have hlocv : loc ∈ visited := hqv loc (by simp)
      have hlock : loc ∈ pageIds r := hvk loc hlocv
      obtain ⟨dests, hpage⟩ := getPage_isSome_of_key hlock
      have hdof : destsOf r loc = dests := by simp [destsOf, hpage]
      rw [bfsLoop_step_eq r e fuel loc qRest visited depth same next dests hpage]
      rcases hscan : bfsScan e dests visited qRest (if same = 0 then 0 else next)
        with ⟨found, v2, q2, nx2⟩
      cases found with
      | true =>
        refine ⟨some ((if same = 0 then depth + 1 else depth) + 1), rfl, ?_, ?_⟩
        · intro hc; simp at hc
        · intro _
          exact ⟨loc, hreach loc hlocv, by rw [hdof]; exact bfsScan_true_mem hscan⟩
      | false =>
        obtain ⟨hqv2, hvk2, hreach2, he2, hs2, hclosed2, hmeas⟩ :=
          bfs_step_invariants r s e loc qRest visited dests v2 q2 _ nx2 hND hpage hscan
            hqv hvk hreach he hs hclosed
        obtain ⟨res, hres, hnone, hsome⟩ :=
          ih q2 v2 (if same = 0 then depth + 1 else depth)
            ((if same = 0 then next else same) - 1) nx2 (by omega) hqv2 hvk2 hreach2
            he2 hs2 hclosed2
        exact ⟨res, hres, hnone, hsome⟩

/-- C7, counterexample: on the store `{1: {2}}` the id `2` appears as a
successor value (and is even one hop from `1`), yet `getDistance(1, 2)` is
rejected with the no-result value; and on the store
`{1: {2}, 2: {3}, 4: set()}` both endpoints `1` and `4` are keys, yet the
query raises a `TypeError` when the search dequeues the dangling id `3` —
in neither case does the promised `0` / hop count / unreachable-no-result
trichotomy hold. -/
theorem getDistance_rejects_successor_only_ids :
    (getDistance [(1, [2])] 1 2 = some none ∧
      2 ∈ destsOf [(1, [2])] 1 ∧ 2 ∉ pageIds [(1, [2])]) ∧
    (getDistance [(1, [2]), (2, [3]), (4, [])] 1 4 = none ∧
      1 ∈ pageIds [(1, [2]), (2, [3]), (4, [])] ∧
      4 ∈ pageIds [(1, [2]), (2, [3]), (4, [])]) := by
  decide

/-- C7 (amended): `getDistance` rejects a query on existence grounds exactly
when an endpoint is not a registered key — an id appearing only as a
successor value counts as unknown and is rejected.  When both endpoints
are keys the result `0` characterises equal endpoints; and on a
dangling-free store with distinct registered endpoints the query never
raises, answers the no-result value exactly when the end is unreachable
from the start, and otherwise returns a positive hop count that implies
reachability. -/
theorem getDistance_existence_and_search (r : Record) (s e : PageId) :
    ((s ∉ pageIds r ∨ e ∉ pageIds r) → getDistance r s e = some none) ∧
    (s ∈ pageIds r → e ∈ pageIds r → (getDistance r s e = some (some 0) ↔ s = e)) ∧
    (NoDangling r → s ∈ pageIds r → e ∈ pageIds r → s ≠ e →
      (∃ res, getDistance r s e = some res) ∧
      (getDistance r s e = some none ↔ ¬ Reaches r s e) ∧
      (∀ k, getDistance r s e = some (some k) → 1 ≤ k ∧ Reaches r s e)) := by
  refine ⟨?_, ?_, ?_⟩
  · intro h
    unfold getDistance
    rw [if_neg (by tauto)]
  · intro hsk hek
    constructor
    · intro h
      by_contra hne
      unfold getDistance at h
      rw [if_pos ⟨hsk, hek⟩, if_neg hne] at h
      have := bfsLoop_pos h
      omega
    · intro h
      unfold getDistance
      rw [if_pos ⟨hsk, hek⟩, if_pos h]
  · intro hND hsk hek hne
    have hmain := bfsLoop_spec r s e hND (2 * (r.length + edgeCount r) + 2) [s] [s] 0 1 0
      (by
        have h1 : ((pageIds r).toFinset \ [s].toFinset).card ≤ (pageIds r).toFinset.card :=
          Finset.card_le_card (Finset.sdiff_subset)
        have h2 : (pageIds r).toFinset.card ≤ (pageIds r).length := List.toFinset_card_le _
        have h3 : (pageIds r).length = r.length := List.length_map _ _
        simp only [List.length_cons, List.length_nil]
        omega)
      (by intro x hx; exact hx)
      (by intro x hx; rw [List.mem_singleton] at hx; subst hx; exact hsk)
      (by intro x hx; rw [List.mem_singleton] at hx; subst hx; exact Relation.ReflTransGen.refl)
      (by rw [List.mem_singleton]; exact fun h => hne h.symm)
      (List.mem_singleton.mpr rfl)
      (by intro x hx hnx; exact absurd hx hnx)
    obtain ⟨res, hres, hnone, hsome⟩ := hmain
    have hgd : getDistance r s e = some res := by
      unfold getDistance
      rw [if_pos ⟨hsk, hek⟩, if_neg hne]
      exact hres
    refine ⟨⟨res, hgd⟩, ?_, ?_⟩
    · constructor
      · intro h
        have hr0 : res = none := by rw [hgd] at h; exact Option.some_injective _ h
        intro hre
        rcases Relation.ReflTransGen.cases_tail hre with h1 | ⟨c, hc, hce⟩
        · exact hne h1.symm
        · exact hnone hr0 c hc hce
      · intro hnr
        rcases hr : res with _ | k
        · rw [hgd, hr]
        · exfalso
          obtain ⟨x, hx, hex⟩ := hsome ⟨k, hr⟩
          exact hnr (Relation.ReflTransGen.tail hx hex)
    · intro k hk
      have hrk : res = some k := by rw [hgd] at hk; exact Option.some_injective _ hk
      obtain ⟨x, hx, hex⟩ := hsome ⟨k, hrk⟩
      refine ⟨?_, Relation.ReflTransGen.tail hx hex⟩
      have : bfsLoop r e (2 * (r.length + edgeCount r) + 2) [s] [s] 0 1 0 = some (some k) := by
        rw [hres, hrk]
      exact bfsLoop_pos this

/-- C7, witness for the amended theorem: on the dangling-free store
`{5: {6}, 6: set()}` the query `getDistance(5, 6)` is not the no-result
value, since `6` is reachable from `5`. -/
theorem getDistance_existence_and_search_witness :
    getDistance [(5, [6]), (6, [])] 5 6 ≠ some none := by
  intro h
  have H := getDistance_existence_and_search [(5, [6]), (6, [])] 5 6
  have h3 := H.2.2 (by unfold NoDangling; decide) (by decide) (by decide) (by decide)
  exact absurd (h3.2.1.mp h)
    (not_not_intro (Relation.ReflTransGen.single (show (6 : PageId) ∈ destsOf [(5, [6]), (6, [])] 5 by decide)))

/-! ## Correctness of the cycle search -/

/-- Under a dangling-free record every link target is registered. -/
theorem nd_dests {r : Record} (hND : NoDangling r) :
    ∀ z, ∀ d ∈ destsOf r z, d ∈ pageIds r := by
  intro z d hd
  unfold destsOf at hd
  rcases hp : getPage r z with _ | ds
  · rw [hp] at hd; simp at hd
  · rw [hp] at hd
    exact hND (z, ds) (getPage_mem hp) d hd

/-- Filtering with a stronger predicate never increases a mapped sum. -/
theorem sum_filter_mono (l : List PageId) (f : PageId → Nat) (q q' : PageId → Bool)
    (h : ∀ x, q' x = true → q x = true) :
    ((l.filter q').map f).sum ≤ ((l.filter q).map f).sum := by
  induction l with
  | nil => simp
  | cons a l ih =>
    by_cases ha : q' a = true
    · rw [List.filter_cons_of_pos ha, List.filter_cons_of_pos (h a ha)]
      simp only [List.map_cons, List.sum_cons]
      omega
    · rw [List.filter_cons_of_neg (by simpa using ha)]
      by_cases hqa : q a = true
      · rw [List.filter_cons_of_pos hqa]
        simp only [List.map_cons, List.sum_cons]
        omega
      · rw [List.filter_cons_of_neg (by simpa using hqa)]
        exact ih

/-- Removing one element from the filtered range drops its contribution. -/
theorem sum_filter_drop_elem (l : List PageId) (hl : l.Nodup) (f : PageId → Nat)
    (q q' : PageId → Bool) (y : PageId) (hy : y ∈ l)
    (h : ∀ x, q' x = true → q x = true) (hqy : q y = true) (hq'y : q' y = false) :
    ((l.filter q').map f).sum + f y ≤ ((l.filter q).map f).sum := by
  induction l with
  | nil => simp at hy
  | cons a l ih =>
    rcases List.mem_cons.mp hy with rfl | hy2
    · rw [List.filter_cons_of_pos hqy, List.filter_cons_of_neg (by simp [hq'y])]
      simp only [List.map_cons, List.sum_cons]
      have := sum_filter_mono l f q q' h
      omega
    · have hl2 := (List.nodup_cons.mp hl).2
      by_cases ha : q' a = true
      · rw [List.filter_cons_of_pos ha, List.filter_cons_of_pos (h a ha)]
        simp only [List.map_cons, List.sum_cons]
        have := ih hl2 hy2
        omega
      · rw [List.filter_cons_of_neg (by simpa using ha)]
        by_cases hqa : q a = true
        · rw [List.filter_cons_of_pos hqa]
          simp only [List.map_cons, List.sum_cons]
          have := ih hl2 hy2
          omega
        · rw [List.filter_cons_of_neg (by simpa using hqa)]
          exact ih hl2 hy2

/-- A non-empty link chain yields reachability from its head to its last
element. -/
theorem chainPrime_reaches {r : Record} :
    ∀ (l : List PageId), List.Chain' (fun x y => y ∈ destsOf r x) l →
      ∀ a b, l.head? = some a → l.getLast? = some b → Reaches r a b := by
  intro l
  induction l with
  | nil => intro _ a b ha _; simp at ha
  | cons x l ih =>
    intro hch a b ha hb
    match l with
    | [] =>
      simp at ha hb
      subst ha; subst hb
      exact Relation.ReflTransGen.refl
    | y :: l2 =>
      rw [List.chain'_cons] at hch
      simp only [List.head?_cons, Option.some.injEq] at ha
      subst ha
      rw [List.getLast?_cons_cons] at hb
      exact Relation.ReflTransGen.head hch.1 (ih hch.2 y b rfl hb)

/-- A closed walk list witnesses a non-trivial closed walk. -/
theorem isCycleList_not_acyclic {r : Record} {l : List PageId}
    (h : IsCycleList r l) : ¬ Acyclic r := by
  obtain ⟨hlen, hhead, hchain⟩ := h
  intro hac
  match l, hlen with
  | x :: y :: rest, _ =>
    have hxy : y ∈ destsOf r x := (List.chain'_cons.mp hchain).1
    have hlast : (y :: rest).getLast? = some x := by
      rw [← List.getLast?_cons_cons (l := rest) (a := x), ← hhead]
      rfl
    have hry := chainPrime_reaches (y :: rest) (List.chain'_cons.mp hchain).2 y x rfl hlast
    exact hac x (Relation.TransGen.head' hxy hry)

/-- A non-trivial closed walk on a self-loop-free record yields two distinct
mutually reachable pages. -/
theorem not_acyclic_mutual {r : Record} (hNS : NoSelfLoops r) (h : ¬ Acyclic r) :
    ∃ u v, u ≠ v ∧ Mutual r u v := by
  rw [Acyclic] at h
  push_neg at h
  obtain ⟨x, hx⟩ := h
  obtain ⟨c, hxc, hcx⟩ := Relation.TransGen.head'_iff.mp hx
  by_cases hcex : c = x
  · subst hcex
    exact absurd hxc (hNS c)
  · exact ⟨x, c, fun hh => hcex hh.symm, Relation.ReflTransGen.single hxc, hcx⟩

/-- A region decomposition stays valid when the dead set grows. -/
theorem cycleRegions_mono_dead {r : Record} {dead dead' : List PageId} :
    ∀ (chain : List PageId) (W : List (Sum (PageId × List PageId) PageId)) (inner : List PageId),
      CycleRegions r dead W chain inner → (∀ x ∈ dead, x ∈ dead') →
      CycleRegions r dead' W chain inner := by
  intro chain
  induction chain with
  | nil => intro W inner h _; exact h
  | cons z zs ih =>
    intro W inner h hsub
    obtain ⟨C, rest, hW, hC, hcov, hlink, hrest⟩ := h
    refine ⟨C, rest, hW, hC, ?_, hlink, ih rest (inner ++ [z]) hrest hsub⟩
    intro d hd
    rcases hcov d hd with h1 | h1 | h1
    · exact Or.inl h1
    · exact Or.inr (Or.inl (hsub d h1))
    · exact Or.inr (Or.inr h1)

/-- A region decomposition stays valid when the peeled chain set grows. -/
theorem cycleRegions_mono_inner {r : Record} {dead : List PageId} :
    ∀ (chain : List PageId) (W : List (Sum (PageId × List PageId) PageId))
      (inner inner' : List PageId),
      (∀ x ∈ inner, x ∈ inner') → CycleRegions r dead W chain inner →
      CycleRegions r dead W chain inner' := by
  intro chain
  induction chain with
  | nil => intro W inner inner' _ h; exact h
  | cons z zs ih =>
    intro W inner inner' hsub h
    obtain ⟨C, rest, hW, hC, hcov, hlink, hrest⟩ := h
    refine ⟨C, rest, hW, hC, ?_, hlink, ?_⟩
    · intro d hd
      rcases hcov d hd with h1 | h1 | h1
      · exact Or.inl h1
      · exact Or.inr (Or.inl h1)
      · exact Or.inr (Or.inr (hsub d h1))
    · refine ih rest (inner ++ [z]) (inner' ++ [z]) ?_ hrest
      intro x hx
      rcases List.mem_append.mp hx with hx | hx
      · exact List.mem_append_left _ (hsub x hx)
      · exact List.mem_append_right _ hx

/-- The open chain of a region decomposition is linked by edges from parent
to child, read outermost-first along the reversed chain. -/
theorem cycleRegions_chain_links {r : Record} {dead : List PageId} :
    ∀ (chain : List PageId) (W : List (Sum (PageId × List PageId) PageId)) (inner : List PageId),
      CycleRegions r dead W chain inner →
      List.Chain' (fun a b => b ∈ destsOf r a) chain.reverse := by
  intro chain
  induction chain with
  | nil => intro _ _ _; simp
  | cons z zs ih =>
    intro W inner h
    obtain ⟨C, rest, hW, hC, hcov, hlink, hrest⟩ := h
    have hzs := ih rest (inner ++ [z]) hrest
    rw [List.reverse_cons]
    rw [List.chain'_append]
    refine ⟨hzs, List.chain'_singleton z, ?_⟩
    intro x hx y hy
    rw [List.getLast?_reverse] at hx
    simp only [List.head?_cons, Option.mem_def, Option.some.injEq] at hy
    subst hy
    match zs, hx with
    | z2 :: zs2, hx =>
      simp only [List.head?_cons, Option.mem_def, Option.some.injEq] at hx
      subst hx
      exact hlink

/-- One step of the flattened cycle search: a dead frame is skipped. -/
theorem cycleWalk_skip (r : Record) (fuel : Nat) (loc : PageId) (p : List PageId)
    (W : List (Sum (PageId × List PageId) PageId)) (dead : List PageId) (h : loc ∈ dead) :
    cycleWalk r (fuel + 1) (Sum.inl (loc, p) :: W) dead = cycleWalk r fuel W dead := by
  rw [cycleWalk]
  simp [h]

/-- One step of the flattened cycle search: a frame on its own path returns
the cycle. -/
theorem cycleWalk_hit (r : Record) (fuel : Nat) (loc : PageId) (p : List PageId)
    (W : List (Sum (PageId × List PageId) PageId)) (dead : List PageId) (idx : Nat)
    (h1 : loc ∉ dead) (h2 : findIndex p loc = some idx) :
    cycleWalk r (fuel + 1) (Sum.inl (loc, p) :: W) dead =
      some (some (p.drop idx ++ [loc]), dead) := by
  rw [cycleWalk]
  simp [h1, h2]

/-- One step of the flattened cycle search: a fresh frame with no links dies
at once. -/
theorem cycleWalk_deadend (r : Record) (fuel : Nat) (loc : PageId) (p : List PageId)
    (W : List (Sum (PageId × List PageId) PageId)) (dead : List PageId)
    (h1 : loc ∉ dead) (h2 : findIndex p loc = none) (h3 : getPage r loc = some []) :
    cycleWalk r (fuel + 1) (Sum.inl (loc, p) :: W) dead =
      cycleWalk r fuel W (dead ++ [loc]) := by
  rw [cycleWalk]
  simp [h1, h2, h3]

/-- One step of the flattened cycle search: a fresh frame with links is
expanded. -/
theorem cycleWalk_expand (r : Record) (fuel : Nat) (loc : PageId) (p : List PageId)
    (W : List (Sum (PageId × List PageId) PageId)) (dead : List PageId)
    (d0 : PageId) (ds : List PageId)
    (h1 : loc ∉ dead) (h2 : findIndex p loc = none) (h3 : getPage r loc = some (d0 :: ds)) :
    cycleWalk r (fuel + 1) (Sum.inl (loc, p) :: W) dead =
      cycleWalk r fuel
        ((d0 :: ds).map (fun d => Sum.inl (d, p ++ [loc])) ++ [Sum.inr loc] ++ W) dead := by
  rw [cycleWalk]
  simp [h1, h2, h3]

/-- One step of the flattened cycle search: a backtrack frame kills its
page. -/
theorem cycleWalk_inr (r : Record) (fuel : Nat) (loc : PageId)
    (W : List (Sum (PageId × List PageId) PageId)) (dead : List PageId) :
    cycleWalk r (fuel + 1) (Sum.inr loc :: W) dead = cycleWalk r fuel W (dead ++ [loc]) := by
  rw [cycleWalk]

/-- Dead pages can reach only dead pages, with non-increasing dead index. -/
theorem deadOrder_reach {r : Record} {dead : List PageId} (hD : DeadOrder r dead) :
    ∀ y z, Reaches r y z → y ∈ dead →
      z ∈ dead ∧ List.indexOf z dead ≤ List.indexOf y dead := by
  intro y z hyz hy
  induction hyz with
  | refl => exact ⟨hy, le_refl _⟩
  | tail _ hbc ih =>
    obtain ⟨hb, hble⟩ := ih
    obtain ⟨hc, hclt⟩ := hD _ hb _ hbc
    exact ⟨hc, by omega⟩

/-- No closed walk passes through a dead page. -/
theorem deadOrder_no_cycle {r : Record} {dead : List PageId} (hD : DeadOrder r dead) :
    ∀ x ∈ dead, ¬ Relation.TransGen (fun a b => b ∈ destsOf r a) x x := by
  intro x hx hcyc
  obtain ⟨c, hxc, hcx⟩ := Relation.TransGen.head'_iff.mp hcyc
  obtain ⟨hc, hclt⟩ := hD x hx _ hxc
  obtain ⟨_, hle⟩ := deadOrder_reach hD c x hcx hc
  omega

/-- Appending a page whose links all point into the dead list preserves the
reverse topological order. -/
theorem deadOrder_append {r : Record} {dead : List PageId} {y : PageId}
    (hDO : DeadOrder r dead) (hy : y ∉ dead)
    (hdest : ∀ d ∈ destsOf r y, d ∈ dead) :
    DeadOrder r (dead ++ [y]) := by
  intro x hx d hd
  rcases List.mem_append.mp hx with hx | hx
  · obtain ⟨hdm, hlt⟩ := hDO x hx d hd
    refine ⟨List.mem_append_left _ hdm, ?_⟩
    rw [List.indexOf_append_of_mem hdm, List.indexOf_append_of_mem hx]
    exact hlt
  · simp only [List.mem_singleton] at hx
    subst hx
    have hdm := hdest d hd
    refine ⟨List.mem_append_left _ hdm, ?_⟩
    rw [List.indexOf_append_of_mem hdm, List.indexOf_append_of_not_mem hy]
    have hlen := List.indexOf_lt_length.mpr hdm
    simp only [List.indexOf_cons_self]
    omega

/-- Appending a fresh element keeps a list duplicate-free. -/
theorem nodup_append_singleton {l : List PageId} {y : PageId}
    (h : l.Nodup) (hy : y ∉ l) : (l ++ [y]).Nodup := by
  rw [List.nodup_append]
  exact ⟨h, List.nodup_singleton y, fun a ha hb => by
    simp only [List.mem_singleton] at hb
    subst hb
    exact hy ha⟩

/-- The untouched-page sum of the measure only depends on membership in the
dead list and the open chain. -/
theorem cwSum_congr (r : Record) (dead chain dead' chain' : List PageId)
    (h : ∀ x, (x ∉ dead ∧ x ∉ chain) ↔ (x ∉ dead' ∧ x ∉ chain')) :
    (((pageIds r).dedup.filter (fun x => x ∉ dead ∧ x ∉ chain)).map
      (fun x => (destsOf r x).length + 2)).sum =
    (((pageIds r).dedup.filter (fun x => x ∉ dead' ∧ x ∉ chain')).map
      (fun x => (destsOf r x).length + 2)).sum := by
  have he : ((pageIds r).dedup.filter (fun x => x ∉ dead ∧ x ∉ chain)) =
      ((pageIds r).dedup.filter (fun x => x ∉ dead' ∧ x ∉ chain')) :=
    List.filter_congr (fun a _ => decide_eq_decide.mpr (h a))
  rw [he]

/-- Removing one registered page from the untouched set drops its
contribution from the measure sum. -/
theorem cwSum_remove (r : Record) (dead chain dead' chain' : List PageId)
    (y : PageId) (hy : y ∈ pageIds r) (hyd : y ∉ dead) (hyc : y ∉ chain)
    (hq'y : ¬ (y ∉ dead' ∧ y ∉ chain'))
    (himp : ∀ x, (x ∉ dead' ∧ x ∉ chain') → (x ∉ dead ∧ x ∉ chain)) :
    (((pageIds r).dedup.filter (fun x => x ∉ dead' ∧ x ∉ chain')).map
      (fun x => (destsOf r x).length + 2)).sum + ((destsOf r y).length + 2) ≤
    (((pageIds r).dedup.filter (fun x => x ∉ dead ∧ x ∉ chain)).map
      (fun x => (destsOf r x).length + 2)).sum := by
  refine sum_filter_drop_elem _ (List.nodup_dedup _) _ _ _ y (List.mem_dedup.mpr hy)
    ?_ ?_ ?_
  · intro x hx
    exact decide_eq_true (himp x (of_decide_eq_true hx))
  · exact decide_eq_true ⟨hyd, hyc⟩
  · exact decide_eq_false hq'y

/-- An exhausted frame list ends the search at once. -/
theorem cycleWalk_nil (r : Record) (fuel : Nat) (dead : List PageId) :
    cycleWalk r fuel [] dead = some (none, dead) := by
  cases fuel <;> rfl

/-- The node of a descend frame. -/
@[simp] theorem frameNode_inl (a : PageId × List PageId) :
    frameNode (Sum.inl a) = a.1 := rfl

/-- The node of a backtrack frame. -/
@[simp] theorem frameNode_inr (a : PageId) : frameNode (Sum.inr a) = a := rfl

/-- Master invariant of the flattened cycle search: started on a
region-structured frame list over a dangling-free record, with the open
chain fresh and registered and the dead list in reverse topological order,
the search terminates given fuel above the measure; any cycle it returns is
a genuine closed walk, and a cycle-free return extends the dead list to a
duplicate-free reverse topological order containing every pending frame's
node. -/
theorem cycleWalk_master (r : Record) (hND : NoDangling r) :
    ∀ (fuel : Nat) (W : List (Sum (PageId × List PageId) PageId))
      (dead chain inner : List PageId),
      CycleRegions r dead W chain inner →
      chain.Nodup →
      (∀ z ∈ chain, z ∈ pageIds r) →
      (∀ z ∈ chain, z ∉ dead) →
      (∀ x ∈ inner, x ∈ dead) →
      DeadOrder r dead →
      dead.Nodup →
      cwMeasure r W dead chain < fuel →
      ∃ out, cycleWalk r fuel W dead = some out ∧
        (∀ cyc, out.1 = some cyc → IsCycleList r cyc) ∧
        (out.1 = none →
          (∀ x ∈ dead, x ∈ out.2) ∧ out.2.Nodup ∧ DeadOrder r out.2 ∧
          (∀ fr ∈ W, frameNode fr ∈ out.2)) := by
  intro fuel
  induction fuel with
  | zero =>
    intro W dead chain inner _ _ _ _ _ _ _ hm
    omega
  | succ f ih =>
    intro W dead chain inner hreg hnodup hkeys hfresh hinner hDO hdnodup hm
    rcases chain with _ | ⟨z, zs⟩
    · -- no open page: every frame is a root frame with the empty path
      obtain ⟨ys, hW, hys⟩ := hreg
      rcases ys with _ | ⟨y, ys'⟩
      · rw [List.map_nil] at hW
        subst hW
        refine ⟨(none, dead), cycleWalk_nil r (f + 1) dead, ?_, ?_⟩
        · intro cyc hcyc
          simp at hcyc
        · intro _
          exact ⟨fun x hx => hx, hdnodup, hDO,
            fun fr hfr => absurd hfr (List.not_mem_nil fr)⟩
      · rw [List.map_cons] at hW
        subst hW
        have hyk : y ∈ pageIds r := hys y (List.mem_cons_self y ys')
        have hys' : ∀ a ∈ ys', a ∈ pageIds r :=
          fun a ha => hys a (List.mem_cons_of_mem y ha)
        by_cases hyd : y ∈ dead
        · -- skip: the root page is already dead
          obtain ⟨out, hout, hcyc, hnone⟩ := ih
            (ys'.map (fun w => Sum.inl (w, ([] : List PageId)))) dead [] inner
            ⟨ys', rfl, hys'⟩ hnodup hkeys hfresh hinner hDO hdnodup
            (by simp only [cwMeasure, List.length_cons] at hm ⊢; omega)
          refine ⟨out, ?_, hcyc, ?_⟩
          · rw [cycleWalk_skip r f y [] _ dead hyd]
            exact hout
          · intro h1
            obtain ⟨hsub, hnd, hdo, hfr⟩ := hnone h1
            refine ⟨hsub, hnd, hdo, ?_⟩
            intro fr hfr2
            rcases List.mem_cons.mp hfr2 with rfl | hfr2
            · simpa using hsub y hyd
            · exact hfr fr hfr2
        · have hfi : findIndex [] y = none := by simp [findIndex]
          obtain ⟨dests, hpage⟩ := getPage_isSome_of_key hyk
          have hdy : destsOf r y = dests := by simp [destsOf, hpage]
          rcases dests with _ | ⟨d0, ds⟩
          · -- dead end: the root page has no links and dies at once
            have hdest : ∀ d ∈ destsOf r y, d ∈ dead := by
              rw [hdy]; intro d hd; exact absurd hd (List.not_mem_nil d)
            have hrem := cwSum_remove r dead [] (dead ++ [y]) [] y hyk hyd
              (List.not_mem_nil y)
              (by simp)
              (fun x hx => ⟨fun hxd => hx.1 (List.mem_append_left _ hxd), hx.2⟩)
            obtain ⟨out, hout, hcyc, hnone⟩ := ih
              (ys'.map (fun w => Sum.inl (w, ([] : List PageId)))) (dead ++ [y]) [] inner
              ⟨ys', rfl, hys'⟩ hnodup hkeys
              (fun w hw => absurd hw (List.not_mem_nil w))
              (fun x hx => List.mem_append_left _ (hinner x hx))
              (deadOrder_append hDO hyd hdest)
              (nodup_append_singleton hdnodup hyd)
              (by
                simp only [hdy] at hrem
                simp only [cwMeasure, List.length_cons, List.length_map,
                  List.length_nil] at hm hrem ⊢
                omega)
            refine ⟨out, ?_, hcyc, ?_⟩
            · rw [cycleWalk_deadend r f y [] _ dead hyd hfi hpage]
              exact hout
            · intro h1
              obtain ⟨hsub, hnd, hdo, hfr⟩ := hnone h1
              refine ⟨fun x hx => hsub x (List.mem_append_left _ hx), hnd, hdo, ?_⟩
              intro fr hfr2
              rcases List.mem_cons.mp hfr2 with rfl | hfr2
              · simpa using hsub y (List.mem_append_right _ (List.mem_singleton_self y))
              · exact hfr fr hfr2
          · -- expand: the root page opens and its links become frames
            have hrem := cwSum_remove r dead [] dead [y] y hyk hyd
              (List.not_mem_nil y)
              (by simp)
              (fun x hx => ⟨hx.1, List.not_mem_nil x⟩)
            obtain ⟨out, hout, hcyc, hnone⟩ := ih
              ((d0 :: ds).map (fun d => Sum.inl (d, [] ++ [y])) ++ [Sum.inr y] ++
                ys'.map (fun w => Sum.inl (w, ([] : List PageId)))) dead [y] inner
              ⟨d0 :: ds, ys'.map (fun w => Sum.inl (w, ([] : List PageId))),
                by simp,
                by intro w hw; rw [hdy]; exact hw,
                by intro d hd; rw [hdy] at hd; exact Or.inl hd,
                trivial,
                ⟨ys', rfl, hys'⟩⟩
              (List.nodup_singleton y)
              (by intro w hw; rw [List.mem_singleton] at hw; subst hw; exact hyk)
              (by intro w hw; rw [List.mem_singleton] at hw; subst hw; exact hyd)
              hinner hDO hdnodup
              (by
                simp only [hdy] at hrem
                simp only [cwMeasure, List.length_cons, List.length_map,
                  List.length_append, List.length_nil] at hm hrem ⊢
                omega)
            refine ⟨out, ?_, hcyc, ?_⟩
            · rw [cycleWalk_expand r f y [] _ dead d0 ds hyd hfi hpage]
              exact hout
            · intro h1
              obtain ⟨hsub, hnd, hdo, hfr⟩ := hnone h1
              refine ⟨hsub, hnd, hdo, ?_⟩
              intro fr hfr2
              rcases List.mem_cons.mp hfr2 with rfl | hfr2
              · simpa using hfr (Sum.inr y)
                  (List.mem_append_left _
                    (List.mem_append_right _ (List.mem_singleton_self _)))
              · exact hfr fr
                  (List.mem_append_right _ hfr2)
    · -- an open page z heads the chain
      obtain ⟨C, rest0, hW, hC, hcov, hlink, hrest⟩ := hreg
      have hzk : z ∈ pageIds r := hkeys z (List.mem_cons_self z zs)
      have hzd : z ∉ dead := hfresh z (List.mem_cons_self z zs)
      have hznz : z ∉ zs := (List.nodup_cons.mp hnodup).1
      rcases C with _ | ⟨c0, C'⟩
      · -- the region of z is exhausted: backtrack and kill z
        rw [List.map_nil, List.nil_append] at hW
        subst hW
        have hdest : ∀ d ∈ destsOf r z, d ∈ dead := by
          intro d hd
          rcases hcov d hd with h1 | h1 | h1
          · exact absurd h1 (List.not_mem_nil d)
          · exact h1
          · exact hinner d h1
        have hsc := cwSum_congr r (dead ++ [z]) zs dead (z :: zs)
          (fun x => by
            simp only [List.mem_append, List.mem_cons, List.mem_singleton, not_or]
            tauto)
        obtain ⟨out, hout, hcyc, hnone⟩ := ih rest0 (dead ++ [z]) zs (inner ++ [z])
          (cycleRegions_mono_dead zs rest0 (inner ++ [z]) hrest
            (fun x hx => List.mem_append_left _ hx))
          (List.nodup_cons.mp hnodup).2
          (fun w hw => hkeys w (List.mem_cons_of_mem z hw))
          (by
            intro w hw hmem
            rcases List.mem_append.mp hmem with h1 | h1
            · exact hfresh w (List.mem_cons_of_mem z hw) h1
            · rw [List.mem_singleton] at h1
              subst h1
              exact hznz hw)
          (by
            intro x hx
            rcases List.mem_append.mp hx with h1 | h1
            · exact List.mem_append_left _ (hinner x h1)
            · exact List.mem_append_right _ h1)
          (deadOrder_append hDO hzd hdest)
          (nodup_append_singleton hdnodup hzd)
          (by
            simp only [cwMeasure, List.length_cons] at hm ⊢
            rw [hsc]
            omega)
        refine ⟨out, ?_, hcyc, ?_⟩
        · rw [cycleWalk_inr r f z rest0 dead]
          exact hout
        · intro h1
          obtain ⟨hsub, hnd, hdo, hfr⟩ := hnone h1
          refine ⟨fun x hx => hsub x (List.mem_append_left _ hx), hnd, hdo, ?_⟩
          intro fr hfr2
          rcases List.mem_cons.mp hfr2 with rfl | hfr2
          · simpa using hsub z (List.mem_append_right _ (List.mem_singleton_self z))
          · exact hfr fr hfr2
      · -- a pending destination c0 of z heads the frame list
        rw [List.map_cons, List.cons_append] at hW
        subst hW
        have hc0z : c0 ∈ destsOf r z := hC c0 (List.mem_cons_self c0 C')
        have hc0k : c0 ∈ pageIds r := nd_dests hND z c0 hc0z
        have hC' : ∀ w ∈ C', w ∈ destsOf r z :=
          fun w hw => hC w (List.mem_cons_of_mem c0 hw)
        by_cases hc0d : c0 ∈ dead
        · -- skip: this destination is already dead
          obtain ⟨out, hout, hcyc, hnone⟩ := ih
            (C'.map (fun a => Sum.inl (a, (z :: zs).reverse)) ++ Sum.inr z :: rest0)
            dead (z :: zs) inner
            ⟨C', rest0, rfl, hC',
              (by
                intro d hd
                rcases hcov d hd with h1 | h1 | h1
                · rcases List.mem_cons.mp h1 with rfl | h2
                  · exact Or.inr (Or.inl hc0d)
                  · exact Or.inl h2
                · exact Or.inr (Or.inl h1)
                · exact Or.inr (Or.inr h1)),
              hlink, hrest⟩
            hnodup hkeys hfresh hinner hDO hdnodup
            (by simp only [cwMeasure, List.length_cons] at hm ⊢; omega)
          refine ⟨out, ?_, hcyc, ?_⟩
          · rw [cycleWalk_skip r f c0 ((z :: zs).reverse) _ dead hc0d]
            exact hout
          · intro h1
            obtain ⟨hsub, hnd, hdo, hfr⟩ := hnone h1
            refine ⟨hsub, hnd, hdo, ?_⟩
            intro fr hfr2
            rcases List.mem_cons.mp hfr2 with rfl | hfr2
            · simpa using hsub c0 hc0d
            · exact hfr fr hfr2
        · by_cases hc0p : c0 ∈ (z :: zs).reverse
          · -- hit: c0 lies on its own ancestor path — a cycle is returned
            have hfi : findIndex ((z :: zs).reverse) c0 =
                some (List.indexOf c0 ((z :: zs).reverse)) := by
              unfold findIndex
              rw [if_pos hc0p]
            have hlt : List.indexOf c0 ((z :: zs).reverse) < (z :: zs).reverse.length :=
              List.indexOf_lt_length.mpr hc0p
            have hchrp : List.Chain' (fun a b => b ∈ destsOf r a) ((z :: zs).reverse) :=
              cycleRegions_chain_links (z :: zs)
                (Sum.inl (c0, (z :: zs).reverse) ::
                  (C'.map (fun a => Sum.inl (a, (z :: zs).reverse)) ++ Sum.inr z :: rest0))
                inner
                ⟨c0 :: C', rest0, by rw [List.map_cons, List.cons_append], hC, hcov,
                  hlink, hrest⟩
            have hlastrp : ((z :: zs).reverse).getLast? = some z := by
              rw [List.getLast?_reverse]
              rfl
            have hhd : (((z :: zs).reverse).drop
                (List.indexOf c0 ((z :: zs).reverse))).head? = some c0 := by
              rw [List.head?_drop, List.getElem?_eq_getElem hlt]
              exact congrArg some (List.indexOf_get hlt)
            refine ⟨(some (((z :: zs).reverse).drop
                (List.indexOf c0 ((z :: zs).reverse)) ++ [c0]), dead),
              cycleWalk_hit r f c0 ((z :: zs).reverse) _ dead _ hc0d hfi, ?_, ?_⟩
            · intro cyc hcycq
              simp only [Option.some.injEq] at hcycq
              subst hcycq
              have hlendrop : 1 ≤ (((z :: zs).reverse).drop
                  (List.indexOf c0 ((z :: zs).reverse))).length := by
                rw [List.length_drop]
                omega
              refine ⟨by rw [List.length_append]; simp only [List.length_cons,
                List.length_nil]; omega, ?_, ?_⟩
              · have heq := List.cons_head?_tail (Option.mem_def.mpr hhd)
                rw [← heq, List.getLast?_concat]
                rfl
              · rw [List.chain'_append]
                refine ⟨List.Chain'.drop hchrp _, List.chain'_singleton c0, ?_⟩
                intro x hx y hy
                rw [List.getLast?_drop] at hx
                rw [if_neg (by omega)] at hx
                rw [hlastrp] at hx
                simp only [List.head?_cons, Option.mem_def, Option.some.injEq] at hx hy
                subst hx
                subst hy
                exact hc0z
            · intro h1
              simp at h1
          · -- c0 is fresh and off the path
            have hfi : findIndex ((z :: zs).reverse) c0 = none := by
              unfold findIndex
              rw [if_neg hc0p]
            have hc0ch : c0 ∉ z :: zs := fun hmem =>
              hc0p (List.mem_reverse.mpr hmem)
            obtain ⟨dests, hpage⟩ := getPage_isSome_of_key hc0k
            have hdc0 : destsOf r c0 = dests := by simp [destsOf, hpage]
            rcases dests with _ | ⟨e0, es⟩
            · -- dead end: c0 has no links and dies at once
              have hdest : ∀ d ∈ destsOf r c0, d ∈ dead := by
                rw [hdc0]; intro d hd; exact absurd hd (List.not_mem_nil d)
              have hrem := cwSum_remove r dead (z :: zs) (dead ++ [c0]) (z :: zs)
                c0 hc0k hc0d hc0ch
                (by simp)
                (fun x hx => ⟨fun hxd => hx.1 (List.mem_append_left _ hxd), hx.2⟩)
              obtain ⟨out, hout, hcyc, hnone⟩ := ih
                (C'.map (fun a => Sum.inl (a, (z :: zs).reverse)) ++ Sum.inr z :: rest0)
                (dead ++ [c0]) (z :: zs) inner
                ⟨C', rest0, rfl, hC',
                  (by
                    intro d hd
                    rcases hcov d hd with h1 | h1 | h1
                    · rcases List.mem_cons.mp h1 with rfl | h2
                      · exact Or.inr (Or.inl
                          (List.mem_append_right _ (List.mem_singleton_self d)))
                      · exact Or.inl h2
                    · exact Or.inr (Or.inl (List.mem_append_left _ h1))
                    · exact Or.inr (Or.inr h1)),
                  hlink,
                  cycleRegions_mono_dead zs rest0 (inner ++ [z]) hrest
                    (fun x hx => List.mem_append_left _ hx)⟩
                hnodup hkeys
                (by
                  intro w hw hmem
                  rcases List.mem_append.mp hmem with h1 | h1
                  · exact hfresh w hw h1
                  · rw [List.mem_singleton] at h1
                    subst h1
                    exact hc0ch hw)
                (fun x hx => List.mem_append_left _ (hinner x hx))
                (deadOrder_append hDO hc0d hdest)
                (nodup_append_singleton hdnodup hc0d)
                (by
                  simp only [hdc0] at hrem
                  simp only [cwMeasure, List.length_cons, List.length_nil] at hm hrem ⊢
                  omega)
              refine ⟨out, ?_, hcyc, ?_⟩
              · rw [cycleWalk_deadend r f c0 ((z :: zs).reverse) _ dead hc0d hfi hpage]
                exact hout
              · intro h1
                obtain ⟨hsub, hnd, hdo, hfr⟩ := hnone h1
                refine ⟨fun x hx => hsub x (List.mem_append_left _ hx), hnd, hdo, ?_⟩
                intro fr hfr2
                rcases List.mem_cons.mp hfr2 with rfl | hfr2
                · simpa using hsub c0
                    (List.mem_append_right _ (List.mem_singleton_self c0))
                · exact hfr fr hfr2
            · -- expand: c0 opens, deepening the chain
              have hrem := cwSum_remove r dead (z :: zs) dead (c0 :: z :: zs)
                c0 hc0k hc0d hc0ch
                (by simp)
                (fun x hx => ⟨hx.1, fun hxc => hx.2 (List.mem_cons_of_mem c0 hxc)⟩)
              obtain ⟨out, hout, hcyc, hnone⟩ := ih
                ((e0 :: es).map (fun d => Sum.inl (d, (z :: zs).reverse ++ [c0])) ++
                  [Sum.inr c0] ++
                  (C'.map (fun a => Sum.inl (a, (z :: zs).reverse)) ++
                    Sum.inr z :: rest0))
                dead (c0 :: z :: zs) inner
                ⟨e0 :: es,
                  C'.map (fun a => Sum.inl (a, (z :: zs).reverse)) ++
                    Sum.inr z :: rest0,
                  by simp [List.reverse_cons],
                  by intro w hw; rw [hdc0]; exact hw,
                  by intro d hd; rw [hdc0] at hd; exact Or.inl hd,
                  hc0z,
                  ⟨C', rest0, rfl, hC',
                    (by
                      intro d hd
                      rcases hcov d hd with h1 | h1 | h1
                      · rcases List.mem_cons.mp h1 with rfl | h2
                        · exact Or.inr (Or.inr
                            (List.mem_append_right _ (List.mem_singleton_self d)))
                        · exact Or.inl h2
                      · exact Or.inr (Or.inl h1)
                      · exact Or.inr (Or.inr (List.mem_append_left _ h1))),
                    hlink,
                    cycleRegions_mono_inner zs rest0 (inner ++ [z])
                      ((inner ++ [c0]) ++ [z])
                      (by
                        intro x hx
                        rcases List.mem_append.mp hx with h1 | h1
                        · exact List.mem_append_left _ (List.mem_append_left _ h1)
                        · exact List.mem_append_right _ h1)
                      hrest⟩⟩
                (by
                  rw [List.nodup_cons]
                  exact ⟨hc0ch, hnodup⟩)
                (by
                  intro w hw
                  rcases List.mem_cons.mp hw with rfl | h1
                  · exact hc0k
                  · exact hkeys w h1)
                (by
                  intro w hw
                  rcases List.mem_cons.mp hw with rfl | h1
                  · exact hc0d
                  · exact hfresh w h1)
                hinner hDO hdnodup
                (by
                  simp only [hdc0] at hrem
                  simp only [cwMeasure, List.length_cons, List.length_map,
                    List.length_append, List.length_nil] at hm hrem ⊢
                  omega)
              refine ⟨out, ?_, hcyc, ?_⟩
              · rw [cycleWalk_expand r f c0 ((z :: zs).reverse) _ dead e0 es
                  hc0d hfi hpage]
                exact hout
              · intro h1
                obtain ⟨hsub, hnd, hdo, hfr⟩ := hnone h1
                refine ⟨hsub, hnd, hdo, ?_⟩
                intro fr hfr2
                rcases List.mem_cons.mp hfr2 with rfl | hfr2
                · simpa using hfr (Sum.inr c0)
                    (List.mem_append_left _
                      (List.mem_append_right _ (List.mem_singleton_self _)))
                · exact hfr fr (List.mem_append_right _ hfr2)

/-- An unregistered page has no successors. -/
theorem destsOf_eq_nil_of_not_key {r : Record} {x : PageId} (h : x ∉ pageIds r) :
    destsOf r x = [] := by
  unfold destsOf
  rcases hp : getPage r x with _ | ds
  · rfl
  · exact absurd (getPage_some_key hp) h

/-- Looking up the successors after pushing one more entry in front. -/
theorem destsOf_cons (k : PageId) (ds : List PageId) (r : Record) (x : PageId) :
    destsOf ((k, ds) :: r) x = if k = x then ds else destsOf r x := by
  unfold destsOf getPage
  by_cases h : k = x
  · rw [List.find?_cons_of_pos _ (by simp [h]), if_pos h]
    rfl
  · rw [List.find?_cons_of_neg _ (by simp [h]), if_neg h]

/-- The link count of a record with one more entry in front. -/
theorem edgeCount_cons (k : PageId) (ds : List PageId) (r : Record) :
    edgeCount ((k, ds) :: r) = ds.length + edgeCount r := by
  simp [edgeCount]

/-- The out-degrees of distinct registered pages sum to at most the total
link count; padding each page by two keeps the sum under the fuel bound. -/
theorem sum_degrees_le (r : Record) :
    ∀ l : List PageId, l.Nodup → (∀ x ∈ l, x ∈ pageIds r) →
      (l.map (fun x => (destsOf r x).length + 2)).sum ≤ edgeCount r + 2 * r.length := by
  induction r with
  | nil =>
    intro l _ hsub
    match l with
    | [] => simp
    | x :: l' =>
      exact absurd (hsub x (List.mem_cons_self x l')) (by simp [pageIds])
  | cons p r' ih =>
    obtain ⟨k, ds⟩ := p
    intro l hnd hsub
    by_cases hk : k ∈ l
    · have hperm : l.Perm (k :: l.erase k) := List.perm_cons_erase hk
      have hsum : (l.map (fun x => (destsOf ((k, ds) :: r') x).length + 2)).sum =
          ((k :: l.erase k).map
            (fun x => (destsOf ((k, ds) :: r') x).length + 2)).sum :=
        (hperm.map _).sum_eq
      have hswap : (l.erase k).map (fun x => (destsOf ((k, ds) :: r') x).length + 2) =
          (l.erase k).map (fun x => (destsOf r' x).length + 2) := by
        apply List.map_congr_left
        intro a ha
        have hak : a ≠ k := (hnd.mem_erase_iff.mp ha).1
        rw [destsOf_cons, if_neg (fun hh => hak hh.symm)]
      have hrec := ih (l.erase k) (hnd.erase k)
        (by
          intro a ha
          have hak : a ≠ k := (hnd.mem_erase_iff.mp ha).1
          have := hsub a (hnd.mem_erase_iff.mp ha).2
          simp only [pageIds, List.map_cons, List.mem_cons] at this
          rcases this with h1 | h1
          · exact absurd h1 hak
          · exact h1)
      rw [hsum, List.map_cons, List.sum_cons, hswap, destsOf_cons, if_pos rfl]
      rw [edgeCount_cons]
      simp only [List.length_cons]
      omega
    · have hswap : l.map (fun x => (destsOf ((k, ds) :: r') x).length + 2) =
          l.map (fun x => (destsOf r' x).length + 2) := by
        apply List.map_congr_left
        intro a ha
        have hak : a ≠ k := fun hh => hk (hh ▸ ha)
        rw [destsOf_cons, if_neg (fun hh => hak hh.symm)]
      have hrec := ih l hnd
        (by
          intro a ha
          have hak : a ≠ k := fun hh => hk (hh ▸ ha)
          have := hsub a ha
          simp only [pageIds, List.map_cons, List.mem_cons] at this
          rcases this with h1 | h1
          · exact absurd h1 hak
          · exact h1)
      rw [hswap]
      rw [edgeCount_cons]
      simp only [List.length_cons]
      omega

/-- The fuel `findCycle` hands to each search round covers the measure of a
fresh single-root search. -/
theorem cwMeasure_init (r : Record) (start : PageId) :
    cwMeasure r [Sum.inl (start, ([] : List PageId))] [] [] <
      2 * (r.length + edgeCount r) + 4 := by
  have hb := sum_degrees_le r (pageIds r).dedup (List.nodup_dedup _)
    (fun x hx => List.mem_dedup.mp hx)
  have hfe : (pageIds r).dedup.filter
      (fun x => x ∉ ([] : List PageId) ∧ x ∉ ([] : List PageId)) =
      (pageIds r).dedup := by
    apply List.filter_eq_self.mpr
    intro a _
    exact decide_eq_true ⟨List.not_mem_nil a, List.not_mem_nil a⟩
  simp only [cwMeasure, List.length_cons, List.length_nil]
  rw [hfe]
  omega

/-- One restart round of `findCycle` on a non-empty candidate list. -/
theorem findCycleDriver_step (r : Record) (fuel : Nat) (c0 : PageId)
    (cs : List PageId) :
    findCycleDriver r (fuel + 1) (c0 :: cs) =
      match cycleWalk r (2 * (r.length + edgeCount r) + 4) [Sum.inl (c0, [])] [] with
      | none => none
      | some (some cyc, _) => some (some cyc)
      | some (none, deadEnds) =>
        match (c0 :: cs).filter (fun p => p ∉ deadEnds) with
        | [] => some none
        | left => findCycleDriver r fuel left := rfl

/-- Correctness of the restart loop of `findCycle`: with every remaining
candidate registered and every registered page already discarded known to
be cycle-free, the loop terminates; a cycle-free answer certifies the
record acyclic, and any returned id list is a genuine closed walk. -/
theorem findCycleDriver_correct (r : Record) (hND : NoDangling r) :
    ∀ (fuel : Nat) (candidates : List PageId), candidates ≠ [] →
      (∀ c ∈ candidates, c ∈ pageIds r) →
      (∀ x ∈ pageIds r, x ∉ candidates →
        ¬ Relation.TransGen (fun a b => b ∈ destsOf r a) x x) →
      candidates.length < fuel →
      ∃ res, findCycleDriver r fuel candidates = some res ∧
        (res = none → Acyclic r) ∧
        (∀ cyc, res = some cyc → IsCycleList r cyc) := by
  intro fuel
  induction fuel with
  | zero =>
    intro c _ _ _ hlen
    omega
  | succ f ih =>
    intro candidates hne hcand hdisc hlen
    match candidates, hne with
    | c0 :: cs, _ =>
      have hc0k : c0 ∈ pageIds r := hcand c0 (List.mem_cons_self c0 cs)
      obtain ⟨out, hout, hcyc, hnone⟩ := cycleWalk_master r hND
        (2 * (r.length + edgeCount r) + 4) [Sum.inl (c0, [])] [] [] []
        ⟨[c0], rfl, by
          intro y hy
          rw [List.mem_singleton] at hy
          subst hy
          exact hc0k⟩
        List.nodup_nil
        (fun z hz => absurd hz (List.not_mem_nil z))
        (fun z hz => absurd hz (List.not_mem_nil z))
        (fun x hx => absurd hx (List.not_mem_nil x))
        (fun x hx => absurd hx (List.not_mem_nil x))
        List.nodup_nil
        (cwMeasure_init r c0)
      rcases out with ⟨res0, deadEnds⟩
      rcases res0 with _ | cyc0
      · obtain ⟨hsub, hdnodup, hDO, hfr⟩ := hnone rfl
        have hc0dead : c0 ∈ deadEnds := by
          simpa using hfr (Sum.inl (c0, [])) (List.mem_singleton_self _)
        rcases hfilter : (c0 :: cs).filter (fun p => p ∉ deadEnds) with _ | ⟨x, xs⟩
        · refine ⟨none, ?_, fun _ => ?_, ?_⟩
          · rw [findCycleDriver_step]
            simp only [hout]
            rw [hfilter]
          · intro w
            by_cases hwk : w ∈ pageIds r
            · by_cases hwc : w ∈ c0 :: cs
              · have hwdead : w ∈ deadEnds := by
                  by_contra hwd
                  have hmem : w ∈ (c0 :: cs).filter (fun p => p ∉ deadEnds) :=
                    List.mem_filter.mpr ⟨hwc, decide_eq_true hwd⟩
                  rw [hfilter] at hmem
                  exact absurd hmem (List.not_mem_nil w)
                exact deadOrder_no_cycle hDO w hwdead
              · exact hdisc w hwk hwc
            · intro hcyc2
              obtain ⟨c, hxc, _⟩ := Relation.TransGen.head'_iff.mp hcyc2
              rw [destsOf_eq_nil_of_not_key hwk] at hxc
              exact absurd hxc (List.not_mem_nil c)
          · intro cyc hcycq
            exact absurd hcycq (by simp)
        · have hstep : findCycleDriver r (f + 1) (c0 :: cs) =
              findCycleDriver r f (x :: xs) := by
            rw [findCycleDriver_step]
            simp only [hout]
            rw [hfilter]
          have hsubset : ∀ c ∈ x :: xs, c ∈ pageIds r := by
            intro c hc
            rw [← hfilter] at hc
            exact hcand c (List.mem_filter.mp hc).1
          have hdisc' : ∀ w ∈ pageIds r, w ∉ x :: xs →
              ¬ Relation.TransGen (fun a b => b ∈ destsOf r a) w w := by
            intro w hwk hwl
            by_cases hwc : w ∈ c0 :: cs
            · have hwdead : w ∈ deadEnds := by
                by_contra hwd
                exact hwl (hfilter ▸ List.mem_filter.mpr ⟨hwc, decide_eq_true hwd⟩)
              exact deadOrder_no_cycle hDO w hwdead
            · exact hdisc w hwk hwc
          have hlen' : (x :: xs).length < f := by
            have h1 : ((c0 :: cs).filter (fun p => p ∉ deadEnds)).length <
                (c0 :: cs).length :=
              List.length_filter_lt_length_iff_exists.mpr
                ⟨c0, List.mem_cons_self c0 cs, by simp [hc0dead]⟩
            rw [hfilter] at h1
            simp only [List.length_cons] at h1 hlen ⊢
            omega
          obtain ⟨res, hres, hrnone, hrsome⟩ := ih (x :: xs) (by simp) hsubset
            hdisc' hlen'
          exact ⟨res, by rw [hstep]; exact hres, hrnone, hrsome⟩
      · refine ⟨some cyc0, ?_, ?_, ?_⟩
        · rw [findCycleDriver_step]
          simp only [hout]
        · intro hq
          exact absurd hq (by simp)
        · intro cyc hcycq
          simp only [Option.some.injEq] at hcycq
          subst hcycq
          exact hcyc cyc0 rfl

/-- `findCycle` on a dangling-free, non-empty store terminates, answers
cycle-free exactly on acyclic stores, and returns only genuine closed
walks. -/
theorem findCycle_correct (r : Record) (hND : NoDangling r)
    (hne : pageIds r ≠ []) :
    ∃ res, findCycle r = some res ∧ (res = none ↔ Acyclic r) ∧
      (∀ cyc, res = some cyc → IsCycleList r cyc) := by
  obtain ⟨res, hres, hnone, hsome⟩ := findCycleDriver_correct r hND (r.length + 1)
    (pageIds r) hne (fun c hc => hc) (fun x hxk hxc => absurd hxk hxc)
    (by unfold pageIds; rw [List.length_map]; omega)
  refine ⟨res, hres, ⟨hnone, ?_⟩, hsome⟩
  intro hac
  rcases res with _ | cyc
  · rfl
  · exact absurd hac (isCycleList_not_acyclic (hsome cyc rfl))

/-! ## Correctness of the Kosaraju decomposition: generic helpers -/

/-- The first occurrence of a member of a prefix lies inside the prefix. -/
theorem indexOf_lt_of_mem_take :
    ∀ {l : List PageId} {n : Nat} {a : PageId}, a ∈ l.take n →
      List.indexOf a l < n := by
  intro l
  induction l with
  | nil => intro n a h; simp at h
  | cons x l' ih =>
    intro n a h
    match n with
    | 0 => simp at h
    | n + 1 =>
      rw [List.take_succ_cons] at h
      by_cases hax : x = a
      · subst hax
        rw [List.indexOf_cons_self]
        omega
      · rcases List.mem_cons.mp h with h1 | h1
        · exact absurd h1.symm hax
        · rw [List.indexOf_cons_ne _ hax]
          have := ih h1
          omega

/-- A member whose first occurrence lies inside a prefix is in the
prefix. -/
theorem mem_take_of_indexOf_lt :
    ∀ {l : List PageId} {n : Nat} {a : PageId}, a ∈ l →
      List.indexOf a l < n → a ∈ l.take n := by
  intro l
  induction l with
  | nil => intro n a h; simp at h
  | cons x l' ih =>
    intro n a h hidx
    by_cases hax : x = a
    · subst hax
      cases n with
      | zero => omega
      | succ n =>
        rw [List.take_succ_cons]
        exact List.mem_cons_self x _
    · rw [List.indexOf_cons_ne _ hax] at hidx
      cases n with
      | zero => omega
      | succ n =>
        rw [List.take_succ_cons]
        rcases List.mem_cons.mp h with h1 | h1
        · exact absurd h1.symm hax
        · exact List.mem_cons_of_mem x (ih h1 (by omega))

/-- A nonempty family over the pages has a member of minimal measure. -/
theorem exists_min_measure {P : PageId → Prop} (μ : PageId → ℕ) :
    ∀ (k : Nat) (y : PageId), μ y ≤ k → P y →
      ∃ m, P m ∧ ∀ w, P w → μ m ≤ μ w := by
  intro k
  induction k with
  | zero =>
    intro y hy hPy
    exact ⟨y, hPy, fun w _ => by omega⟩
  | succ k ih =>
    intro y hy hPy
    by_cases hmin : ∀ w, P w → μ y ≤ μ w
    · exact ⟨y, hPy, hmin⟩
    · push_neg at hmin
      obtain ⟨w, hPw, hlt⟩ := hmin
      exact ih w (by omega) hPw

/-- A family of pages with bounded measure has a member of maximal
measure. -/
theorem exists_max_measure {P : PageId → Prop} (μ : PageId → ℕ) (B : Nat)
    (hB : ∀ w, P w → μ w ≤ B) :
    ∀ (k : Nat) (y : PageId), B - μ y ≤ k → P y →
      ∃ m, P m ∧ ∀ w, P w → μ w ≤ μ m := by
  intro k
  induction k with
  | zero =>
    intro y hy hPy
    refine ⟨y, hPy, fun w hPw => ?_⟩
    have h1 := hB w hPw
    have h2 := hB y hPy
    omega
  | succ k ih =>
    intro y hy hPy
    by_cases hmax : ∀ w, P w → μ w ≤ μ y
    · exact ⟨y, hPy, hmax⟩
    · push_neg at hmax
      obtain ⟨w, hPw, hlt⟩ := hmax
      have := hB w hPw
      exact ih w (by omega) hPw

/-- Mutual reachability is reflexive. -/
theorem mutual_refl (r : Record) (x : PageId) : Mutual r x x :=
  ⟨Relation.ReflTransGen.refl, Relation.ReflTransGen.refl⟩

/-- Mutual reachability is symmetric. -/
theorem mutual_symm {r : Record} {a b : PageId} (h : Mutual r a b) :
    Mutual r b a :=
  ⟨h.2, h.1⟩

/-- Mutual reachability is transitive. -/
theorem mutual_trans {r : Record} {a b c : PageId} (h1 : Mutual r a b)
    (h2 : Mutual r b c) : Mutual r a c :=
  ⟨h1.1.trans h2.1, h2.2.trans h1.2⟩

/-- A walk between two mutually reachable pages can be refined so that every
intermediate page lies in their strongly-connected class. -/
theorem reaches_restrict_class {r : Record} :
    ∀ a b, Reaches r a b → Reaches r b a →
      Relation.ReflTransGen (fun x y => y ∈ destsOf r x ∧ Mutual r a y) a b := by
  intro a b hab
  induction hab using Relation.ReflTransGen.head_induction_on with
  | refl => intro _; exact Relation.ReflTransGen.refl
  | head hac hcb ih =>
    intro hba
    rename_i a' c
    have hmac : Mutual r a' c :=
      ⟨Relation.ReflTransGen.single hac, hcb.trans hba⟩
    have hbc : Reaches r b c := hba.trans hmac.1
    have htail := ih hbc
    have htail' : Relation.ReflTransGen
        (fun x y => y ∈ destsOf r x ∧ Mutual r a' y) c b :=
      htail.mono (fun x y hxy => ⟨hxy.1, mutual_trans hmac hxy.2⟩)
    exact Relation.ReflTransGen.head ⟨hac, hmac⟩ htail'

/-- Along an inner-first grey chain, every page reaches the innermost
one. -/
theorem chain_reaches_head {r : Record} :
    ∀ (chain : List PageId) (z : PageId),
      List.Chain' (fun a b => a ∈ destsOf r b) (z :: chain) →
      ∀ w ∈ z :: chain, Reaches r w z := by
  intro chain
  induction chain with
  | nil =>
    intro z _ w hw
    rw [List.mem_singleton] at hw
    subst hw
    exact Relation.ReflTransGen.refl
  | cons z2 rest ih =>
    intro z hch w hw
    have hedge : z ∈ destsOf r z2 := (List.chain'_cons.mp hch).1
    have hch2 := (List.chain'_cons.mp hch).2
    rcases List.mem_cons.mp hw with rfl | hw2
    · exact Relation.ReflTransGen.refl
    · exact Relation.ReflTransGen.tail (ih z2 hch2 w hw2) hedge

/-- A duplicate-free list whose members all equal `x` is the singleton
`[x]`. -/
theorem eq_singleton_of_nodup_all_eq {l : List PageId} {x : PageId}
    (hx : x ∈ l) (hnd : l.Nodup) (hall : ∀ y ∈ l, y = x) : l = [x] := by
  match l, hx with
  | a :: l', _ =>
    have ha : a = x := hall a (List.mem_cons_self a l')
    subst ha
    match l' with
    | [] => rfl
    | b :: l'' =>
      have hb : b = a := hall b (List.mem_cons_of_mem a (List.mem_cons_self b l''))
      subst hb
      exact absurd (List.mem_cons_self b l'') (List.nodup_cons.mp hnd).1

/-- Pair a member of the first list with the aligned member of the second.
-/
theorem mem_zip_of_mem_left :
    ∀ {l1 : List (PageId × Nat)} {l2 : List Nat} {a : PageId × Nat},
      a ∈ l1 → l1.length = l2.length → ∃ e, (a, e) ∈ l1.zip l2 := by
  intro l1
  induction l1 with
  | nil => intro l2 a h; simp at h
  | cons p l1' ih =>
    intro l2 a h hlen
    match l2, hlen with
    | e0 :: l2', hlen =>
      rcases List.mem_cons.mp h with rfl | h1
      · exact ⟨e0, List.mem_cons_self _ _⟩
      · obtain ⟨e, he⟩ := ih h1 (by simpa using hlen)
        exact ⟨e, List.mem_cons_of_mem _ he⟩

/-- Filtering with a stronger predicate never yields a longer list. -/
theorem length_filter_le_filter (l : List PageId) (p q : PageId → Bool)
    (himp : ∀ x, q x = true → p x = true) :
    (l.filter q).length ≤ (l.filter p).length := by
  induction l with
  | nil => simp
  | cons b l'' ih2 =>
    by_cases hqb : q b = true
    · rw [List.filter_cons_of_pos hqb, List.filter_cons_of_pos (himp b hqb)]
      simpa using ih2
    · rw [List.filter_cons_of_neg (by simpa using hqb)]
      by_cases hpb : p b = true
      · rw [List.filter_cons_of_pos hpb]
        simp only [List.length_cons]
        omega
      · rw [List.filter_cons_of_neg (by simpa using hpb)]
        exact ih2

/-- Filtering with a stronger predicate that actually drops a member
strictly shortens the list. -/
theorem length_filter_lt_of_imp (l : List PageId) (p q : PageId → Bool)
    (himp : ∀ x, q x = true → p x = true) (y : PageId) (hy : y ∈ l)
    (hpy : p y = true) (hqy : q y = false) :
    (l.filter q).length < (l.filter p).length := by
  induction l with
  | nil => simp at hy
  | cons a l' ih =>
    rcases List.mem_cons.mp hy with rfl | hy2
    · rw [List.filter_cons_of_pos hpy, List.filter_cons_of_neg (by simp [hqy])]
      have h2 := length_filter_le_filter l' p q himp
      simp only [List.length_cons]
      omega
    · by_cases hqa : q a = true
      · rw [List.filter_cons_of_pos hqa, List.filter_cons_of_pos (himp a hqa)]
        simp only [List.length_cons]
        have := ih hy2
        omega
      · rw [List.filter_cons_of_neg (by simpa using hqa)]
        by_cases hpa : p a = true
        · rw [List.filter_cons_of_pos hpa]
          simp only [List.length_cons]
          have := ih hy2
          omega
        · rw [List.filter_cons_of_neg (by simpa using hpa)]
          exact ih hy2

/-! ## Facts about the label list -/

/-- In a consecutively labelled list, every label is below the length. -/
theorem label_entry_lt {labels : List (PageId × Nat)}
    (hnum : labels.map Prod.snd = List.range labels.length)
    {w : PageId} {lw : Nat} (h : (w, lw) ∈ labels) : lw < labels.length := by
  have hm : lw ∈ labels.map Prod.snd := List.mem_map.mpr ⟨(w, lw), h, rfl⟩
  rw [hnum] at hm
  exact List.mem_range.mp hm

/-- In a consecutively labelled list, the entry at position `i` carries
label `i`. -/
theorem label_snd_eq_idx {labels : List (PageId × Nat)}
    (hnum : labels.map Prod.snd = List.range labels.length)
    (i : Nat) (hi : i < labels.length) : (labels.get ⟨i, hi⟩).2 = i := by
  have h1 := congrArg (fun t => t[i]?) hnum
  simp only at h1
  rw [List.getElem?_map, List.getElem?_range hi,
    List.getElem?_eq_getElem hi] at h1
  simpa using h1

/-- In a consecutively labelled list, an entry sits at the position given by
its label. -/
theorem label_entry_get {labels : List (PageId × Nat)}
    (hnum : labels.map Prod.snd = List.range labels.length)
    {w : PageId} {lw : Nat} (h : (w, lw) ∈ labels) :
    ∃ hlt : lw < labels.length, labels.get ⟨lw, hlt⟩ = (w, lw) := by
  obtain ⟨⟨i, hi⟩, hg⟩ := List.mem_iff_get.mp h
  have hsi := label_snd_eq_idx hnum i hi
  rw [hg] at hsi
  simp only at hsi
  subst hsi
  exact ⟨hi, hg⟩

/-- A label determines its page. -/
theorem label_entry_inj {labels : List (PageId × Nat)}
    (hnum : labels.map Prod.snd = List.range labels.length)
    {a b : PageId} {l : Nat} (ha : (a, l) ∈ labels) (hb : (b, l) ∈ labels) :
    a = b := by
  obtain ⟨h1, hg1⟩ := label_entry_get hnum ha
  obtain ⟨h2, hg2⟩ := label_entry_get hnum hb
  rw [hg1] at hg2
  exact congrArg Prod.fst hg2

/-- Unfold a zip entry of the label and cutoff lists at its label
position. -/
theorem zip_entry_eq {labels : List (PageId × Nat)} {E : List Nat}
    (hElen : E.length = labels.length)
    (hnum : labels.map Prod.snd = List.range labels.length)
    {q : (PageId × Nat) × Nat} (hq : q ∈ labels.zip E) :
    ∃ hlt : q.1.2 < labels.length,
      labels.get ⟨q.1.2, hlt⟩ = q.1 ∧ E.get ⟨q.1.2, by omega⟩ = q.2 := by
  obtain ⟨⟨i, hi⟩, hg⟩ := List.mem_iff_get.mp hq
  rw [List.get_zip] at hg
  have hlen : i < labels.length := by
    rw [List.length_zip] at hi
    omega
  have hfst : labels.get ⟨i, hlen⟩ = q.1 := by
    rw [← hg]
  have hsnd : E.get ⟨i, by omega⟩ = q.2 := by
    rw [← hg]
  have hsi := label_snd_eq_idx hnum i hlen
  rw [hfst] at hsi
  subst hsi
  exact ⟨hlen, hfst, hsnd⟩

/-- Cutoffs are monotone in the label order. -/
theorem zip_E_mono {labels : List (PageId × Nat)} {E : List Nat}
    (hElen : E.length = labels.length)
    (hnum : labels.map Prod.snd = List.range labels.length)
    (hEmono : List.Pairwise (· ≤ ·) E)
    {q1 q2 : (PageId × Nat) × Nat} (h1 : q1 ∈ labels.zip E)
    (h2 : q2 ∈ labels.zip E) (hle : q1.1.2 ≤ q2.1.2) : q1.2 ≤ q2.2 := by
  obtain ⟨ha1, _, he1⟩ := zip_entry_eq hElen hnum h1
  obtain ⟨ha2, _, he2⟩ := zip_entry_eq hElen hnum h2
  rcases Nat.lt_or_ge q1.1.2 q2.1.2 with hlt | hge
  · have := List.pairwise_iff_get.mp hEmono ⟨q1.1.2, by omega⟩ ⟨q2.1.2, by omega⟩
      (by simpa using hlt)
    rw [he1, he2] at this
    exact this
  · have heq : q1.1.2 = q2.1.2 := by omega
    rw [← he1, ← he2]
    apply le_of_eq
    congr 1
    exact Fin.ext heq

/-- Every label entry has an aligned cutoff. -/
theorem zip_lookup {labels : List (PageId × Nat)} {E : List Nat}
    (hElen : E.length = labels.length) {w : PageId} {lw : Nat}
    (h : (w, lw) ∈ labels) : ∃ e, ((w, lw), e) ∈ labels.zip E :=
  mem_zip_of_mem_left h hElen.symm

/-- A region decomposition of the labelling walk survives growing the
discovered set. -/
theorem labelRegions_mono_vis {r : Record} {vis vis' : List PageId} :
    ∀ (chain : List PageId) (F : List (Sum PageId PageId)),
      LabelRegions r vis F chain → (∀ x ∈ vis, x ∈ vis') →
      LabelRegions r vis' F chain := by
  intro chain
  induction chain with
  | nil => intro F h _; exact h
  | cons z zs ih =>
    intro F h hsub
    obtain ⟨C, rest, hF, hC, hcov, hrest⟩ := h
    exact ⟨C, rest, hF, hC, fun d hd => (hcov d hd).imp id (hsub d),
      ih rest hrest hsub⟩

/-- The stable labelling facts survive discovering one more page. -/
theorem labelFacts_append_vis {r : Record} {vis : List PageId}
    {labels : List (PageId × Nat)} {E : List Nat}
    (F : LabelFacts r vis labels E) (y : PageId) :
    LabelFacts r (vis ++ [y]) labels E := by
  have htake : ∀ q ∈ labels.zip E, (vis ++ [y]).take q.2 = vis.take q.2 :=
    fun q hq => List.take_append_of_le_length (F.hEb q.2 (List.of_mem_zip hq).2)
  refine ⟨F.hElen, F.hnum, F.hlnd, ?_, F.hEmono, ?_, ?_, ?_, ?_⟩
  · intro e he
    have := F.hEb e he
    rw [List.length_append]
    simp only [List.length_cons, List.length_nil]
    omega
  · intro q hq
    rw [htake q hq]
    exact F.hfinv q hq
  · intro q hq d hd
    rw [htake q hq]
    exact F.hGE q hq d hd
  · intro q hq w hw hidx
    rw [htake q hq] at hw
    have hq1 : q.1.1 ∈ vis := List.mem_of_mem_take (F.hfinv q hq)
    have hwv : w ∈ vis := List.mem_of_mem_take hw
    rw [List.indexOf_append_of_mem hq1, List.indexOf_append_of_mem hwv] at hidx
    exact F.hGW q hq w hw hidx
  · intro q hq w hw hidx
    rw [htake q hq] at hw
    have hq1 : q.1.1 ∈ vis := List.mem_of_mem_take (F.hfinv q hq)
    have hwv : w ∈ vis := List.mem_of_mem_take hw
    rw [List.indexOf_append_of_mem hq1, List.indexOf_append_of_mem hwv] at hidx
    exact F.hGT q hq w hw hidx

/-- The stable labelling facts survive finishing a page whose links are all
discovered and after which nothing unfinished but itself sits in its
window. -/
theorem labelFacts_finish {r : Record} {vis : List PageId}
    {labels : List (PageId × Nat)} {E : List Nat}
    (F : LabelFacts r vis labels E) (u : PageId)
    (s1 : u ∈ vis) (s2 : u ∉ labels.map Prod.fst)
    (s3 : ∀ d ∈ destsOf r u, d ∈ vis)
    (s4 : ∀ w ∈ vis, List.indexOf u vis ≤ List.indexOf w vis → w ≠ u →
      ∃ lw, (w, lw) ∈ labels)
    (s5 : ∀ w ∈ vis, List.indexOf u vis ≤ List.indexOf w vis → Reaches r u w) :
    LabelFacts r vis (labels ++ [(u, labels.length)]) (E ++ [vis.length]) := by
  have hzip : (labels ++ [(u, labels.length)]).zip (E ++ [vis.length]) =
      labels.zip E ++ [((u, labels.length), vis.length)] :=
    List.zip_append F.hElen.symm
  refine ⟨?_, ?_, ?_, ?_, ?_, ?_, ?_, ?_, ?_⟩
  · simp [F.hElen]
  · rw [List.map_append, F.hnum]
    simp only [List.map_cons, List.map_nil, List.length_append,
      List.length_cons, List.length_nil]
    rw [List.range_succ]
  · rw [List.map_append]
    exact nodup_append_singleton F.hlnd s2
  · intro e he
    rcases List.mem_append.mp he with h1 | h1
    · exact F.hEb e h1
    · rw [List.mem_singleton] at h1
      omega
  · rw [List.pairwise_append]
    exact ⟨F.hEmono, List.pairwise_singleton _ _,
      fun a ha b hb => by
        rw [List.mem_singleton] at hb
        subst hb
        exact F.hEb a ha⟩
  · rw [hzip]
    intro q hq
    rcases List.mem_append.mp hq with h1 | h1
    · exact F.hfinv q h1
    · rw [List.mem_singleton] at h1
      subst h1
      rw [List.take_length]
      exact s1
  · rw [hzip]
    intro q hq d hd
    rcases List.mem_append.mp hq with h1 | h1
    · exact F.hGE q h1 d hd
    · rw [List.mem_singleton] at h1
      subst h1
      rw [List.take_length]
      exact s3 d hd
  · rw [hzip]
    intro q hq w hw hidx
    rcases List.mem_append.mp hq with h1 | h1
    · obtain ⟨lw, hlw, hle⟩ := F.hGW q h1 w hw hidx
      exact ⟨lw, List.mem_append_left _ hlw, hle⟩
    · rw [List.mem_singleton] at h1
      subst h1
      rw [List.take_length] at hw
      by_cases hwu : w = u
      · subst hwu
        exact ⟨labels.length,
          List.mem_append_right _ (List.mem_singleton_self _), le_refl _⟩
      · obtain ⟨lw, hlw⟩ := s4 w hw hidx hwu
        exact ⟨lw, List.mem_append_left _ hlw,
          le_of_lt (label_entry_lt F.hnum hlw)⟩
  · rw [hzip]
    intro q hq w hw hidx
    rcases List.mem_append.mp hq with h1 | h1
    · exact F.hGT q h1 w hw hidx
    · rw [List.mem_singleton] at h1
      subst h1
      rw [List.take_length] at hw
      exact s5 w hw hidx

/-- The labelling walk ends at once on an empty frame list. -/
theorem labelWalk_nil (r : Record) (fuel n : Nat) (vis : List PageId)
    (labels : List (PageId × Nat)) :
    labelWalk r fuel [] n vis labels = some (n, vis, labels) := by
  cases fuel <;> rfl

/-- One step of the labelling walk: a discovered page is skipped. -/
theorem labelWalk_skip (r : Record) (fuel : Nat) (loc : PageId)
    (rest : List (Sum PageId PageId)) (n : Nat) (vis : List PageId)
    (labels : List (PageId × Nat)) (h : loc ∈ vis) :
    labelWalk r (fuel + 1) (Sum.inl loc :: rest) n vis labels =
      labelWalk r fuel rest n vis labels := by
  rw [labelWalk]
  simp [h]

/-- One step of the labelling walk: a fresh page with no links is discovered
and finished at once. -/
theorem labelWalk_leaf (r : Record) (fuel : Nat) (loc : PageId)
    (rest : List (Sum PageId PageId)) (n : Nat) (vis : List PageId)
    (labels : List (PageId × Nat)) (h1 : loc ∉ vis)
    (h2 : getPage r loc = some []) :
    labelWalk r (fuel + 1) (Sum.inl loc :: rest) n vis labels =
      labelWalk r fuel rest (n + 1) (vis ++ [loc]) (labels ++ [(loc, n)]) := by
  rw [labelWalk]
  simp [h1, h2]

/-- One step of the labelling walk: a fresh page with links is discovered
and its links become frames. -/
theorem labelWalk_expand (r : Record) (fuel : Nat) (loc : PageId)
    (rest : List (Sum PageId PageId)) (n : Nat) (vis : List PageId)
    (labels : List (PageId × Nat)) (d0 : PageId) (ds : List PageId)
    (h1 : loc ∉ vis) (h2 : getPage r loc = some (d0 :: ds)) :
    labelWalk r (fuel + 1) (Sum.inl loc :: rest) n vis labels =
      labelWalk r fuel
        ((d0 :: ds).map Sum.inl ++ [Sum.inr loc] ++ rest) n
        (vis ++ [loc]) labels := by
  rw [labelWalk]
  simp [h1, h2]

/-- One step of the labelling walk: a backtrack frame assigns the next
label. -/
theorem labelWalk_inr (r : Record) (fuel : Nat) (loc : PageId)
    (rest : List (Sum PageId PageId)) (n : Nat) (vis : List PageId)
    (labels : List (PageId × Nat)) :
    labelWalk r (fuel + 1) (Sum.inr loc :: rest) n vis labels =
      labelWalk r fuel rest (n + 1) vis (labels ++ [(loc, n)]) := by
  rw [labelWalk]

/-- Every finished page is discovered. -/
theorem labPages_sub_vis {r : Record} {vis : List PageId}
    {labels : List (PageId × Nat)} {E : List Nat}
    (F : LabelFacts r vis labels E) :
    ∀ x ∈ labels.map Prod.fst, x ∈ vis := by
  intro x hx
  obtain ⟨p, hp, hpx⟩ := List.mem_map.mp hx
  obtain ⟨e, he⟩ := zip_lookup F.hElen (hpx ▸ hp : (x, p.2) ∈ labels)
  exact List.mem_of_mem_take (F.hfinv ((x, p.2), e) he)

/-- A freshly appended page sits at the end of the discovery list. -/
theorem indexOf_append_fresh {vis : List PageId} {y : PageId} (h : y ∉ vis) :
    List.indexOf y (vis ++ [y]) = vis.length := by
  rw [List.indexOf_append_of_not_mem h, List.indexOf_cons_self]
  omega

/-- The node of a pending labelling frame. -/
@[simp] theorem frameNodeL_inl (a : PageId) : frameNodeL (Sum.inl a) = a := rfl

/-- The node of a backtrack labelling frame. -/
@[simp] theorem frameNodeL_inr (a : PageId) : frameNodeL (Sum.inr a) = a := rfl

/-- Master invariant of the flattened labelling walk: from a
region-structured frame list over a dangling-free record the walk
terminates given fuel above the measure, the discovery and finish lists
only grow, every pending frame's node ends up discovered, and the full
invariant holds again with empty frames and no grey pages. -/
theorem labelWalk_master (r : Record) (hND : NoDangling r) :
    ∀ (fuel : Nat) (F : List (Sum PageId PageId)) (n : Nat)
      (vis : List PageId) (labels : List (PageId × Nat)) (E : List Nat)
      (chain : List PageId),
      LabelInv r F n vis labels E chain →
      lwMeasure r F vis < fuel →
      ∃ n2 vis2 labels2 E2,
        labelWalk r fuel F n vis labels = some (n2, vis2, labels2) ∧
        LabelInv r [] n2 vis2 labels2 E2 [] ∧
        (∃ dv, vis2 = vis ++ dv) ∧ (∃ dl, labels2 = labels ++ dl) ∧
        (∀ fr ∈ F, frameNodeL fr ∈ vis2) := by
  intro fuel
  induction fuel with
  | zero =>
    intro F n vis labels E chain _ hm
    omega
  | succ f ih =>
    intro F n vis labels E chain inv hm
    rcases chain with _ | ⟨z, zs⟩
    · -- no grey page: every frame is a root frame
      obtain ⟨ys, hF, hys⟩ := inv.hreg
      rcases ys with _ | ⟨y, ys'⟩
      · rw [List.map_nil] at hF
        subst hF
        refine ⟨n, vis, labels, E, labelWalk_nil r (f + 1) n vis labels,
          ⟨inv.facts, inv.hn, ⟨[], rfl, fun y hy => absurd hy (List.not_mem_nil y)⟩,
            inv.hvnd, inv.hvk, inv.hgray, inv.hchv, inv.hchnf, inv.hchnd,
            inv.hchord, inv.hchlink, inv.hTacc⟩,
          ⟨[], (List.append_nil vis).symm⟩, ⟨[], (List.append_nil labels).symm⟩,
          fun fr hfr => absurd hfr (List.not_mem_nil fr)⟩
      · rw [List.map_cons] at hF
        subst hF
        have hyk : y ∈ pageIds r := hys y (List.mem_cons_self y ys')
        have hys' : ∀ a ∈ ys', a ∈ pageIds r :=
          fun a ha => hys a (List.mem_cons_of_mem y ha)
        by_cases hyv : y ∈ vis
        · -- skip: the root page is already discovered
          obtain ⟨n2, vis2, labels2, E2, hwalk, hinv2, hdv, hdl, hfr⟩ := ih
            (ys'.map Sum.inl) n vis labels E []
            ⟨inv.facts, inv.hn, ⟨ys', rfl, hys'⟩, inv.hvnd, inv.hvk, inv.hgray,
              inv.hchv, inv.hchnf, inv.hchnd, inv.hchord, inv.hchlink, inv.hTacc⟩
            (by simp only [lwMeasure, List.length_cons] at hm ⊢; omega)
          refine ⟨n2, vis2, labels2, E2, ?_, hinv2, hdv, hdl, ?_⟩
          · rw [labelWalk_skip r f y _ n vis labels hyv]
            exact hwalk
          · intro fr hfr2
            rcases List.mem_cons.mp hfr2 with rfl | hfr2
            · obtain ⟨dv, hdv⟩ := hdv
              rw [hdv]
              simp only [frameNodeL_inl]
              exact List.mem_append_left dv hyv
            · exact hfr fr hfr2
        · obtain ⟨dests, hpage⟩ := getPage_isSome_of_key hyk
          have hdy : destsOf r y = dests := by simp [destsOf, hpage]
          have hlabv := labPages_sub_vis inv.facts
          have hynf : y ∉ labels.map Prod.fst := fun hc => hyv (hlabv y hc)
          have hidxy : List.indexOf y (vis ++ [y]) = vis.length :=
            indexOf_append_fresh hyv
          have hidxmem : ∀ w ∈ vis, List.indexOf w (vis ++ [y]) < vis.length :=
            fun w hw => by
              rw [List.indexOf_append_of_mem hw]
              exact List.indexOf_lt_length.mpr hw
          have hrem := sum_filter_drop_elem (pageIds r).dedup
            (List.nodup_dedup _) (fun x => (destsOf r x).length + 2)
            (fun x => x ∉ vis) (fun x => x ∉ vis ++ [y]) y
            (List.mem_dedup.mpr hyk)
            (fun x hx => by
              simp only [decide_eq_true_eq] at hx ⊢
              exact fun hxv => hx (List.mem_append_left _ hxv))
            (by simpa using hyv)
            (by simp)
          rcases dests with _ | ⟨d0, ds⟩
          · -- leaf: discovered and finished at once
            have hfacts1 := labelFacts_append_vis inv.facts y
            have hfacts2 := labelFacts_finish hfacts1 y
              (List.mem_append_right _ (List.mem_singleton_self y)) hynf
              (by rw [hdy]; intro d hd; exact absurd hd (List.not_mem_nil d))
              (fun w hw hidx hwy => by
                rcases List.mem_append.mp hw with h1 | h1
                · exact absurd hidx (by have := hidxmem w h1; omega)
                · rw [List.mem_singleton] at h1
                  exact absurd h1 hwy)
              (fun w hw hidx => by
                rcases List.mem_append.mp hw with h1 | h1
                · exact absurd hidx (by have := hidxmem w h1; omega)
                · rw [List.mem_singleton] at h1
                  subst h1
                  exact Relation.ReflTransGen.refl)
            obtain ⟨n2, vis2, labels2, E2, hwalk, hinv2, hdv, hdl, hfr⟩ := ih
              (ys'.map Sum.inl) (n + 1) (vis ++ [y])
              (labels ++ [(y, n)])
              (E ++ [(vis ++ [y]).length]) []
              ⟨by rw [inv.hn]; exact hfacts2,
                by
                  have hh := inv.hn
                  simp only [List.length_append, List.length_cons, List.length_nil]
                  omega,
                ⟨ys', rfl, hys'⟩,
                nodup_append_singleton inv.hvnd hyv,
                (by
                  intro x hx
                  rcases List.mem_append.mp hx with h1 | h1
                  · exact inv.hvk x h1
                  · rw [List.mem_singleton] at h1
                    subst h1
                    exact hyk),
                (by
                  intro x hx
                  rw [List.map_append]
                  rcases List.mem_append.mp hx with h1 | h1
                  · rcases inv.hgray x h1 with h2 | h2
                    · exact Or.inl (List.mem_append_left _ h2)
                    · exact absurd h2 (List.not_mem_nil x)
                  · rw [List.mem_singleton] at h1
                    subst h1
                    exact Or.inl (List.mem_append_right _ (by simp))),
                (fun w hw => absurd hw (List.not_mem_nil w)),
                (fun w hw => absurd hw (List.not_mem_nil w)),
                List.nodup_nil, List.Pairwise.nil, List.chain'_nil,
                (fun w hw => absurd hw (List.not_mem_nil w))⟩
              (by
                simp only [hdy] at hrem
                simp only [lwMeasure, List.length_cons, List.length_map,
                  List.length_nil] at hm hrem ⊢
                omega)
            refine ⟨n2, vis2, labels2, E2, ?_, hinv2, ?_, ?_, ?_⟩
            · rw [labelWalk_leaf r f y _ n vis labels hyv hpage]
              exact hwalk
            · obtain ⟨dv, hdv⟩ := hdv
              exact ⟨[y] ++ dv, by rw [hdv, List.append_assoc]⟩
            · obtain ⟨dl, hdl⟩ := hdl
              exact ⟨[(y, n)] ++ dl, by rw [hdl, List.append_assoc]⟩
            · intro fr hfr2
              rcases List.mem_cons.mp hfr2 with rfl | hfr2
              · obtain ⟨dv, hdv⟩ := hdv
                rw [hdv]
                simp only [frameNodeL_inl]
                exact List.mem_append_left dv
                  (List.mem_append_right vis (List.mem_singleton_self y))
              · exact hfr fr hfr2
          · -- expand: the root page opens with its links as frames
            have hfacts1 := labelFacts_append_vis inv.facts y
            obtain ⟨n2, vis2, labels2, E2, hwalk, hinv2, hdv, hdl, hfr⟩ := ih
              ((d0 :: ds).map Sum.inl ++ [Sum.inr y] ++ ys'.map Sum.inl) n
              (vis ++ [y]) labels E [y]
              ⟨hfacts1, inv.hn,
                ⟨d0 :: ds, ys'.map Sum.inl, by simp,
                  (fun w hw => by rw [hdy]; exact hw),
                  (fun d hd => by rw [hdy] at hd; exact Or.inl hd),
                  ⟨ys', rfl, hys'⟩⟩,
                nodup_append_singleton inv.hvnd hyv,
                (by
                  intro x hx
                  rcases List.mem_append.mp hx with h1 | h1
                  · exact inv.hvk x h1
                  · rw [List.mem_singleton] at h1
                    subst h1
                    exact hyk),
                (by
                  intro x hx
                  rcases List.mem_append.mp hx with h1 | h1
                  · rcases inv.hgray x h1 with h2 | h2
                    · exact Or.inl h2
                    · exact absurd h2 (List.not_mem_nil x)
                  · exact Or.inr h1),
                (fun w hw => by
                  rw [List.mem_singleton] at hw
                  subst hw
                  simp),
                (fun w hw => by
                  rw [List.mem_singleton] at hw
                  subst hw
                  exact hynf),
                List.nodup_singleton y,
                List.pairwise_singleton _ y,
                List.chain'_singleton y,
                (fun w hw w2 hw2 hidx => by
                  rw [List.mem_singleton] at hw
                  subst hw
                  have hw2v : w2 ∈ vis := hlabv w2 hw2
                  rw [hidxy] at hidx
                  exact absurd hidx (by have := hidxmem w2 hw2v; omega))⟩
              (by
                simp only [hdy] at hrem
                simp only [lwMeasure, List.length_cons, List.length_map,
                  List.length_append, List.length_nil] at hm hrem ⊢
                omega)
            refine ⟨n2, vis2, labels2, E2, ?_, hinv2, ?_, hdl, ?_⟩
            · rw [labelWalk_expand r f y _ n vis labels d0 ds hyv hpage]
              exact hwalk
            · obtain ⟨dv, hdv⟩ := hdv
              exact ⟨[y] ++ dv, by rw [hdv, List.append_assoc]⟩
            · intro fr hfr2
              rcases List.mem_cons.mp hfr2 with rfl | hfr2
              · obtain ⟨dv, hdv⟩ := hdv
                rw [hdv]
                simp only [frameNodeL_inl]
                exact List.mem_append_left dv
                  (List.mem_append_right vis (List.mem_singleton_self y))
              · exact hfr fr (List.mem_append_right _ hfr2)
    · -- a grey page z heads the chain
      obtain ⟨C, rest0, hF, hC, hcov, hrest⟩ := inv.hreg
      have hzv : z ∈ vis := inv.hchv z (List.mem_cons_self z zs)
      have hzk : z ∈ pageIds r := inv.hvk z hzv
      have hznf : z ∉ labels.map Prod.fst := inv.hchnf z (List.mem_cons_self z zs)
      have hlabv := labPages_sub_vis inv.facts
      rcases C with _ | ⟨c0, C'⟩
      · -- the region of z is exhausted: z finishes and gets the next label
        rw [List.map_nil, List.nil_append] at hF
        subst hF
        have hdz : ∀ d ∈ destsOf r z, d ∈ vis := by
          intro d hd
          rcases hcov d hd with h1 | h1
          · exact absurd h1 (List.not_mem_nil d)
          · exact h1
        have hzmax : ∀ w ∈ z :: zs, List.indexOf w vis ≤ List.indexOf z vis := by
          intro w hw
          rcases List.mem_cons.mp hw with rfl | hw2
          · exact le_refl _
          · exact le_of_lt ((List.pairwise_cons.mp inv.hchord).1 w hw2)
        have hreachz : ∀ w ∈ z :: zs, Reaches r w z :=
          chain_reaches_head zs z inv.hchlink
        have hfacts2 := labelFacts_finish inv.facts z hzv hznf hdz
          (fun w hw hidx hwz => by
            rcases inv.hgray w hw with h1 | h1
            · obtain ⟨p, hp, hpx⟩ := List.mem_map.mp h1
              exact ⟨p.2, by rw [← hpx]; exact hp⟩
            · rcases List.mem_cons.mp h1 with rfl | h2
              · exact absurd rfl hwz
              · have := (List.pairwise_cons.mp inv.hchord).1 w h2
                omega)
          (fun w hw hidx => by
            rcases inv.hgray w hw with h1 | h1
            · exact inv.hTacc z (List.mem_cons_self z zs) w h1 hidx
            · rcases List.mem_cons.mp h1 with rfl | h2
              · exact Relation.ReflTransGen.refl
              · have := (List.pairwise_cons.mp inv.hchord).1 w h2
                omega)
        obtain ⟨n2, vis2, labels2, E2, hwalk, hinv2, hdv, hdl, hfr⟩ := ih
          rest0 (n + 1) vis (labels ++ [(z, n)])
          (E ++ [vis.length]) zs
          ⟨by rw [inv.hn]; exact hfacts2,
            by
              have hh := inv.hn
              simp only [List.length_append, List.length_cons, List.length_nil]
              omega,
            hrest, inv.hvnd, inv.hvk,
            (by
              intro x hx
              rw [List.map_append]
              rcases inv.hgray x hx with h1 | h1
              · exact Or.inl (List.mem_append_left _ h1)
              · rcases List.mem_cons.mp h1 with rfl | h2
                · exact Or.inl (List.mem_append_right _ (by simp))
                · exact Or.inr h2),
            (fun w hw => inv.hchv w (List.mem_cons_of_mem z hw)),
            (by
              intro w hw
              rw [List.map_append]
              intro hcon
              rcases List.mem_append.mp hcon with h1 | h1
              · exact inv.hchnf w (List.mem_cons_of_mem z hw) h1
              · simp only [List.map_cons, List.map_nil, List.mem_singleton] at h1
                subst h1
                exact (List.nodup_cons.mp inv.hchnd).1 hw),
            (List.nodup_cons.mp inv.hchnd).2,
            inv.hchord.tail,
            inv.hchlink.tail,
            (by
              intro z' hz' w hw hidx
              rw [List.map_append] at hw
              rcases List.mem_append.mp hw with h1 | h1
              · exact inv.hTacc z' (List.mem_cons_of_mem z hz') w h1 hidx
              · simp only [List.map_cons, List.map_nil, List.mem_singleton] at h1
                subst h1
                exact hreachz z' (List.mem_cons_of_mem _ hz'))⟩
          (by simp only [lwMeasure, List.length_cons] at hm ⊢; omega)
        refine ⟨n2, vis2, labels2, E2, ?_, hinv2, hdv, ?_, ?_⟩
        · rw [labelWalk_inr r f z rest0 n vis labels]
          exact hwalk
        · obtain ⟨dl, hdl⟩ := hdl
          exact ⟨[(z, n)] ++ dl, by rw [hdl, List.append_assoc]⟩
        · intro fr hfr2
          rcases List.mem_cons.mp hfr2 with rfl | hfr2
          · obtain ⟨dv, hdv⟩ := hdv
            rw [hdv]
            simp only [frameNodeL_inr]
            exact List.mem_append_left dv hzv
          · exact hfr fr hfr2
      · -- a pending destination c0 of z heads the frame list
        rw [List.map_cons, List.cons_append] at hF
        subst hF
        have hc0z : c0 ∈ destsOf r z := hC c0 (List.mem_cons_self c0 C')
        have hc0k : c0 ∈ pageIds r := nd_dests hND z c0 hc0z
        have hC' : ∀ w ∈ C', w ∈ destsOf r z :=
          fun w hw => hC w (List.mem_cons_of_mem c0 hw)
        by_cases hc0v : c0 ∈ vis
        · -- skip: this destination is already discovered
          obtain ⟨n2, vis2, labels2, E2, hwalk, hinv2, hdv, hdl, hfr⟩ := ih
            (C'.map Sum.inl ++ Sum.inr z :: rest0) n vis labels E (z :: zs)
            ⟨inv.facts, inv.hn,
              ⟨C', rest0, rfl, hC',
                (fun d hd => by
                  rcases hcov d hd with h1 | h1
                  · rcases List.mem_cons.mp h1 with rfl | h2
                    · exact Or.inr hc0v
                    · exact Or.inl h2
                  · exact Or.inr h1),
                hrest⟩,
              inv.hvnd, inv.hvk, inv.hgray, inv.hchv, inv.hchnf, inv.hchnd,
              inv.hchord, inv.hchlink, inv.hTacc⟩
            (by simp only [lwMeasure, List.length_cons] at hm ⊢; omega)
          refine ⟨n2, vis2, labels2, E2, ?_, hinv2, hdv, hdl, ?_⟩
          · rw [labelWalk_skip r f c0 _ n vis labels hc0v]
            exact hwalk
          · intro fr hfr2
            rcases List.mem_cons.mp hfr2 with rfl | hfr2
            · obtain ⟨dv, hdv⟩ := hdv
              rw [hdv]
              simp only [frameNodeL_inl]
              exact List.mem_append_left dv hc0v
            · exact hfr fr hfr2
        · -- c0 is fresh
          obtain ⟨dests, hpage⟩ := getPage_isSome_of_key hc0k
          have hdc0 : destsOf r c0 = dests := by simp [destsOf, hpage]
          have hc0nf : c0 ∉ labels.map Prod.fst := fun hc => hc0v (hlabv c0 hc)
          have hc0ch : c0 ∉ z :: zs := fun hc => hc0v (inv.hchv c0 hc)
          have hidxc0 : List.indexOf c0 (vis ++ [c0]) = vis.length :=
            indexOf_append_fresh hc0v
          have hidxmem : ∀ w ∈ vis, List.indexOf w (vis ++ [c0]) < vis.length :=
            fun w hw => by
              rw [List.indexOf_append_of_mem hw]
              exact List.indexOf_lt_length.mpr hw
          have hchvis' : ∀ w ∈ z :: zs, w ∈ vis := inv.hchv
          have hrem := sum_filter_drop_elem (pageIds r).dedup
            (List.nodup_dedup _) (fun x => (destsOf r x).length + 2)
            (fun x => x ∉ vis) (fun x => x ∉ vis ++ [c0]) c0
            (List.mem_dedup.mpr hc0k)
            (fun x hx => by
              simp only [decide_eq_true_eq] at hx ⊢
              exact fun hxv => hx (List.mem_append_left _ hxv))
            (by simpa using hc0v)
            (by simp)
          have hordlift : List.Pairwise
              (fun a b => List.indexOf b (vis ++ [c0]) < List.indexOf a (vis ++ [c0]))
              (z :: zs) :=
            inv.hchord.imp_of_mem (fun ha hb hr => by
              rw [List.indexOf_append_of_mem (hchvis' _ ha),
                List.indexOf_append_of_mem (hchvis' _ hb)]
              exact hr)
          have hTacclift : ∀ z' ∈ z :: zs, ∀ w ∈ labels.map Prod.fst,
              List.indexOf z' (vis ++ [c0]) ≤ List.indexOf w (vis ++ [c0]) →
              Reaches r z' w := by
            intro z' hz' w hw hidx
            rw [List.indexOf_append_of_mem (hchvis' z' hz'),
              List.indexOf_append_of_mem (hlabv w hw)] at hidx
            exact inv.hTacc z' hz' w hw hidx
          have hreachz : ∀ w ∈ z :: zs, Reaches r w z :=
            chain_reaches_head zs z inv.hchlink
          rcases dests with _ | ⟨e0, es⟩
          · -- leaf destination: discovered and finished at once
            have hfacts1 := labelFacts_append_vis inv.facts c0
            have hfacts2 := labelFacts_finish hfacts1 c0
              (List.mem_append_right _ (List.mem_singleton_self c0)) hc0nf
              (by rw [hdc0]; intro d hd; exact absurd hd (List.not_mem_nil d))
              (fun w hw hidx hwc => by
                rcases List.mem_append.mp hw with h1 | h1
                · exact absurd hidx (by
                    rw [hidxc0]
                    have := hidxmem w h1
                    omega)
                · rw [List.mem_singleton] at h1
                  exact absurd h1 hwc)
              (fun w hw hidx => by
                rcases List.mem_append.mp hw with h1 | h1
                · exact absurd hidx (by
                    rw [hidxc0]
                    have := hidxmem w h1
                    omega)
                · rw [List.mem_singleton] at h1
                  subst h1
                  exact Relation.ReflTransGen.refl)
            obtain ⟨n2, vis2, labels2, E2, hwalk, hinv2, hdv, hdl, hfr⟩ := ih
              (C'.map Sum.inl ++ Sum.inr z :: rest0) (n + 1)
              (vis ++ [c0]) (labels ++ [(c0, n)])
              (E ++ [(vis ++ [c0]).length]) (z :: zs)
              ⟨by rw [inv.hn]; exact hfacts2,
                by
                  have hh := inv.hn
                  simp only [List.length_append, List.length_cons, List.length_nil]
                  omega,
                ⟨C', rest0, rfl, hC',
                  (fun d hd => by
                    rcases hcov d hd with h1 | h1
                    · rcases List.mem_cons.mp h1 with rfl | h2
                      · exact Or.inr (List.mem_append_right _
                          (List.mem_singleton_self d))
                      · exact Or.inl h2
                    · exact Or.inr (List.mem_append_left _ h1)),
                  labelRegions_mono_vis zs rest0 hrest
                    (fun x hx => List.mem_append_left _ hx)⟩,
                nodup_append_singleton inv.hvnd hc0v,
                (by
                  intro x hx
                  rcases List.mem_append.mp hx with h1 | h1
                  · exact inv.hvk x h1
                  · rw [List.mem_singleton] at h1
                    subst h1
                    exact hc0k),
                (by
                  intro x hx
                  rw [List.map_append]
                  rcases List.mem_append.mp hx with h1 | h1
                  · rcases inv.hgray x h1 with h2 | h2
                    · exact Or.inl (List.mem_append_left _ h2)
                    · exact Or.inr h2
                  · rw [List.mem_singleton] at h1
                    subst h1
                    exact Or.inl (List.mem_append_right _ (by simp))),
                (fun w hw => List.mem_append_left _ (hchvis' w hw)),
                (by
                  intro w hw
                  rw [List.map_append]
                  intro hcon
                  rcases List.mem_append.mp hcon with h1 | h1
                  · exact inv.hchnf w hw h1
                  · simp only [List.map_cons, List.map_nil,
                      List.mem_singleton] at h1
                    subst h1
                    exact hc0ch hw),
                inv.hchnd, hordlift, inv.hchlink,
                (by
                  intro z' hz' w hw hidx
                  rw [List.map_append] at hw
                  rcases List.mem_append.mp hw with h1 | h1
                  · exact hTacclift z' hz' w h1 hidx
                  · simp only [List.map_cons, List.map_nil,
                      List.mem_singleton] at h1
                    subst h1
                    exact Relation.ReflTransGen.tail (hreachz z' hz') hc0z)⟩
              (by
                simp only [hdc0] at hrem
                simp only [lwMeasure, List.length_cons, List.length_nil] at hm hrem ⊢
                omega)
            refine ⟨n2, vis2, labels2, E2, ?_, hinv2, ?_, ?_, ?_⟩
            · rw [labelWalk_leaf r f c0 _ n vis labels hc0v hpage]
              exact hwalk
            · obtain ⟨dv, hdv⟩ := hdv
              exact ⟨[c0] ++ dv, by rw [hdv, List.append_assoc]⟩
            · obtain ⟨dl, hdl⟩ := hdl
              exact ⟨[(c0, n)] ++ dl, by rw [hdl, List.append_assoc]⟩
            · intro fr hfr2
              rcases List.mem_cons.mp hfr2 with rfl | hfr2
              · obtain ⟨dv, hdv⟩ := hdv
                rw [hdv]
                simp only [frameNodeL_inl]
                exact List.mem_append_left dv
                  (List.mem_append_right vis (List.mem_singleton_self c0))
              · exact hfr fr hfr2
          · -- expand: c0 opens, deepening the grey chain
            have hfacts1 := labelFacts_append_vis inv.facts c0
            obtain ⟨n2, vis2, labels2, E2, hwalk, hinv2, hdv, hdl, hfr⟩ := ih
              ((e0 :: es).map Sum.inl ++ [Sum.inr c0] ++
                (C'.map Sum.inl ++ Sum.inr z :: rest0)) n
              (vis ++ [c0]) labels E (c0 :: z :: zs)
              ⟨hfacts1, inv.hn,
                ⟨e0 :: es, C'.map Sum.inl ++ Sum.inr z :: rest0, by simp,
                  (fun w hw => by rw [hdc0]; exact hw),
                  (fun d hd => by rw [hdc0] at hd; exact Or.inl hd),
                  ⟨C', rest0, rfl, hC',
                    (fun d hd => by
                      rcases hcov d hd with h1 | h1
                      · rcases List.mem_cons.mp h1 with rfl | h2
                        · exact Or.inr (List.mem_append_right _
                            (List.mem_singleton_self d))
                        · exact Or.inl h2
                      · exact Or.inr (List.mem_append_left _ h1)),
                    labelRegions_mono_vis zs rest0 hrest
                      (fun x hx => List.mem_append_left _ hx)⟩⟩,
                nodup_append_singleton inv.hvnd hc0v,
                (by
                  intro x hx
                  rcases List.mem_append.mp hx with h1 | h1
                  · exact inv.hvk x h1
                  · rw [List.mem_singleton] at h1
                    subst h1
                    exact hc0k),
                (by
                  intro x hx
                  rcases List.mem_append.mp hx with h1 | h1
                  · rcases inv.hgray x h1 with h2 | h2
                    · exact Or.inl h2
                    · exact Or.inr (List.mem_cons_of_mem c0 h2)
                  · rw [List.mem_singleton] at h1
                    subst h1
                    exact Or.inr (List.mem_cons_self _ _)),
                (by
                  intro w hw
                  rcases List.mem_cons.mp hw with rfl | h1
                  · exact List.mem_append_right _ (List.mem_singleton_self w)
                  · exact List.mem_append_left _ (hchvis' w h1)),
                (by
                  intro w hw
                  rcases List.mem_cons.mp hw with rfl | h1
                  · exact hc0nf
                  · exact inv.hchnf w h1),
                (by
                  rw [List.nodup_cons]
                  exact ⟨hc0ch, inv.hchnd⟩),
                (by
                  rw [List.pairwise_cons]
                  refine ⟨?_, hordlift⟩
                  intro w hw
                  rw [hidxc0]
                  exact hidxmem w (hchvis' w hw)),
                (List.Chain'.cons hc0z inv.hchlink),
                (by
                  intro z' hz' w hw hidx
                  rcases List.mem_cons.mp hz' with rfl | h1
                  · rw [hidxc0] at hidx
                    have := hidxmem w (hlabv w hw)
                    omega
                  · exact hTacclift z' h1 w hw hidx)⟩
              (by
                simp only [hdc0] at hrem
                simp only [lwMeasure, List.length_cons, List.length_map,
                  List.length_append, List.length_nil] at hm hrem ⊢
                omega)
            refine ⟨n2, vis2, labels2, E2, ?_, hinv2, ?_, hdl, ?_⟩
            · rw [labelWalk_expand r f c0 _ n vis labels e0 es hc0v hpage]
              exact hwalk
            · obtain ⟨dv, hdv⟩ := hdv
              exact ⟨[c0] ++ dv, by rw [hdv, List.append_assoc]⟩
            · intro fr hfr2
              rcases List.mem_cons.mp hfr2 with rfl | hfr2
              · obtain ⟨dv, hdv⟩ := hdv
                rw [hdv]
                simp only [frameNodeL_inl]
                exact List.mem_append_left dv
                  (List.mem_append_right vis (List.mem_singleton_self c0))
              · exact hfr fr (List.mem_append_right _ hfr2)

/-- The per-round fuel of the labelling driver covers the walk measure. -/
theorem lwMeasure_init (r : Record) (s : PageId) (vis : List PageId) :
    lwMeasure r [Sum.inl s] vis < 2 * (r.length + edgeCount r) + 4 := by
  have hb := sum_degrees_le r (pageIds r).dedup (List.nodup_dedup _)
    (fun x hx => List.mem_dedup.mp hx)
  have hmono := sum_filter_mono (pageIds r).dedup
    (fun x => (destsOf r x).length + 2) (fun _ => true) (fun x => x ∉ vis)
    (fun x _ => rfl)
  rw [List.filter_true] at hmono
  simp only [lwMeasure, List.length_cons, List.length_nil]
  omega

/-- One round of the labelling driver. -/
theorem labelDriver_step (r : Record) (fuel n : Nat) (vis : List PageId)
    (labels : List (PageId × Nat)) :
    labelDriver r (fuel + 1) n vis labels =
      match getMember ((pageIds r).filter (fun k => k ∉ vis)) with
      | none => some labels
      | some startPageId =>
        match labelWalk r (2 * (r.length + edgeCount r) + 4)
            [Sum.inl startPageId] n vis labels with
        | none => none
        | some (n2, v2, l2) => labelDriver r fuel n2 v2 l2 := rfl

/-- The labelling driver restarts the walk until every registered page is
discovered, and ends with a complete consecutive labelling. -/
theorem labelDriver_spec (r : Record) (hND : NoDangling r) :
    ∀ (fuel n : Nat) (vis : List PageId) (labels : List (PageId × Nat))
      (E : List Nat),
      LabelInv r [] n vis labels E [] →
      ((pageIds r).filter (fun k => k ∉ vis)).length < fuel →
      ∃ labels2 vis2 E2,
        labelDriver r fuel n vis labels = some labels2 ∧
        KosarajuFacts r vis2 labels2 E2 := by
  intro fuel
  induction fuel with
  | zero =>
    intro n vis labels E _ h
    omega
  | succ f ih =>
    intro n vis labels E inv hlen
    rcases hget : getMember ((pageIds r).filter (fun k => k ∉ vis)) with _ | s
    · refine ⟨labels, vis, E, ?_, ?_⟩
      · rw [labelDriver_step, hget]
      · refine ⟨inv.facts, inv.hvnd, inv.hvk, ?_, ?_⟩
        · intro x hx
          by_contra hxv
          have hmem : x ∈ (pageIds r).filter (fun k => k ∉ vis) :=
            List.mem_filter.mpr ⟨hx, by simpa using hxv⟩
          unfold getMember at hget
          rw [List.head?_eq_none_iff] at hget
          rw [hget] at hmem
          exact absurd hmem (List.not_mem_nil x)
        · intro x
          constructor
          · exact fun h => labPages_sub_vis inv.facts x h
          · intro hxv
            rcases inv.hgray x hxv with h1 | h1
            · exact h1
            · exact absurd h1 (List.not_mem_nil x)
    · have hsmem : s ∈ (pageIds r).filter (fun k => k ∉ vis) := by
        unfold getMember at hget
        exact List.mem_of_mem_head? (Option.mem_def.mpr hget)
      have hsk : s ∈ pageIds r := (List.mem_filter.mp hsmem).1
      have hsv : s ∉ vis := by
        have := (List.mem_filter.mp hsmem).2
        simpa using this
      obtain ⟨n2, vis2, labels2, E2, hwalk, hinv2, ⟨dv, hdv⟩, hdl, hfr⟩ :=
        labelWalk_master r hND (2 * (r.length + edgeCount r) + 4)
          [Sum.inl s] n vis labels E []
          ⟨inv.facts, inv.hn,
            ⟨[s], rfl, by
              intro y hy
              rw [List.mem_singleton] at hy
              subst hy
              exact hsk⟩,
            inv.hvnd, inv.hvk, inv.hgray, inv.hchv, inv.hchnf, inv.hchnd,
            inv.hchord, inv.hchlink, inv.hTacc⟩
          (lwMeasure_init r s vis)
      have hsv2 : s ∈ vis2 := by
        have := hfr (Sum.inl s) (List.mem_singleton_self _)
        simpa using this
      have hlen2 : ((pageIds r).filter (fun k => k ∉ vis2)).length <
          ((pageIds r).filter (fun k => k ∉ vis)).length := by
        refine length_filter_lt_of_imp (pageIds r) _ _ ?_ s hsk ?_ ?_
        · intro x hx
          simp only [decide_eq_true_eq] at hx ⊢
          intro hxv
          exact hx (by rw [hdv]; exact List.mem_append_left _ hxv)
        · simpa using hsv
        · simpa using hsv2
      obtain ⟨labels3, vis3, E3, hres, hK⟩ := ih n2 vis2 labels2 E2 hinv2
        (by omega)
      refine ⟨labels3, vis3, E3, ?_, hK⟩
      rw [labelDriver_step]
      simp only [hget]
      simp only [hwalk]
      exact hres

/-- The labelling phase of `getSCCs` on a dangling-free store terminates
with a complete consecutive labelling of the registered pages. -/
theorem labelPhase_spec (r : Record) (hND : NoDangling r) :
    ∃ labels vis E, labelDriver r (r.length + 1) 0 [] [] = some labels ∧
      KosarajuFacts r vis labels E := by
  obtain ⟨labels, vis, E, hres, hK⟩ := labelDriver_spec r hND (r.length + 1)
    0 [] [] []
    ⟨⟨rfl, rfl, List.nodup_nil, fun e he => absurd he (List.not_mem_nil e),
        List.Pairwise.nil,
        fun q hq => absurd hq (List.not_mem_nil q),
        fun q hq => absurd hq (List.not_mem_nil q),
        fun q hq => absurd hq (List.not_mem_nil q),
        fun q hq => absurd hq (List.not_mem_nil q)⟩,
      rfl,
      ⟨[], rfl, fun y hy => absurd hy (List.not_mem_nil y)⟩,
      List.nodup_nil,
      fun x hx => absurd hx (List.not_mem_nil x),
      fun x hx => absurd hx (List.not_mem_nil x),
      fun z hz => absurd hz (List.not_mem_nil z),
      fun z hz => absurd hz (List.not_mem_nil z),
      List.nodup_nil, List.Pairwise.nil, List.chain'_nil,
      fun z hz => absurd hz (List.not_mem_nil z)⟩
    (by
      rw [List.filter_eq_self.mpr (fun a _ => by simp)]
      unfold pageIds
      rw [List.length_map]
      omega)
  exact ⟨labels, vis, E, hres, hK⟩

/-! ## Order facts of the completed labelling -/

/-- A page with a link is registered. -/
theorem key_of_dest_nonempty {r : Record} {u d : PageId}
    (h : d ∈ destsOf r u) : u ∈ pageIds r := by
  unfold destsOf at h
  rcases hp : getPage r u with _ | ds
  · rw [hp] at h
    simp at h
  · exact getPage_some_key hp

/-- On a dangling-free store, reachability stays within the registry. -/
theorem reaches_mem_keys {r : Record} (hND : NoDangling r) {a b : PageId}
    (ha : a ∈ pageIds r) (h : Reaches r a b) : b ∈ pageIds r := by
  induction h with
  | refl => exact ha
  | tail _ hbc ih => exact nd_dests hND _ _ hbc

/-- In a complete consecutive labelling, the label of a page is its position
in the finish order. -/
theorem label_eq_indexOf {labels : List (PageId × Nat)}
    (hnum : labels.map Prod.snd = List.range labels.length)
    (hlnd : (labels.map Prod.fst).Nodup)
    {w : PageId} {lw : Nat} (h : (w, lw) ∈ labels) :
    List.indexOf w (labels.map Prod.fst) = lw := by
  obtain ⟨hlt, hget⟩ := label_entry_get hnum h
  rw [List.get_eq_getElem] at hget
  have hm : (labels.map Prod.fst).get ⟨lw, by simpa using hlt⟩ = w := by
    simp only [List.get_eq_getElem, List.getElem_map]
    rw [hget]
  have := List.get_indexOf hlnd ⟨lw, by simpa using hlt⟩
  rw [hm] at this
  exact this

/-- A page carries a single label. -/
theorem page_label_unique {labels : List (PageId × Nat)}
    (hnum : labels.map Prod.snd = List.range labels.length)
    (hlnd : (labels.map Prod.fst).Nodup)
    {w : PageId} {l1 l2 : Nat} (h1 : (w, l1) ∈ labels)
    (h2 : (w, l2) ∈ labels) : l1 = l2 := by
  have e1 := label_eq_indexOf hnum hlnd h1
  have e2 := label_eq_indexOf hnum hlnd h2
  omega

/-- White-path fact: everything reachable from a finished page `m` along
pages discovered no earlier than `m` lies in the window of `m` and finishes
no later. -/
theorem white_path {r : Record} {vis : List PageId}
    {labels : List (PageId × Nat)} {E : List Nat}
    (K : KosarajuFacts r vis labels E) {m : PageId} {lm em : Nat}
    (hqm : ((m, lm), em) ∈ labels.zip E) :
    ∀ v, Relation.ReflTransGen
        (fun a b => b ∈ destsOf r a ∧ List.indexOf m vis ≤ List.indexOf b vis)
        m v →
      v ∈ vis.take em ∧ ∃ lv, (v, lv) ∈ labels ∧ lv ≤ lm := by
  intro v hv
  induction hv with
  | refl =>
    exact ⟨K.facts.hfinv ((m, lm), em) hqm, lm, (List.of_mem_zip hqm).1, le_refl lm⟩
  | tail hmb hbv ih =>
    rename_i b v'
    obtain ⟨hbtake, lb, hlb, hlble⟩ := ih
    obtain ⟨eb, hqb⟩ := zip_lookup K.facts.hElen (E := E) hlb
    have hele : eb ≤ em := zip_E_mono K.facts.hElen K.facts.hnum K.facts.hEmono
      hqb hqm hlble
    have hv'takeb : v' ∈ vis.take eb := K.facts.hGE ((b, lb), eb) hqb v' hbv.1
    have hv'vis : v' ∈ vis := List.mem_of_mem_take hv'takeb
    have hv'take : v' ∈ vis.take em :=
      mem_take_of_indexOf_lt hv'vis
        (by have := indexOf_lt_of_mem_take hv'takeb; omega)
    obtain ⟨lv, hlv, hlvle⟩ := K.facts.hGW ((m, lm), em) hqm v' hv'take hbv.2
    exact ⟨hv'take, lv, hlv, hlvle⟩

/-- Every registered page has a class-maximal finish label. -/
theorem exists_maxClassLabel {r : Record} {vis : List PageId}
    {labels : List (PageId × Nat)} {E : List Nat}
    (K : KosarajuFacts r vis labels E) (hND : NoDangling r) {x : PageId}
    (hx : x ∈ pageIds r) : ∃ l, MaxClassLabel r labels x l := by
  have hfin : ∀ w, Mutual r x w → ∃ lw, (w, lw) ∈ labels := by
    intro w hw
    have hwk : w ∈ pageIds r := reaches_mem_keys hND hx hw.1
    have hwlab : w ∈ labels.map Prod.fst := (K.hlabv w).mpr (K.hkv w hwk)
    obtain ⟨p, hp, hpx⟩ := List.mem_map.mp hwlab
    exact ⟨p.2, by rw [← hpx]; exact hp⟩
  obtain ⟨m, hPm, hmax⟩ := exists_max_measure
    (fun w => List.indexOf w (labels.map Prod.fst)) (labels.map Prod.fst).length
    (fun w _ => List.indexOf_le_length)
    (labels.map Prod.fst).length x (by omega) (mutual_refl r x)
  obtain ⟨lm, hlm⟩ := hfin m hPm
  have hidx := label_eq_indexOf K.facts.hnum K.facts.hlnd hlm
  refine ⟨lm, m, hPm, hlm, ?_⟩
  intro w lw hw hwl
  have := hmax w hw
  rw [hidx] at this
  rw [label_eq_indexOf K.facts.hnum K.facts.hlnd hwl] at this
  exact this

/-- The class-maximal label is a class invariant. -/
theorem maxClassLabel_congr {r : Record} {labels : List (PageId × Nat)}
    {x y : PageId} {l : Nat} (hxy : Mutual r x y)
    (h : MaxClassLabel r labels x l) : MaxClassLabel r labels y l := by
  obtain ⟨m, hm, hml, hmax⟩ := h
  exact ⟨m, mutual_trans (mutual_symm hxy) hm, hml,
    fun w lw hw hwl => hmax w lw (mutual_trans hxy hw) hwl⟩

/-- The class-maximal label is unique. -/
theorem maxClassLabel_unique {r : Record} {labels : List (PageId × Nat)}
    {x : PageId} {l1 l2 : Nat} (h1 : MaxClassLabel r labels x l1)
    (h2 : MaxClassLabel r labels x l2) : l1 = l2 := by
  obtain ⟨m1, hm1, hml1, hmax1⟩ := h1
  obtain ⟨m2, hm2, hml2, hmax2⟩ := h2
  have ha := hmax1 m2 l2 hm2 hml2
  have hb := hmax2 m1 l1 hm1 hml1
  omega

/-- Key Kosaraju fact: a link between distinct strongly-connected classes
strictly lowers the class-maximal label. -/
theorem edge_maxClassLabel_lt {r : Record} {vis : List PageId}
    {labels : List (PageId × Nat)} {E : List Nat}
    (K : KosarajuFacts r vis labels E) (hND : NoDangling r) {u v : PageId}
    (huv : v ∈ destsOf r u) (hnm : ¬ Mutual r u v) {lu lv : Nat}
    (hu : MaxClassLabel r labels u lu) (hv : MaxClassLabel r labels v lv) :
    lv < lu := by
  have huk : u ∈ pageIds r := key_of_dest_nonempty huv
  have hvk : v ∈ pageIds r := nd_dests hND u v huv
  have hclsk : ∀ w, Mutual r u w ∨ Mutual r v w → w ∈ pageIds r := by
    intro w hw
    rcases hw with h1 | h1
    · exact reaches_mem_keys hND huk h1.1
    · exact reaches_mem_keys hND hvk h1.1
  have hclsv : ∀ w, Mutual r u w ∨ Mutual r v w → w ∈ vis :=
    fun w hw => K.hkv w (hclsk w hw)
  obtain ⟨m, hPm, hmin⟩ := @exists_min_measure
    (fun w => Mutual r u w ∨ Mutual r v w) (fun w => List.indexOf w vis)
    (List.indexOf u vis) u (le_refl _) (Or.inl (mutual_refl r u))
  have hmv : m ∈ vis := hclsv m hPm
  have hmlab : m ∈ labels.map Prod.fst := (K.hlabv m).mpr hmv
  obtain ⟨pm, hpm, hpmx⟩ := List.mem_map.mp hmlab
  obtain ⟨em, hqm⟩ := zip_lookup K.facts.hElen (E := E)
    (hpmx ▸ hpm : (m, pm.2) ∈ labels)
  set lm := pm.2 with hlmdef
  -- a restricted walk from m to any member of the class of v
  have hwalkv : ∀ w, Mutual r v w →
      (Relation.ReflTransGen
        (fun a b => b ∈ destsOf r a ∧ List.indexOf m vis ≤ List.indexOf b vis)
        v w) := by
    intro w hw
    have := reaches_restrict_class v w hw.1 hw.2
    exact this.mono (fun a b hab =>
      ⟨hab.1, hmin b (Or.inr hab.2)⟩)
  obtain ⟨zs, hzsm, hzsl, hzsmax⟩ := hu
  obtain ⟨ys, hysm, hysl, hysmax⟩ := hv
  rcases hPm with hum | hvm
  · -- the first-discovered class member lies in the class of u
    have hwalk : ∀ w, Mutual r v w →
        Relation.ReflTransGen
          (fun a b => b ∈ destsOf r a ∧ List.indexOf m vis ≤ List.indexOf b vis)
          m w := by
      intro w hw
      have h1 := reaches_restrict_class m u (mutual_symm hum).1 (mutual_symm hum).2
      have h1' : Relation.ReflTransGen
          (fun a b => b ∈ destsOf r a ∧ List.indexOf m vis ≤ List.indexOf b vis)
          m u :=
        h1.mono (fun a b hab =>
          ⟨hab.1, hmin b (Or.inl (mutual_trans hum hab.2))⟩)
      have hstep : Relation.ReflTransGen
          (fun a b => b ∈ destsOf r a ∧ List.indexOf m vis ≤ List.indexOf b vis)
          u v :=
        Relation.ReflTransGen.single ⟨huv, hmin v (Or.inr (mutual_refl r v))⟩
      exact (h1'.trans hstep).trans (hwalkv w hw)
    obtain ⟨_, lw, hlw, hlwle⟩ := white_path K hqm ys (hwalk ys hysm)
    have hlv : lv ≤ lm :=
      page_label_unique K.facts.hnum K.facts.hlnd hysl hlw ▸ hlwle
    have hlmu : lm ≤ lu := hzsmax m lm hum (hpmx ▸ hpm)
    rcases Nat.lt_or_ge lv lu with h | h
    · exact h
    · exfalso
      have hveq : lv = lu := by omega
      have hmeq : lm = lu := by omega
      have hylab : (ys, lu) ∈ labels := hveq ▸ hysl
      have hmlab2 : (m, lu) ∈ labels := hmeq ▸ (hpmx ▸ hpm)
      have hym : ys = m := label_entry_inj K.facts.hnum hylab hmlab2
      rw [hym] at hysm
      exact hnm (mutual_trans hum (mutual_symm hysm))
  · -- the first-discovered class member lies in the class of v
    have hwalk : ∀ w, Mutual r v w →
        Relation.ReflTransGen
          (fun a b => b ∈ destsOf r a ∧ List.indexOf m vis ≤ List.indexOf b vis)
          m w := by
      intro w hw
      have h1 := reaches_restrict_class m w
        (mutual_trans (mutual_symm hvm) hw).1
        (mutual_trans (mutual_symm hvm) hw).2
      exact h1.mono (fun a b hab =>
        ⟨hab.1, hmin b (Or.inr (mutual_trans hvm hab.2))⟩)
    obtain ⟨_, lw, hlw, hlwle⟩ := white_path K hqm ys (hwalk ys hysm)
    have hlv : lv ≤ lm :=
      page_label_unique K.facts.hnum K.facts.hlnd hysl hlw ▸ hlwle
    have hlmv : lm ≤ lv := hysmax m lm hvm (hpmx ▸ hpm)
    have hlveq : lv = lm := by omega
    -- now compare with the class-maximal page of u
    have hzsv : zs ∈ vis := hclsv zs (Or.inl hzsm)
    rcases Nat.lt_or_ge (List.indexOf zs vis) em with hlt | hge
    · exfalso
      have hzstake : zs ∈ vis.take em := mem_take_of_indexOf_lt hzsv hlt
      have hreach : Reaches r m zs :=
        K.facts.hGT ((m, lm), em) hqm zs hzstake (hmin zs (Or.inl hzsm))
      have hvu : Reaches r v u :=
        ((hvm.1.trans hreach).trans hzsm.2)
      exact hnm ⟨Relation.ReflTransGen.single huv, hvu⟩
    · rcases Nat.lt_or_ge lm lu with h | h
      · omega
      · exfalso
        obtain ⟨ez, hqz⟩ := zip_lookup K.facts.hElen (E := E) hzsl
        have heze : ez ≤ em := zip_E_mono K.facts.hElen K.facts.hnum
          K.facts.hEmono hqz hqm h
        have hzstake : zs ∈ vis.take ez := K.facts.hfinv ((zs, lu), ez) hqz
        have := indexOf_lt_of_mem_take hzstake
        omega

/-- Along any walk the class-maximal label can only descend, strictly so
when the endpoints are not mutually reachable. -/
theorem reach_maxClassLabel_le {r : Record} {vis : List PageId}
    {labels : List (PageId × Nat)} {E : List Nat}
    (K : KosarajuFacts r vis labels E) (hND : NoDangling r) :
    ∀ u v, Reaches r u v → ∀ lu lv, MaxClassLabel r labels u lu →
      MaxClassLabel r labels v lv →
      lv ≤ lu ∧ (¬ Mutual r u v → lv < lu) := by
  intro u v huv
  induction huv using Relation.ReflTransGen.head_induction_on with
  | refl =>
    intro lu lv h1 h2
    have := maxClassLabel_unique h1 h2
    exact ⟨by omega, fun hc => absurd (mutual_refl r v) hc⟩
  | head hua hav ih =>
    rename_i u' a
    intro lu lv hu hv
    have hak : a ∈ pageIds r := nd_dests hND u' a hua
    obtain ⟨la, hla⟩ := exists_maxClassLabel K hND hak
    by_cases hm : Mutual r u' a
    · have hla' : MaxClassLabel r labels u' la :=
        maxClassLabel_congr (mutual_symm hm) hla
      have heq : la = lu := maxClassLabel_unique hla' hu
      obtain ⟨h1, h2⟩ := ih la lv hla hv
      refine ⟨by omega, ?_⟩
      intro hnuv
      have hnav : ¬ Mutual r a v := fun hc => hnuv (mutual_trans hm hc)
      have := h2 hnav
      omega
    · have hlt : la < lu := edge_maxClassLabel_lt K hND hua hm hu hla
      obtain ⟨h1, _⟩ := ih la lv hla hv
      exact ⟨by omega, fun _ => by omega⟩

/-! ## The transpose graph -/

/-- Under duplicate-free keys, record entries are looked up exactly. -/
theorem getPage_eq_of_mem_nodup {r : Record} (hKnd : (pageIds r).Nodup)
    {a : PageId} {ds : List PageId} (h : (a, ds) ∈ r) :
    getPage r a = some ds := by
  induction r with
  | nil => simp at h
  | cons p r' ih =>
    have hKnd' : (p.1 :: pageIds r').Nodup := by
      simpa only [pageIds, List.map_cons] using hKnd
    have hhead : p.1 ∉ pageIds r' := (List.nodup_cons.mp hKnd').1
    have htail : (pageIds r').Nodup := (List.nodup_cons.mp hKnd').2
    rcases List.mem_cons.mp h with rfl | h1
    · unfold getPage
      rw [List.find?_cons_of_pos _ (by simp)]
      rfl
    · have hane : p.1 ≠ a := by
        intro hc
        exact hhead (hc ▸ List.mem_map.mpr ⟨(a, ds), h1, rfl⟩)
      unfold getPage
      rw [List.find?_cons_of_neg _ (by simpa using hane)]
      exact ih htail h1

/-- With duplicate-free keys, a hyperlink is exactly a successor pair. -/
theorem mem_getHyperlinks {r : Record} (hKnd : (pageIds r).Nodup)
    (a b : PageId) : (a, b) ∈ getHyperlinks r ↔ b ∈ destsOf r a := by
  unfold getHyperlinks
  rw [List.mem_flatMap]
  constructor
  · rintro ⟨p, hp, hmem⟩
    obtain ⟨d, hd, hde⟩ := List.mem_map.mp hmem
    have h1 : p.1 = a := congrArg Prod.fst hde
    have h2 : d = b := congrArg Prod.snd hde
    subst h2
    have := getPage_eq_of_mem_nodup hKnd (h1 ▸ hp : (a, p.2) ∈ r)
    unfold destsOf
    rw [this]
    exact hd
  · intro hb
    have hsome : getPage r a = some ((getPage r a).getD []) := by
      unfold destsOf at hb
      rcases hp : getPage r a with _ | ds
      · rw [hp] at hb
        simp at hb
      · rfl
    have hmem := getPage_mem hsome
    exact ⟨(a, (getPage r a).getD []), hmem,
      List.mem_map.mpr ⟨b, hb, rfl⟩⟩

/-- Looking up a page untouched by the transpose update. -/
theorem getPage_update_ne (m : Snapshot) (y x z : PageId) (hzy : z ≠ y) :
    getPage (m.map (fun p => if p.1 = y then
      (p.1, if x ∈ p.2 then p.2 else p.2 ++ [x]) else p)) z = getPage m z := by
  induction m with
  | nil => rfl
  | cons p m' ih =>
    by_cases hpz : p.1 = z
    · rw [List.map_cons]
      unfold getPage
      by_cases hpy : p.1 = y
      · exact absurd (hpy ▸ hpz.symm) hzy
      · rw [if_neg hpy, List.find?_cons_of_pos _ (by simpa using hpz),
          List.find?_cons_of_pos _ (by simpa using hpz)]
    · rw [List.map_cons]
      unfold getPage
      by_cases hpy : p.1 = y
      · rw [if_pos hpy, List.find?_cons_of_neg _ (by simpa using hpz),
          List.find?_cons_of_neg _ (by simpa using hpz)]
        exact ih
      · rw [if_neg hpy, List.find?_cons_of_neg _ (by simpa using hpz),
          List.find?_cons_of_neg _ (by simpa using hpz)]
        exact ih

/-- Looking up the page updated by the transpose insertion. -/
theorem getPage_update_eq (m : Snapshot) (y x : PageId)
    (hy : y ∈ snapKeys m) :
    ∃ ds, getPage m y = some ds ∧
      getPage (m.map (fun p => if p.1 = y then
        (p.1, if x ∈ p.2 then p.2 else p.2 ++ [x]) else p)) y =
        some (if x ∈ ds then ds else ds ++ [x]) := by
  induction m with
  | nil => simp [snapKeys] at hy
  | cons p m' ih =>
    by_cases hpy : p.1 = y
    · refine ⟨p.2, ?_, ?_⟩
      · unfold getPage
        rw [List.find?_cons_of_pos _ (by simpa using hpy)]
        rfl
      · rw [List.map_cons, if_pos hpy]
        unfold getPage
        rw [List.find?_cons_of_pos _ (by simpa using hpy)]
        rfl
    · have hy' : y ∈ snapKeys m' := by
        rcases List.mem_map.mp hy with ⟨q, hq, hqy⟩
        rcases List.mem_cons.mp hq with rfl | hq1
        · exact absurd hqy hpy
        · exact List.mem_map.mpr ⟨q, hq1, hqy⟩
      obtain ⟨ds, hds, hds2⟩ := ih hy'
      refine ⟨ds, ?_, ?_⟩
      · unfold getPage
        rw [List.find?_cons_of_neg _ (by simpa using hpy)]
        exact hds
      · rw [List.map_cons, if_neg hpy]
        unfold getPage
        rw [List.find?_cons_of_neg _ (by simpa using hpy)]
        exact hds2

/-- A page absent from the keys has an empty lookup. -/
theorem getPage_eq_none_of_not_key {m : Snapshot} {z : PageId}
    (h : z ∉ snapKeys m) : getPage m z = none := by
  unfold getPage
  rw [List.find?_eq_none.mpr]
  · rfl
  · intro p hp hc
    simp only [decide_eq_true_eq] at hc
    exact h (List.mem_map.mpr ⟨p, hp, hc⟩)

/-- Lookup distributes over concatenated snapshots. -/
theorem getPage_append (m m2 : Snapshot) (y : PageId) :
    getPage (m ++ m2) y = (getPage m y).or (getPage m2 y) := by
  unfold getPage
  rw [List.find?_append]
  cases List.find? (fun p => p.1 = y) m <;> rfl

/-- One transpose insertion: the new successor lists and keys. -/
theorem addTransposeEdge_spec (m : Snapshot) (a b : PageId)
    (hnd : (snapKeys m).Nodup) :
    (snapKeys (addTransposeEdge m a b)).Nodup ∧
    (∀ x y, x ∈ destsOf (addTransposeEdge m a b) y ↔
      (x ∈ destsOf m y ∨ (x = b ∧ y = a))) ∧
    (∀ y, y ∈ snapKeys (addTransposeEdge m a b) ↔
      (y ∈ snapKeys m ∨ y = a)) := by
  unfold addTransposeEdge
  by_cases ha : a ∈ snapKeys m
  · rw [if_pos ha]
    have hkeys : snapKeys (m.map (fun p => if p.1 = a then
        (p.1, if b ∈ p.2 then p.2 else p.2 ++ [b]) else p)) = snapKeys m := by
      unfold snapKeys
      rw [List.map_map]
      apply List.map_congr_left
      intro p _
      by_cases hp : p.1 = a <;> simp [hp]
    refine ⟨by rw [hkeys]; exact hnd, ?_, ?_⟩
    · intro x y
      by_cases hya : y = a
      · subst hya
        obtain ⟨ds, hds, hds2⟩ := getPage_update_eq m y b ha
        unfold destsOf
        rw [hds, hds2]
        by_cases hbds : b ∈ ds
        · rw [if_pos hbds]
          constructor
          · intro h
            exact Or.inl (by simpa using h)
          · intro h
            rcases h with h | h
            · simpa using h
            · simp only [Option.getD_some]
              exact h.1 ▸ hbds
        · rw [if_neg hbds]
          simp only [Option.getD_some, List.mem_append, List.mem_singleton]
          constructor
          · intro h
            rcases h with h | h
            · exact Or.inl h
            · exact Or.inr ⟨h, trivial⟩
          · intro h
            rcases h with h | h
            · exact Or.inl h
            · exact Or.inr h.1
      · unfold destsOf
        rw [getPage_update_ne m a b y hya]
        constructor
        · exact fun h => Or.inl h
        · intro h
          rcases h with h | h
          · exact h
          · exact absurd h.2 hya
    · intro y
      rw [hkeys]
      constructor
      · exact fun h => Or.inl h
      · intro h
        rcases h with h | h
        · exact h
        · exact h ▸ ha
  · rw [if_neg ha]
    have hkeys : snapKeys (m ++ [(a, [b])]) = snapKeys m ++ [a] := by
      unfold snapKeys
      rw [List.map_append]
      rfl
    refine ⟨?_, ?_, ?_⟩
    · rw [hkeys]
      exact nodup_append_singleton hnd ha
    · intro x y
      unfold destsOf
      rw [getPage_append]
      by_cases hya : y = a
      · subst hya
        rw [getPage_eq_none_of_not_key ha]
        have hone : getPage [(y, [b])] y = some [b] := by
          unfold getPage
          rw [List.find?_cons_of_pos _ (by simp)]
          rfl
        rw [hone]
        simp only [Option.none_or, Option.getD_some, Option.getD_none,
          List.mem_singleton, List.not_mem_nil, false_or]
        tauto
      · have h2 : getPage [(a, [b])] y = none := by
          unfold getPage
          rw [List.find?_cons_of_neg _ (by simpa using fun hc => hya hc.symm)]
          rfl
        rw [h2]
        simp only [Option.or_none]
        constructor
        · exact fun h => Or.inl h
        · intro h
          rcases h with h | h
          · exact h
          · exact absurd h.2 hya
    · intro y
      rw [hkeys]
      rw [List.mem_append, List.mem_singleton]

/-- The transpose fold accumulates exactly the reversed processed links. -/
theorem transposeFold_spec :
    ∀ (links : List (PageId × PageId)) (m : Snapshot),
      (snapKeys m).Nodup →
      (snapKeys (links.foldl (fun m2 e => addTransposeEdge m2 e.2 e.1) m)).Nodup ∧
      (∀ x y, x ∈ destsOf
          (links.foldl (fun m2 e => addTransposeEdge m2 e.2 e.1) m) y ↔
        (x ∈ destsOf m y ∨ (x, y) ∈ links)) ∧
      (∀ y, y ∈ snapKeys
          (links.foldl (fun m2 e => addTransposeEdge m2 e.2 e.1) m) ↔
        (y ∈ snapKeys m ∨ ∃ x, (x, y) ∈ links)) := by
  intro links
  induction links with
  | nil =>
    intro m hnd
    refine ⟨hnd, ?_, ?_⟩
    · intro x y
      simp
    · intro y
      simp
  | cons e ls ih =>
    intro m hnd
    obtain ⟨hnd1, hdests1, hkeys1⟩ := addTransposeEdge_spec m e.2 e.1 hnd
    obtain ⟨hnd2, hdests2, hkeys2⟩ := ih (addTransposeEdge m e.2 e.1) hnd1
    rw [List.foldl_cons] at *
    refine ⟨hnd2, ?_, ?_⟩
    · intro x y
      rw [hdests2 x y, hdests1 x y]
      constructor
      · intro h
        rcases h with (h | h) | h
        · exact Or.inl h
        · exact Or.inr (List.mem_cons.mpr (Or.inl (Prod.ext h.1 h.2)))
        · exact Or.inr (List.mem_cons_of_mem e h)
      · intro h
        rcases h with h | h
        · exact Or.inl (Or.inl h)
        · rcases List.mem_cons.mp h with h1 | h1
          · exact Or.inl (Or.inr ⟨congrArg Prod.fst h1, congrArg Prod.snd h1⟩)
          · exact Or.inr h1
    · intro y
      rw [hkeys2 y, hkeys1 y]
      constructor
      · intro h
        rcases h with (h | h) | ⟨x, hx⟩
        · exact Or.inl h
        · exact Or.inr ⟨e.1, by rw [h]; exact List.mem_cons_self e ls⟩
        · exact Or.inr ⟨x, List.mem_cons_of_mem e hx⟩
      · intro h
        rcases h with h | ⟨x, hx⟩
        · exact Or.inl (Or.inl h)
        · rcases List.mem_cons.mp hx with h1 | h1
          · exact Or.inl (Or.inr (congrArg Prod.snd h1))
          · exact Or.inr ⟨x, h1⟩

/-- Lookup in the padding block of pages with no incoming links. -/
theorem getPage_pad (noIn : List PageId) (y : PageId) :
    getPage (noIn.map (fun p => (p, ([] : List PageId)))) y =
      if y ∈ noIn then some [] else none := by
  induction noIn with
  | nil => simp [getPage]
  | cons a l ih =>
    rw [List.map_cons]
    by_cases hya : a = y
    · subst hya
      unfold getPage
      rw [List.find?_cons_of_pos _ (by simp)]
      rw [if_pos (List.mem_cons_self a l)]
      rfl
    · unfold getPage
      rw [List.find?_cons_of_neg _ (by simpa using hya)]
      unfold getPage at ih
      rw [ih]
      by_cases hyl : y ∈ l
      · rw [if_pos hyl, if_pos (List.mem_cons_of_mem a hyl)]
      · rw [if_neg hyl, if_neg (fun hc => by
          rcases List.mem_cons.mp hc with h1 | h1
          · exact hya h1.symm
          · exact hyl h1)]

/-- The transpose graph of a duplicate-free store: its edges are exactly the
reversed links, and its keys are exactly the endpoints of links. -/
theorem transpose_spec (r : Record) (hKnd : (pageIds r).Nodup) :
    (snapKeys (getTransposeHypertext r)).Nodup ∧
    (∀ x y, x ∈ destsOf (getTransposeHypertext r) y ↔ y ∈ destsOf r x) ∧
    (∀ y, y ∈ snapKeys (getTransposeHypertext r) ↔
      ((∃ x, y ∈ destsOf r x) ∨ ∃ d, d ∈ destsOf r y)) := by
  obtain ⟨hnd0, hdests0, hkeys0⟩ := transposeFold_spec (getHyperlinks r) []
    List.nodup_nil
  have hdests0' : ∀ x y, x ∈ destsOf
      ((getHyperlinks r).foldl (fun m2 e => addTransposeEdge m2 e.2 e.1) []) y ↔
      y ∈ destsOf r x := by
    intro x y
    rw [hdests0 x y, mem_getHyperlinks hKnd]
    constructor
    · intro h
      rcases h with h | h
      · exact absurd h (by simp [destsOf, getPage])
      · exact h
    · exact fun h => Or.inr h
  have hkeys0' : ∀ y, y ∈ snapKeys
      ((getHyperlinks r).foldl (fun m2 e => addTransposeEdge m2 e.2 e.1) []) ↔
      ∃ x, y ∈ destsOf r x := by
    intro y
    rw [hkeys0 y]
    constructor
    · intro h
      rcases h with h | ⟨x, hx⟩
      · exact absurd h (by simp [snapKeys])
      · exact ⟨x, (mem_getHyperlinks hKnd x y).mp hx⟩
    · intro ⟨x, hx⟩
      exact Or.inr ⟨x, (mem_getHyperlinks hKnd x y).mpr hx⟩
  unfold getTransposeHypertext
  simp only
  set links := getHyperlinks r with hlinksdef
  set t0 := links.foldl (fun m2 e => addTransposeEdge m2 e.2 e.1) [] with ht0def
  set noIn := ((links.map Prod.fst).filter (fun s => s ∉ links.map Prod.snd)).dedup
    with hnoindef
  have hkeyspad : ∀ l : List PageId,
      snapKeys (l.map (fun p => (p, ([] : List PageId)))) = l := by
    intro l
    induction l with
    | nil => rfl
    | cons a t ih =>
      unfold snapKeys at ih ⊢
      rw [List.map_cons, List.map_cons, ih]
  have hkeyst : snapKeys (t0 ++ noIn.map (fun p => (p, ([] : List PageId)))) =
      snapKeys t0 ++ noIn := by
    have h2 := hkeyspad noIn
    unfold snapKeys at h2 ⊢
    rw [List.map_append, h2]
  have hnoInmem : ∀ y, y ∈ noIn ↔
      ((∃ d, d ∈ destsOf r y) ∧ ¬ ∃ x, y ∈ destsOf r x) := by
    intro y
    rw [hnoindef, List.mem_dedup, List.mem_filter]
    constructor
    · intro ⟨h1, h2⟩
      obtain ⟨p, hp, hpy⟩ := List.mem_map.mp h1
      refine ⟨⟨p.2, (mem_getHyperlinks hKnd y p.2).mp (by
        rw [← hpy]
        exact hp)⟩, ?_⟩
      intro ⟨x, hx⟩
      have : y ∈ links.map Prod.snd :=
        List.mem_map.mpr ⟨(x, y), (mem_getHyperlinks hKnd x y).mpr hx, rfl⟩
      simp only [decide_eq_true_eq] at h2
      exact absurd this h2
    · intro ⟨⟨d, hd⟩, h2⟩
      constructor
      · exact List.mem_map.mpr ⟨(y, d), (mem_getHyperlinks hKnd y d).mpr hd, rfl⟩
      · simp only [decide_eq_true_eq]
        intro hc
        obtain ⟨p, hp, hpy⟩ := List.mem_map.mp hc
        exact h2 ⟨p.1, (mem_getHyperlinks hKnd p.1 y).mp (by
          rw [← hpy]
          exact hp)⟩
  refine ⟨?_, ?_, ?_⟩
  · rw [hkeyst]
    refine List.Nodup.append hnd0 (List.nodup_dedup _) ?_
    intro x hx1 hx2
    obtain ⟨hhh, hnot⟩ := (hnoInmem x).mp hx2
    exact hnot ((hkeys0' x).mp hx1)
  · intro x y
    unfold destsOf
    rw [getPage_append]
    by_cases hyt0 : y ∈ snapKeys t0
    · obtain ⟨ds, hds⟩ := getPage_isSome_of_key (by simpa [pageIds, snapKeys] using hyt0)
      rw [hds]
      have hor : (some ds).or
          (getPage (noIn.map (fun p => (p, ([] : List PageId)))) y) = some ds := rfl
      rw [hor]
      have := hdests0' x y
      unfold destsOf at this
      rw [hds] at this
      exact this
    · rw [getPage_eq_none_of_not_key hyt0, getPage_pad]
      by_cases hyn : y ∈ noIn
      · rw [if_pos hyn]
        have hor : (none : Option (List PageId)).or (some []) = some [] := rfl
        rw [hor]
        constructor
        · intro h
          simp at h
        · intro h
          exact absurd ((hkeys0' y).mpr ⟨x, h⟩) hyt0
      · rw [if_neg hyn]
        have hor : (none : Option (List PageId)).or none = none := rfl
        rw [hor]
        constructor
        · intro h
          simp at h
        · intro h
          exact absurd ((hkeys0' y).mpr ⟨x, h⟩) hyt0
  · intro y
    rw [hkeyst, List.mem_append]
    rw [hkeys0' y, hnoInmem y]
    constructor
    · intro h
      rcases h with h | ⟨h1, _⟩
      · exact Or.inl h
      · exact Or.inr h1
    · intro h
      rcases h with h | h
      · exact Or.inl h
      · by_cases hin : ∃ x, y ∈ destsOf r x
        · exact Or.inl hin
        · exact Or.inr ⟨h, hin⟩

/-! ## The component collection walk -/

/-- The component walk ends at once on an empty worklist. -/
theorem componentWalk_nil (t : Snapshot) (fuel : Nat) (rv visited : List PageId) :
    componentWalk t fuel [] rv visited = some (rv, visited) := by
  cases fuel <;> rfl

/-- One step of the component walk: a visited page is skipped. -/
theorem componentWalk_skip (t : Snapshot) (fuel : Nat) (loc : PageId)
    (rest rv visited : List PageId) (h : loc ∈ visited) :
    componentWalk t (fuel + 1) (loc :: rest) rv visited =
      componentWalk t fuel rest rv visited := by
  rw [componentWalk]
  simp [h]

/-- One step of the component walk: a fresh page with no transpose entry is
collected as a leaf. -/
theorem componentWalk_none (t : Snapshot) (fuel : Nat) (loc : PageId)
    (rest rv visited : List PageId) (h1 : loc ∉ visited)
    (h2 : getPage t loc = none) :
    componentWalk t (fuel + 1) (loc :: rest) rv visited =
      componentWalk t fuel rest (rv ++ [loc]) (visited ++ [loc]) := by
  rw [componentWalk]
  simp [h1, h2]

/-- One step of the component walk: a fresh page with an empty transpose
entry is collected as a leaf. -/
theorem componentWalk_leaf (t : Snapshot) (fuel : Nat) (loc : PageId)
    (rest rv visited : List PageId) (h1 : loc ∉ visited)
    (h2 : getPage t loc = some []) :
    componentWalk t (fuel + 1) (loc :: rest) rv visited =
      componentWalk t fuel rest (rv ++ [loc]) (visited ++ [loc]) := by
  rw [componentWalk]
  simp [h1, h2]

/-- One step of the component walk: a fresh page is collected and its
transpose links join the worklist. -/
theorem componentWalk_expand (t : Snapshot) (fuel : Nat) (loc : PageId)
    (rest rv visited : List PageId) (d0 : PageId) (ds : List PageId)
    (h1 : loc ∉ visited) (h2 : getPage t loc = some (d0 :: ds)) :
    componentWalk t (fuel + 1) (loc :: rest) rv visited =
      componentWalk t fuel ((d0 :: ds) ++ rest) (rv ++ [loc])
        (visited ++ [loc]) := by
  rw [componentWalk]
  simp [h1, h2]

/-- Master invariant of the component walk: with enough fuel it terminates,
collecting a duplicate-free batch of fresh pages that are exactly the pages
reachable from the worklist along fresh transpose links. -/
theorem componentWalk_master (t : Snapshot) :
    ∀ (fuel : Nat) (W rv visited : List PageId),
      cpMeasure t W visited < fuel →
      ∃ dlt, componentWalk t fuel W rv visited =
          some (rv ++ dlt, visited ++ dlt) ∧
        dlt.Nodup ∧
        (∀ y ∈ dlt, y ∉ visited) ∧
        (∀ y ∈ dlt, ∃ w ∈ W, w ∉ visited ∧
          Relation.ReflTransGen (FreshStep t visited) w y) ∧
        (∀ w ∈ W, w ∉ visited → w ∈ dlt) ∧
        (∀ v ∈ dlt, ∀ d ∈ destsOf t v, d ∈ visited ++ dlt) := by
  intro fuel
  induction fuel with
  | zero =>
    intro W rv visited hm
    omega
  | succ f ih =>
    intro W rv visited hm
    rcases W with _ | ⟨loc, rest⟩
    · refine ⟨[], ?_, List.nodup_nil, ?_, ?_, ?_, ?_⟩
      · rw [List.append_nil, List.append_nil]
        exact componentWalk_nil t (f + 1) rv visited
      · intro y hy
        exact absurd hy (List.not_mem_nil y)
      · intro y hy
        exact absurd hy (List.not_mem_nil y)
      · intro w hw
        exact absurd hw (List.not_mem_nil w)
      · intro v hv
        exact absurd hv (List.not_mem_nil v)
    · by_cases hlv : loc ∈ visited
      · obtain ⟨dlt, heq, hnd, hfresh, hsnd, hcmp, hcl⟩ := ih rest rv visited
          (by simp only [cpMeasure, List.length_cons] at hm ⊢; omega)
        refine ⟨dlt, ?_, hnd, hfresh, ?_, ?_, hcl⟩
        · rw [componentWalk_skip t f loc rest rv visited hlv]
          exact heq
        · intro y hy
          obtain ⟨w, hw, hwv, hpath⟩ := hsnd y hy
          exact ⟨w, List.mem_cons_of_mem loc hw, hwv, hpath⟩
        · intro w hw hwv
          rcases List.mem_cons.mp hw with rfl | hw2
          · exact absurd hlv hwv
          · exact hcmp w hw2 hwv
      · have hfreshmono : ∀ (y : PageId) (w : PageId),
            Relation.ReflTransGen (FreshStep t (visited ++ [loc])) w y →
            Relation.ReflTransGen (FreshStep t visited) w y :=
          fun y w hp => hp.mono (fun a b hab =>
            ⟨hab.1, fun hc => hab.2 (List.mem_append_left _ hc)⟩)
        rcases hpage : getPage t loc with _ | dests
        · -- leaf: no transpose entry
          have hde : destsOf t loc = [] := by simp [destsOf, hpage]
          have hnk : loc ∉ pageIds t := by
            intro hc
            obtain ⟨ds, hds⟩ := getPage_isSome_of_key hc
            rw [hpage] at hds
            exact Option.noConfusion hds
          have hsum : ((pageIds t).dedup.filter
              (fun x => x ∉ visited ++ [loc])).map
              (fun x => (destsOf t x).length + 2) =
              ((pageIds t).dedup.filter (fun x => x ∉ visited)).map
              (fun x => (destsOf t x).length + 2) := by
            congr 1
            apply List.filter_congr
            intro a ha
            have hane : a ≠ loc := fun hc =>
              hnk (hc ▸ List.mem_dedup.mp ha)
            apply decide_eq_decide.mpr
            constructor
            · intro h hc
              exact h (List.mem_append_left _ hc)
            · intro h hc
              rcases List.mem_append.mp hc with h1 | h1
              · exact h h1
              · rw [List.mem_singleton] at h1
                exact hane h1
          obtain ⟨dlt, heq, hnd, hfresh, hsnd, hcmp, hcl⟩ := ih rest
            (rv ++ [loc]) (visited ++ [loc])
            (by
              simp only [cpMeasure, List.length_cons] at hm ⊢
              rw [hsum]
              omega)
          refine ⟨loc :: dlt, ?_, ?_, ?_, ?_, ?_, ?_⟩
          · rw [componentWalk_none t f loc rest rv visited hlv hpage]
            rw [heq, List.append_assoc, List.append_assoc]
            rfl
          · rw [List.nodup_cons]
            exact ⟨fun hc => hfresh loc hc
              (List.mem_append_right _ (List.mem_singleton_self loc)), hnd⟩
          · intro y hy
            rcases List.mem_cons.mp hy with rfl | hy2
            · exact hlv
            · exact fun hc => hfresh y hy2 (List.mem_append_left _ hc)
          · intro y hy
            rcases List.mem_cons.mp hy with rfl | hy2
            · exact ⟨y, List.mem_cons_self y rest, hlv,
                Relation.ReflTransGen.refl⟩
            · obtain ⟨w, hw, hwv, hpath⟩ := hsnd y hy2
              refine ⟨w, List.mem_cons_of_mem loc hw, ?_,
                hfreshmono y w hpath⟩
              exact fun hc => hwv (List.mem_append_left _ hc)
          · intro w hw hwv
            rcases List.mem_cons.mp hw with rfl | hw2
            · exact List.mem_cons_self w dlt
            · by_cases hwv2 : w ∈ visited ++ [loc]
              · rcases List.mem_append.mp hwv2 with h1 | h1
                · exact absurd h1 hwv
                · rw [List.mem_singleton] at h1
                  subst h1
                  exact List.mem_cons_self w dlt
              · exact List.mem_cons_of_mem loc (hcmp w hw2 hwv2)
          · intro v hv d hd
            rcases List.mem_cons.mp hv with rfl | hv2
            · rw [hde] at hd
              exact absurd hd (List.not_mem_nil d)
            · have := hcl v hv2 d hd
              rw [List.append_assoc] at this
              exact this
        · rcases dests with _ | ⟨d0, ds⟩
          · -- leaf: empty transpose entry
            have hde : destsOf t loc = [] := by simp [destsOf, hpage]
            have hk : loc ∈ pageIds t := getPage_some_key hpage
            have hrem := sum_filter_drop_elem (pageIds t).dedup
              (List.nodup_dedup _) (fun x => (destsOf t x).length + 2)
              (fun x => x ∉ visited) (fun x => x ∉ visited ++ [loc]) loc
              (List.mem_dedup.mpr hk)
              (fun x hx => by
                simp only [decide_eq_true_eq] at hx ⊢
                exact fun hxv => hx (List.mem_append_left _ hxv))
              (by simpa using hlv)
              (by simp)
            obtain ⟨dlt, heq, hnd, hfresh, hsnd, hcmp, hcl⟩ := ih rest
              (rv ++ [loc]) (visited ++ [loc])
              (by
                simp only [hde] at hrem
                simp only [cpMeasure, List.length_cons, List.length_nil] at hm hrem ⊢
                omega)
            refine ⟨loc :: dlt, ?_, ?_, ?_, ?_, ?_, ?_⟩
            · rw [componentWalk_leaf t f loc rest rv visited hlv hpage]
              rw [heq, List.append_assoc, List.append_assoc]
              rfl
            · rw [List.nodup_cons]
              exact ⟨fun hc => hfresh loc hc
                (List.mem_append_right _ (List.mem_singleton_self loc)), hnd⟩
            · intro y hy
              rcases List.mem_cons.mp hy with rfl | hy2
              · exact hlv
              · exact fun hc => hfresh y hy2 (List.mem_append_left _ hc)
            · intro y hy
              rcases List.mem_cons.mp hy with rfl | hy2
              · exact ⟨y, List.mem_cons_self y rest, hlv,
                  Relation.ReflTransGen.refl⟩
              · obtain ⟨w, hw, hwv, hpath⟩ := hsnd y hy2
                refine ⟨w, List.mem_cons_of_mem loc hw, ?_,
                  hfreshmono y w hpath⟩
                exact fun hc => hwv (List.mem_append_left _ hc)
            · intro w hw hwv
              rcases List.mem_cons.mp hw with rfl | hw2
              · exact List.mem_cons_self w dlt
              · by_cases hwv2 : w ∈ visited ++ [loc]
                · rcases List.mem_append.mp hwv2 with h1 | h1
                  · exact absurd h1 hwv
                  · rw [List.mem_singleton] at h1
                    subst h1
                    exact List.mem_cons_self w dlt
                · exact List.mem_cons_of_mem loc (hcmp w hw2 hwv2)
            · intro v hv d hd
              rcases List.mem_cons.mp hv with rfl | hv2
              · rw [hde] at hd
                exact absurd hd (List.not_mem_nil d)
              · have := hcl v hv2 d hd
                rw [List.append_assoc] at this
                exact this
          · -- expand: the transpose links join the worklist
            have hdt : destsOf t loc = d0 :: ds := by simp [destsOf, hpage]
            have hk : loc ∈ pageIds t := getPage_some_key hpage
            have hrem := sum_filter_drop_elem (pageIds t).dedup
              (List.nodup_dedup _) (fun x => (destsOf t x).length + 2)
              (fun x => x ∉ visited) (fun x => x ∉ visited ++ [loc]) loc
              (List.mem_dedup.mpr hk)
              (fun x hx => by
                simp only [decide_eq_true_eq] at hx ⊢
                exact fun hxv => hx (List.mem_append_left _ hxv))
              (by simpa using hlv)
              (by simp)
            obtain ⟨dlt, heq, hnd, hfresh, hsnd, hcmp, hcl⟩ := ih
              ((d0 :: ds) ++ rest) (rv ++ [loc]) (visited ++ [loc])
              (by
                simp only [hdt] at hrem
                simp only [cpMeasure, List.length_cons, List.length_append,
                  List.length_nil] at hm hrem ⊢
                omega)
            refine ⟨loc :: dlt, ?_, ?_, ?_, ?_, ?_, ?_⟩
            · rw [componentWalk_expand t f loc rest rv visited d0 ds hlv hpage]
              rw [heq, List.append_assoc, List.append_assoc]
              rfl
            · rw [List.nodup_cons]
              exact ⟨fun hc => hfresh loc hc
                (List.mem_append_right _ (List.mem_singleton_self loc)), hnd⟩
            · intro y hy
              rcases List.mem_cons.mp hy with rfl | hy2
              · exact hlv
              · exact fun hc => hfresh y hy2 (List.mem_append_left _ hc)
            · intro y hy
              rcases List.mem_cons.mp hy with rfl | hy2
              · exact ⟨y, List.mem_cons_self y rest, hlv,
                  Relation.ReflTransGen.refl⟩
              · obtain ⟨w, hw, hwv, hpath⟩ := hsnd y hy2
                have hwv' : w ∉ visited :=
                  fun hc => hwv (List.mem_append_left _ hc)
                rcases List.mem_append.mp hw with h1 | h1
                · refine ⟨loc, List.mem_cons_self loc rest, hlv, ?_⟩
                  refine Relation.ReflTransGen.head ?_ (hfreshmono y w hpath)
                  exact ⟨by rw [hdt]; exact h1, hwv'⟩
                · exact ⟨w, List.mem_cons_of_mem loc h1, hwv',
                    hfreshmono y w hpath⟩
            · intro w hw hwv
              rcases List.mem_cons.mp hw with rfl | hw2
              · exact List.mem_cons_self w dlt
              · by_cases hwv2 : w ∈ visited ++ [loc]
                · rcases List.mem_append.mp hwv2 with h1 | h1
                  · exact absurd h1 hwv
                  · rw [List.mem_singleton] at h1
                    subst h1
                    exact List.mem_cons_self w dlt
                · exact List.mem_cons_of_mem loc
                    (hcmp w (List.mem_append_right _ hw2) hwv2)
            · intro v hv d hd
              rcases List.mem_cons.mp hv with rfl | hv2
              · rw [hdt] at hd
                by_cases hdv : d ∈ visited ++ [v]
                · rcases List.mem_append.mp hdv with h1 | h1
                  · exact List.mem_append_left _ h1
                  · rw [List.mem_singleton] at h1
                    subst h1
                    exact List.mem_append_right _ (List.mem_cons_self _ dlt)
                · have h3 := hcmp d (List.mem_append_left _ hd) hdv
                  exact List.mem_append_right _ (List.mem_cons_of_mem _ h3)
              · have h3 := hcl v hv2 d hd
                rw [List.append_assoc] at h3
                exact h3

/-! ## The component extraction loop -/

/-- `maxLabelPage` on a non-empty label list returns the page of the largest
label. -/
theorem maxLabelPage_spec (rem : List (PageId × Nat)) (hne : rem ≠ []) :
    ∃ x m, maxLabelPage rem = some x ∧ (x, m) ∈ rem ∧ ∀ q ∈ rem, q.2 ≤ m := by
  have hmapne : rem.map Prod.snd ≠ [] := by
    intro hc
    exact hne (List.map_eq_nil.mp hc)
  rcases hmax : (rem.map Prod.snd).max? with _ | m
  · rw [List.max?_eq_none_iff] at hmax
    exact absurd hmax hmapne
  · have hiff := (List.max?_eq_some_iff (fun a => le_refl a)
      (fun a b => max_choice a b) (fun a b c => Nat.max_le)).mp hmax
    obtain ⟨hmem, hbound⟩ := hiff
    have hfind : (rem.find? (fun x => x.2 = m)).isSome := by
      rw [List.find?_isSome]
      obtain ⟨q, hq, hqm⟩ := List.mem_map.mp hmem
      exact ⟨q, hq, by simpa using hqm⟩
    rcases hf : rem.find? (fun x => x.2 = m) with _ | q
    · rw [hf] at hfind
      simp at hfind
    · have hqmem := List.mem_of_find?_eq_some hf
      have hqm : q.2 = m := by simpa using List.find?_some hf
      refine ⟨q.1, m, ?_, ?_, ?_⟩
      · unfold maxLabelPage
        rw [hmax]
        show Option.map Prod.fst (List.find? (fun x => decide (x.2 = m)) rem)
          = some q.1
        rw [hf]
        rfl
      · rw [← hqm]
        exact hqmem
      · intro q' hq'
        exact hbound q'.2 (List.mem_map.mpr ⟨q', hq', rfl⟩)

/-- The per-round fuel of the extraction loop covers the walk measure. -/
theorem cpMeasure_init (t : Snapshot) (s : PageId) (visited : List PageId) :
    cpMeasure t [s] visited < 2 * (t.length + edgeCount t) + 4 := by
  have hb := sum_degrees_le t (pageIds t).dedup (List.nodup_dedup _)
    (fun x hx => List.mem_dedup.mp hx)
  have hmono := sum_filter_mono (pageIds t).dedup
    (fun x => (destsOf t x).length + 2) (fun _ => true) (fun x => x ∉ visited)
    (fun x _ => rfl)
  rw [List.filter_true] at hmono
  simp only [cpMeasure, List.length_cons, List.length_nil]
  omega

/-- One round of the extraction loop. -/
theorem getComponentsDriver_step (t : Snapshot) (fuel : Nat)
    (labels : List (PageId × Nat)) (visited : List PageId)
    (found : List (List PageId)) :
    getComponentsDriver t (fuel + 1) labels visited found =
      if (snapKeys t).filter (fun k => k ∉ visited) = [] then some found
      else match maxLabelPage labels with
        | none => none
        | some startId =>
          match componentWalk t (2 * (t.length + edgeCount t) + 4)
              [startId] [] visited with
          | none => none
          | some (component, v2) =>
            getComponentsDriver t fuel
              (labels.filter (fun x => x.1 ∉ component)) v2
              (found ++ [component]) := rfl

/-- A fresh transpose walk reverses into reachability in the record. -/
theorem freshPath_reaches_back {r : Record} (hKnd : (pageIds r).Nodup)
    {V : List PageId} :
    ∀ x y, Relation.ReflTransGen (FreshStep (getTransposeHypertext r) V) x y →
      Reaches r y x := by
  intro x y h
  induction h with
  | refl => exact Relation.ReflTransGen.refl
  | tail hxb hbc ih =>
    rename_i b c
    have hedge : b ∈ destsOf r c :=
      ((transpose_spec r hKnd).2.1 c b).mp hbc.1
    exact Relation.ReflTransGen.head hedge ih

/-- A predecessor-closed set pulls back along reachability. -/
theorem pred_closed_pull {r : Record} {S : List PageId}
    (hS : ∀ v ∈ S, ∀ d, v ∈ destsOf r d → d ∈ S) :
    ∀ a b, Reaches r a b → b ∈ S → a ∈ S := by
  intro a b h hb
  induction h using Relation.ReflTransGen.head_induction_on with
  | refl => exact hb
  | head hac hcb ih =>
    rename_i a' c
    exact hS c ih a' hac

/-- Filtering a label list with a stronger predicate never yields a longer
list. -/
theorem length_filter_le_filter_lab (l : List (PageId × Nat))
    (p q : PageId × Nat → Bool) (himp : ∀ x, q x = true → p x = true) :
    (l.filter q).length ≤ (l.filter p).length := by
  induction l with
  | nil => simp
  | cons b l'' ih2 =>
    by_cases hqb : q b = true
    · rw [List.filter_cons_of_pos hqb, List.filter_cons_of_pos (himp b hqb)]
      simpa using ih2
    · rw [List.filter_cons_of_neg (by simpa using hqb)]
      by_cases hpb : p b = true
      · rw [List.filter_cons_of_pos hpb]
        simp only [List.length_cons]
        omega
      · rw [List.filter_cons_of_neg (by simpa using hpb)]
        exact ih2

/-- Filtering a label list with a stronger predicate that actually drops a
member strictly shortens the list. -/
theorem length_filter_lt_of_imp_lab (l : List (PageId × Nat))
    (p q : PageId × Nat → Bool) (himp : ∀ x, q x = true → p x = true)
    (y : PageId × Nat) (hy : y ∈ l) (hpy : p y = true) (hqy : q y = false) :
    (l.filter q).length < (l.filter p).length := by
  induction l with
  | nil => simp at hy
  | cons a l' ih =>
    rcases List.mem_cons.mp hy with rfl | hy2
    · rw [List.filter_cons_of_pos hpy, List.filter_cons_of_neg (by simp [hqy])]
      have h2 := length_filter_le_filter_lab l' p q himp
      simp only [List.length_cons]
      omega
    · by_cases hqa : q a = true
      · rw [List.filter_cons_of_pos hqa, List.filter_cons_of_pos (himp a hqa)]
        simp only [List.length_cons]
        have := ih hy2
        omega
      · rw [List.filter_cons_of_neg (by simpa using hqa)]
        by_cases hpa : p a = true
        · rw [List.filter_cons_of_pos hpa]
          simp only [List.length_cons]
          have := ih hy2
          omega
        · rw [List.filter_cons_of_neg (by simpa using hpa)]
          exact ih hy2

/-- The component extraction loop of `Server.getSCCs` terminates and returns
one strongly-connected component per round: each returned component is a
genuine SCC, and together they cover every key of the transpose graph. -/
theorem getComponentsDriver_spec (r : Record) (hND : NoDangling r)
    (hKnd : (pageIds r).Nodup) {vis : List PageId}
    {labels0 : List (PageId × Nat)} {E : List Nat}
    (K : KosarajuFacts r vis labels0 E) :
    ∀ (fuel : Nat) (rem : List (PageId × Nat)) (V : List PageId)
      (found : List (List PageId)),
      rem = labels0.filter (fun q => q.1 ∉ V) →
      rem.length < fuel →
      (∀ z ∈ V, z ∈ pageIds r) →
      (∀ z ∈ V, ∀ w, Mutual r z w → w ∈ V) →
      (∀ v ∈ V, ∀ d, v ∈ destsOf r d → d ∈ V) →
      (∀ c ∈ found, IsSCC r c ∧ c.Nodup) →
      (∀ z ∈ V, ∃ c ∈ found, z ∈ c) →
      (∀ c ∈ found, ∀ z ∈ c, z ∈ V) →
      ∃ comps, getComponentsDriver (getTransposeHypertext r) fuel rem V found
          = some comps ∧
        (∀ c ∈ comps, IsSCC r c ∧ c.Nodup) ∧
        (∀ y ∈ snapKeys (getTransposeHypertext r), ∃ c ∈ comps, y ∈ c) := by
  intro fuel
  induction fuel with
  | zero =>
    intro rem V found hrem hfuel
    omega
  | succ fuel ih =>
    intro rem V found hrem hfuel hkeys hSCC hpred hfound hcov hin
    by_cases hstop : (snapKeys (getTransposeHypertext r)).filter
        (fun k => k ∉ V) = []
    · refine ⟨found, ?_, hfound, ?_⟩
      · rw [getComponentsDriver_step, if_pos hstop]
      · intro y hy
        have hyv : y ∈ V := by
          have := List.filter_eq_nil_iff.mp hstop y hy
          simpa using this
        exact hcov y hyv
    · -- an unvisited key exists, so the label pool is non-empty
      obtain ⟨u, hu⟩ := List.exists_mem_of_ne_nil _ hstop
      have huk : u ∈ snapKeys (getTransposeHypertext r) ∧ u ∉ V := by
        have h1 := List.mem_filter.mp hu
        exact ⟨h1.1, by simpa using h1.2⟩
      have hukey : u ∈ pageIds r := by
        rcases ((transpose_spec r hKnd).2.2 u).mp huk.1 with ⟨xs, hx2⟩ | ⟨d, hd⟩
        · exact nd_dests hND xs u hx2
        · exact key_of_dest_nonempty hd
      have hremne : rem ≠ [] := by
        obtain ⟨p, hp, hpu⟩ :=
          List.mem_map.mp ((K.hlabv u).mpr (K.hkv u hukey))
        intro hc
        have hpr : p ∈ rem := by
          rw [hrem]
          exact List.mem_filter.mpr ⟨hp, by simp [hpu, huk.2]⟩
        rw [hc] at hpr
        exact absurd hpr (List.not_mem_nil p)
      obtain ⟨x, m, hmaxeq, hxrem, hmax⟩ := maxLabelPage_spec rem hremne
      have hxm0 : (x, m) ∈ labels0 := by
        have h1 := hxrem
        rw [hrem] at h1
        exact (List.mem_filter.mp h1).1
      have hxnv : x ∉ V := by
        have h1 := hxrem
        rw [hrem] at h1
        simpa using (List.mem_filter.mp h1).2
      have hxk : x ∈ pageIds r := K.hvk x ((K.hlabv x).mp
        (List.mem_map.mpr ⟨(x, m), hxm0, rfl⟩))
      obtain ⟨dlt, hwalk, hnd, hfresh, hsound, hcmp, hcl⟩ :=
        componentWalk_master (getTransposeHypertext r)
          (2 * ((getTransposeHypertext r).length +
            edgeCount (getTransposeHypertext r)) + 4)
          [x] [] V (cpMeasure_init (getTransposeHypertext r) x V)
      rw [List.nil_append] at hwalk
      have hxdlt : x ∈ dlt := hcmp x (List.mem_cons_self x []) hxnv
      -- every collected page is in the SCC of the start page
      have hclaim1 : ∀ y ∈ dlt, Mutual r x y := by
        intro y hy
        obtain ⟨w, hw, hwnv, hpath⟩ := hsound y hy
        have hwx : w = x := by simpa using hw
        rw [hwx] at hpath
        have hyx : Reaches r y x := freshPath_reaches_back hKnd x y hpath
        by_contra hnm
        have hyk : y ∈ pageIds r := by
          rcases Relation.ReflTransGen.cases_head hyx with heq | ⟨d, hd, _⟩
          · rw [heq]; exact hxk
          · exact key_of_dest_nonempty hd
        obtain ⟨lX, hX⟩ := exists_maxClassLabel K hND hxk
        obtain ⟨lY, hY⟩ := exists_maxClassLabel K hND hyk
        have hle := reach_maxClassLabel_le K hND y x hyx lY lX hY hX
        have hlt : lX < lY := hle.2 (fun h => hnm (mutual_symm h))
        obtain ⟨ys, hysm, hysl, _⟩ := hY
        have hysnv : ys ∉ V := by
          intro hysv
          exact hfresh y hy (hSCC ys hysv y (mutual_symm hysm))
        have hysrem : (ys, lY) ∈ rem := by
          rw [hrem]
          exact List.mem_filter.mpr ⟨hysl, by simpa using hysnv⟩
        have h1 : lY ≤ m := hmax (ys, lY) hysrem
        obtain ⟨xs, hxsm, hxsl, hmaxX⟩ := hX
        have h2 : m ≤ lX := hmaxX x m (mutual_refl r x) hxm0
        omega
      -- the visited set extended by the batch is predecessor-closed
      have hS : ∀ v ∈ V ++ dlt, ∀ d, v ∈ destsOf r d → d ∈ V ++ dlt := by
        intro v hv d hd
        rcases List.mem_append.mp hv with hv1 | hv2
        · exact List.mem_append_left dlt (hpred v hv1 d hd)
        · have hdt : d ∈ destsOf (getTransposeHypertext r) v :=
            ((transpose_spec r hKnd).2.1 d v).mpr hd
          exact hcl v hv2 d hdt
      -- every member of the SCC of the start page is collected
      have hclaim2 : ∀ y, Mutual r x y → y ∈ dlt := by
        intro y hxy
        have hyS : y ∈ V ++ dlt :=
          pred_closed_pull hS y x hxy.2 (List.mem_append_right V hxdlt)
        rcases List.mem_append.mp hyS with hy1 | hy2
        · exact absurd (hSCC y hy1 x (mutual_symm hxy)) hxnv
        · exact hy2
      have hscc : IsSCC r dlt :=
        ⟨x, hxdlt, fun y => ⟨fun hy => hclaim1 y hy, fun hy => hclaim2 y hy⟩⟩
      -- the one-step unfolding of the loop
      have hcall : getComponentsDriver (getTransposeHypertext r) (fuel + 1)
          rem V found =
          getComponentsDriver (getTransposeHypertext r) fuel
            (rem.filter (fun q => q.1 ∉ dlt)) (V ++ dlt) (found ++ [dlt]) := by
        rw [getComponentsDriver_step, if_neg hstop, hmaxeq]
        show (match componentWalk (getTransposeHypertext r)
            (2 * ((getTransposeHypertext r).length +
              edgeCount (getTransposeHypertext r)) + 4) [x] [] V with
          | none => none
          | some (component, v2) =>
            getComponentsDriver (getTransposeHypertext r) fuel
              (rem.filter (fun q => q.1 ∉ component)) v2
              (found ++ [component])) = _
        rw [hwalk]
      have hfiltereq : rem.filter (fun q => q.1 ∉ dlt) =
          labels0.filter (fun q => q.1 ∉ (V ++ dlt)) := by
        rw [hrem, List.filter_filter]
        apply List.filter_congr
        intro q hq
        by_cases h1 : q.1 ∈ V <;> by_cases h2 : q.1 ∈ dlt <;>
          simp [h1, h2, List.mem_append]
      have hmeas : (labels0.filter (fun q => q.1 ∉ (V ++ dlt))).length < fuel := by
        have hlt := length_filter_lt_of_imp_lab labels0
          (fun q => q.1 ∉ V) (fun q => q.1 ∉ (V ++ dlt))
          (by
            intro z hz
            simp only [decide_eq_true_eq, List.mem_append, not_or] at hz ⊢
            exact hz.1)
          (x, m) hxm0 (by simpa using hxnv)
          (by simp [List.mem_append, hxdlt])
        rw [← hrem] at hlt
        omega
      obtain ⟨comps, hcomps, hsc, hcovfin⟩ := ih
        (labels0.filter (fun q => q.1 ∉ (V ++ dlt))) (V ++ dlt)
        (found ++ [dlt]) rfl hmeas
        (by
          intro z hz
          rcases List.mem_append.mp hz with hz1 | hz2
          · exact hkeys z hz1
          · exact reaches_mem_keys hND hxk (hclaim1 z hz2).1)
        (by
          intro z hz w hm
          rcases List.mem_append.mp hz with hz1 | hz2
          · exact List.mem_append_left dlt (hSCC z hz1 w hm)
          · exact List.mem_append_right V
              (hclaim2 w (mutual_trans (hclaim1 z hz2) hm)))
        hS
        (by
          intro c hc
          rcases List.mem_append.mp hc with hc1 | hc2
          · exact hfound c hc1
          · rw [List.mem_singleton.mp hc2]
            exact ⟨hscc, hnd⟩)
        (by
          intro z hz
          rcases List.mem_append.mp hz with hz1 | hz2
          · obtain ⟨c, hc, hzc⟩ := hcov z hz1
            exact ⟨c, List.mem_append_left [dlt] hc, hzc⟩
          · exact ⟨dlt, List.mem_append_right found (List.mem_singleton_self dlt),
              hz2⟩)
        (by
          intro c hc z hz
          rcases List.mem_append.mp hc with hc1 | hc2
          · exact List.mem_append_left dlt (hin c hc1 z hz)
          · rw [List.mem_singleton.mp hc2] at hz
            exact List.mem_append_right V hz)
      refine ⟨comps, ?_, hsc, hcovfin⟩
      rw [hcall, hfiltereq]
      exact hcomps

/-- `Server.getSCCs` on a dangling-free, duplicate-free store terminates and
returns genuine strongly-connected components that cover every endpoint of
every link. -/
theorem getSCCs_correct (r : Record) (hND : NoDangling r)
    (hKnd : (pageIds r).Nodup) :
    ∃ comps, getSCCs r = some comps ∧
      (∀ c ∈ comps, IsSCC r c ∧ c.Nodup) ∧
      (∀ y, ((∃ x, y ∈ destsOf r x) ∨ ∃ d, d ∈ destsOf r y) →
        ∃ c ∈ comps, y ∈ c) := by
  obtain ⟨labels, vis, E, hlab, K⟩ := labelPhase_spec r hND
  obtain ⟨comps, hdrv, hsc, hcov⟩ := getComponentsDriver_spec r hND hKnd K
    (labels.length + (getTransposeHypertext r).length + 2) labels [] []
    (by
      symm
      rw [List.filter_eq_self]
      intro q hq
      simp)
    (by omega)
    (fun z hz => absurd hz (List.not_mem_nil z))
    (fun z hz w hw => absurd hz (List.not_mem_nil z))
    (fun v hv d hd => absurd hv (List.not_mem_nil v))
    (fun c hc => absurd hc (List.not_mem_nil c))
    (fun z hz => absurd hz (List.not_mem_nil z))
    (fun c hc z hz => absurd hc (List.not_mem_nil c))
  refine ⟨comps, ?_, hsc, ?_⟩
  · show (match labelDriver r (r.length + 1) 0 [] [] with
      | none => none
      | some labels =>
        getComponentsDriver (getTransposeHypertext r)
          (labels.length + (getTransposeHypertext r).length + 2)
          labels [] []) = some comps
    rw [hlab]
    exact hdrv
  · intro y hy
    exact hcov y (((transpose_spec r hKnd).2.2 y).mpr hy)

/-- Self-loop freedom on the registered pages extends to all ids, since an
unregistered page has no links. -/
theorem noSelfLoops_of_keys {r : Record}
    (h : ∀ x ∈ pageIds r, x ∉ destsOf r x) : NoSelfLoops r := by
  intro x hx
  by_cases hk : x ∈ pageIds r
  · exact h x hk hx
  · rw [destsOf_eq_nil_of_not_key hk] at hx
    exact absurd hx (List.not_mem_nil x)

/-- C2 counterexample: on the self-loop store `{1: {1}}` every component of
the SCC decomposition is a singleton, yet `findCycle` returns the closed
walk `[1, 1]` and `isDAG` reports `False` — the claimed three-way
equivalence fails on graphs containing self-loop edges. -/
theorem findCycle_isDAG_getSCCs_selfloop :
    getSCCs [(1, [1])] = some [[1]] ∧
    (∀ c ∈ [[1]], ∃ z : PageId, c = [z]) ∧
    findCycle [(1, [1])] = some (some [1, 1]) ∧
    isDAG [(1, [1])] = some false := by
  refine ⟨by decide, ?_, by decide, by decide⟩
  intro c hc
  rw [List.mem_singleton.mp hc]
  exact ⟨1, rfl⟩

/-- C2, amended: on a non-empty store without dangling links, duplicate
registrations or self-loop edges, `findCycle` runs to completion and returns
the no-cycle answer iff `isDAG` returns `True` iff every component returned
by `getSCCs` is a singleton; all three are equivalent to the store having no
non-trivial closed walk.  The original claim's extension of the equivalence
to graphs with self-loop edges is refuted by the counterexample above. -/
theorem findCycle_isDAG_getSCCs_equiv (r : Record) (hND : NoDangling r)
    (hKnd : (pageIds r).Nodup) (hne : pageIds r ≠ [])
    (hNS : ∀ x ∈ pageIds r, x ∉ destsOf r x) :
    ∃ res comps, findCycle r = some res ∧ getSCCs r = some comps ∧
      (isDAG r = some true ↔ res = none) ∧
      (res = none ↔ Acyclic r) ∧
      ((∀ c ∈ comps, ∃ z, c = [z]) ↔ Acyclic r) := by
  obtain ⟨res, hres, hiff, hcyc⟩ := findCycle_correct r hND hne
  obtain ⟨comps, hsccs, hsc, hcov⟩ := getSCCs_correct r hND hKnd
  refine ⟨res, comps, hres, hsccs, ?_, hiff, ?_⟩
  · unfold isDAG
    rw [hres]
    simp
  · constructor
    · intro hsing
      by_contra hnac
      obtain ⟨u, v, huv, hm⟩ := not_acyclic_mutual (noSelfLoops_of_keys hNS) hnac
      have hustep : ∃ d, d ∈ destsOf r u := by
        rcases Relation.ReflTransGen.cases_head hm.1 with heq | ⟨d, hd, _⟩
        · exact absurd heq huv
        · exact ⟨d, hd⟩
      obtain ⟨c, hc, huc⟩ := hcov u (Or.inr hustep)
      obtain ⟨⟨x0, hx0c, hx0iff⟩, hnd⟩ := hsc c hc
      obtain ⟨z, hz⟩ := hsing c hc
      have hux0 : Mutual r x0 u := (hx0iff u).mp huc
      have hvc : v ∈ c := (hx0iff v).mpr (mutual_trans hux0 hm)
      rw [hz] at huc hvc
      have h1 := List.mem_singleton.mp huc
      have h2 := List.mem_singleton.mp hvc
      exact huv (h1.trans h2.symm)
    · intro hac c hc
      obtain ⟨⟨x0, hx0c, hx0iff⟩, hnd⟩ := hsc c hc
      refine ⟨x0, eq_singleton_of_nodup_all_eq hx0c hnd ?_⟩
      intro y hy
      by_contra hne2
      have hm := (hx0iff y).mp hy
      have htg : Relation.TransGen (fun a b => b ∈ destsOf r a) x0 y := by
        rcases Relation.reflTransGen_iff_eq_or_transGen.mp hm.1 with heq | htg
        · exact absurd heq hne2
        · exact htg
      exact hac y (Relation.TransGen.trans_right hm.2 htg)

/-- C2 witness: the corrected equivalence instantiated on the two-page
acyclic store `{1: {2}, 2: {}}`. -/
theorem findCycle_isDAG_getSCCs_equiv_witness :
    ∃ res comps, findCycle [(1, [2]), (2, [])] = some res ∧
      getSCCs [(1, [2]), (2, [])] = some comps ∧
      (isDAG [(1, [2]), (2, [])] = some true ↔ res = none) ∧
      (res = none ↔ Acyclic [(1, [2]), (2, [])]) ∧
      ((∀ c ∈ comps, ∃ z, c = [z]) ↔ Acyclic [(1, [2]), (2, [])]) :=
  findCycle_isDAG_getSCCs_equiv [(1, [2]), (2, [])]
    (by unfold NoDangling; decide) (by decide) (by decide) (by decide)

end Sww
